import Mathlib

/-!
Verification development for the `seg-tree` repository: a family of segment
tree engines (iterative, recursive, lazy, persistent, lazy-persistent) that
are generic over a node capability set (`Node`, `LazyNode`, plus a persistent
wrapper storing child indices).

The Rust trait `Node` is modelled as a structure of operations `NodeOps`,
and `LazyNode` as `LazyOps`.  Mutating Rust methods become functions
`N → ... → N`; arenas (`Vec<T>`) become `List N` with `getD`/`set` access;
`MaybeUninit` arenas are modelled as default-initialised lists (slots are
written before being read, exactly as the source relies on).  Recursive
helpers take an explicit `fuel` argument; the entry points pass enough fuel
for the recursion depth used by the source (the range `j - i` shrinks at
every recursive call), so fuel exhaustion is unreachable from the public
entry points.  Rust `debug` panics that the claims talk about (the `n - 1`
underflow on empty trees, `roots[version]` on an empty root list) are
modelled by an outer `Option`: `none` is a panic.
-/

set_option autoImplicit false

namespace SegTree

/-- Model of the Rust trait `Node` (src/src/nodes/node.rs): `initialize`,
`combine`, `value`. -/
structure NodeOps (N V : Type) where
  init : V → N
  combine : N → N → N
  value : N → V

/-- Model of the Rust trait `LazyNode` (src/src/nodes/lazy_node.rs), which
extends `Node` with `lazy_update`, `update_lazy_value` and `lazy_value`.
Mutating methods become state-transforming functions. -/
structure LazyOps (N V : Type) extends NodeOps N V where
  lazyUpdate : N → Nat → Nat → N
  updateLazyValue : N → V → N
  lazyValue : N → Option V

/-- The node type of `Sum<T>` (src/src/utils/sum.rs) at `T = i64`, with
mathematical integers standing in for `i64` (no claim exercises overflow). -/
structure SumNode where
  value : Int
  lazyValue : Option Int
  deriving Repr, DecidableEq, Inhabited

/-- `Node` and `LazyNode` implementation of `Sum` (src/src/utils/sum.rs):
combine adds values; `lazy_update` adds the pending value once per element of
the range `[i,j]`; `update_lazy_value` accumulates pending values. -/
def sumOps : LazyOps SumNode Int where
  init v := { value := v, lazyValue := none }
  combine a b := { value := a.value + b.value, lazyValue := none }
  value n := n.value
  lazyUpdate n i j :=
    match n.lazyValue with
    | some v => { value := n.value + v * ((j - i + 1 : Nat) : Int), lazyValue := none }
    | none => n
  updateLazyValue n v :=
    match n.lazyValue with
    | some old => { n with lazyValue := some (old + v) }
    | none => { n with lazyValue := some v }
  lazyValue n := n.lazyValue

/-- The node type of `Min<T>` (src/src/utils/min.rs) at `T = i64`. -/
structure MinNode where
  value : Int
  lazyValue : Option Int
  deriving Repr, DecidableEq, Inhabited

/-- `Node` and `LazyNode` implementation of `Min` (src/src/utils/min.rs):
combine takes the minimum; the lazy update sets every element of the range to
the pending value. -/
def minOps : LazyOps MinNode Int where
  init v := { value := v, lazyValue := none }
  combine a b := { value := min a.value b.value, lazyValue := none }
  value n := n.value
  lazyUpdate n _ _ :=
    match n.lazyValue with
    | some v => { value := v, lazyValue := none }
    | none => n
  updateLazyValue n v := { n with lazyValue := some v }
  lazyValue n := n.lazyValue

/-- The node type of `MaxSubArraySum` (src/src/utils/max_subarray_sum.rs):
an aggregator caching four derived fields. -/
structure MssNode where
  maxSum : Int
  maxPreSum : Int
  maxSufSum : Int
  sum : Int
  deriving Repr, DecidableEq, Inhabited

/-- `Node` implementation of `MaxSubArraySum`
(src/src/utils/max_subarray_sum.rs). `value` exposes only `max_sum`. -/
def mssOps : NodeOps MssNode Int where
  init v := { maxSum := v, maxPreSum := v, maxSufSum := v, sum := v }
  combine a b :=
    { maxSum := max (max a.maxSum b.maxSum) (a.maxSufSum + b.maxPreSum)
      maxPreSum := max a.maxPreSum (a.sum + b.maxPreSum)
      maxSufSum := max b.maxSufSum (b.sum + a.maxSufSum)
      sum := a.sum + b.sum }
  value n := n.maxSum

/-- The node type of `LazySetWrapper<T>` (src/src/utils/lazy_set_wrapper.rs):
a wrapped aggregator plus a pending "set the range to this value" slot. -/
structure LswNode (N V : Type) where
  node : N
  lazyValue : Option V

instance {N V : Type} [Inhabited N] : Inhabited (LswNode N V) := ⟨⟨default, none⟩⟩

/-- `Node`/`LazyNode` implementation of `LazySetWrapper`
(src/src/utils/lazy_set_wrapper.rs): `lazy_update` replaces the wrapped node
by `initialize(pending)`; `update_lazy_value` overwrites the pending slot. -/
def lswOps {N V : Type} (ops : NodeOps N V) : LazyOps (LswNode N V) V where
  init v := { node := ops.init v, lazyValue := none }
  combine a b := { node := ops.combine a.node b.node, lazyValue := none }
  value n := ops.value n.node
  lazyUpdate n _ _ :=
    match n.lazyValue with
    | some v => { node := ops.init v, lazyValue := none }
    | none => n
  updateLazyValue n v := { n with lazyValue := some v }
  lazyValue n := n.lazyValue

/-- The node type of `PersistentWrapper<T>`
(src/src/internal_utils/persistent_utils.rs): a wrapped node plus two
optional child arena indices (`NonNUsize` is an index niche optimisation;
plain `Option Nat` is its meaning). -/
structure PWrap (N : Type) where
  node : N
  left : Option Nat
  right : Option Nat

instance {N : Type} [Inhabited N] : Inhabited (PWrap N) := ⟨⟨default, none, none⟩⟩

namespace PWrap

/-- `From<T> for PersistentWrapper<T>`: wrap with no children. -/
def ofNode {N : Type} (n : N) : PWrap N := ⟨n, none, none⟩

/-- `PersistentWrapper::set_children`. -/
def setChildren {N : Type} (w : PWrap N) (l r : Nat) : PWrap N :=
  { w with left := some l, right := some r }

/-- `Node for PersistentWrapper`: combine wraps the combined inner nodes with
children unset. -/
def combine {N V : Type} (ops : NodeOps N V) (a b : PWrap N) : PWrap N :=
  ⟨ops.combine a.node b.node, none, none⟩

/-- `Node::initialize for PersistentWrapper`. -/
def init {N V : Type} (ops : NodeOps N V) (v : V) : PWrap N :=
  ⟨ops.init v, none, none⟩

/-- `LazyNode for PersistentWrapper` forwards to the inner node:
`lazy_update`. -/
def lazyUpdate {N V : Type} (ops : LazyOps N V) (w : PWrap N) (i j : Nat) : PWrap N :=
  { w with node := ops.lazyUpdate w.node i j }

/-- `LazyNode for PersistentWrapper` forwards to the inner node:
`update_lazy_value`. -/
def updateLazyValue {N V : Type} (ops : LazyOps N V) (w : PWrap N) (v : V) : PWrap N :=
  { w with node := ops.updateLazyValue w.node v }

/-- `LazyNode for PersistentWrapper` forwards to the inner node:
`lazy_value`. -/
def lazyValue {N V : Type} (ops : LazyOps N V) (w : PWrap N) : Option V :=
  ops.lazyValue w.node

end PWrap

/-- Merging the two optional child answers of a lazy persistent query,
exactly the four-way match its `query_helper` performs. -/
def mergeW {N V : Type} (ops : NodeOps N V) :
    Option (PWrap N) → Option (PWrap N) → Option (PWrap N)
  | some ansLeft, some ansRight => some (PWrap.combine ops ansLeft ansRight)
  | some ansLeft, none => some ansLeft
  | none, some ansRight => some ansRight
  | none, none => none

/-- State of the iterative engine `Iterative<T>`
(src/src/segment_tree/iterative.rs): a flat `2n`-slot arena with leaves at
positions `[n, 2n)`. -/
structure IterState (N : Type) where
  nodes : List N
  n : Nat

namespace Iterative

variable {N V : Type} [Inhabited N]

/-- The build loop of `Iterative::build`: for `i` from `n-1` down to `1`,
`nodes[i] = combine(nodes[2i], nodes[2i+1])`.  `buildAux k` performs the
first `k` iterations of that loop (indices `n-1, …, n-k`). -/
def buildAux (ops : NodeOps N V) (n : Nat) : Nat → List N → List N
  | 0, arr => arr
  | k + 1, arr =>
    let arr1 := buildAux ops n k arr
    let i := n - 1 - k
    arr1.set i (ops.combine (arr1.getD (2 * i) default) (arr1.getD (2 * i + 1) default))

/-- `Iterative::build` (src/src/segment_tree/iterative.rs).  The source
allocates `2n` uninitialised slots and writes leaves then ancestors; slots
`[0, n)` are modelled as default placeholders overwritten by the loop. -/
def build (ops : NodeOps N V) (values : List N) : IterState N :=
  let n := values.length
  { nodes := buildAux ops n (n - 1) (List.replicate n default ++ values), n := n }

/-- Folding the boundary node at index `k` into the left accumulator:
`Node::initialize(node.value())` seeds an absent accumulator, otherwise the
accumulator is combined on the left of the node. -/
def accStepL (ops : NodeOps N V) (nodes : List N) (k : Nat) : Option N → N
  | none => ops.init (ops.value (nodes.getD k default))
  | some nd => ops.combine nd (nodes.getD k default)

/-- Folding the boundary node at index `k` into the right accumulator:
the node is combined on the left of the accumulator. -/
def accStepR (ops : NodeOps N V) (nodes : List N) (k : Nat) : Option N → N
  | none => ops.init (ops.value (nodes.getD k default))
  | some nd => ops.combine (nodes.getD k default) nd

/-- The query loop of `Iterative::query`: two accumulators fold boundary
nodes while both pointers walk toward the root; one fuel unit per loop
iteration.  Note the source starts an accumulator (and re-wraps a one-sided
result) with `Node::initialize(node.value())` rather than with the node
itself. -/
def queryGo (ops : NodeOps N V) (nodes : List N) :
    Nat → Nat → Nat → Option N → Option N → Option N × Option N
  | 0, _, _, ansLeft, ansRight => (ansLeft, ansRight)
  | fuel + 1, l, r, ansLeft, ansRight =>
    if l < r then
      let p1 :=
        if l % 2 = 1 then (l + 1, some (accStepL ops nodes l ansLeft))
        else (l, ansLeft)
      let p2 :=
        if r % 2 = 1 then (r - 1, some (accStepR ops nodes (r - 1) ansRight))
        else (r, ansRight)
      queryGo ops nodes fuel (p1.1 / 2) (p2.1 / 2) p1.2 p2.2
    else (ansLeft, ansRight)

/-- `Iterative::query` (src/src/segment_tree/iterative.rs). -/
def query (ops : NodeOps N V) (st : IterState N) (l r : Nat) : Option N :=
  match queryGo ops st.nodes (st.n + r + 2) (l + st.n) (r + st.n + 1) none none with
  | (some aL, some aR) => some (ops.combine aL aR)
  | (some aL, none) => some (ops.init (ops.value aL))
  | (none, some aR) => some (ops.init (ops.value aR))
  | (none, none) => none

end Iterative

/-- State of the recursive engine `Recursive<T>`
(src/src/segment_tree/recursive.rs): an implicit heap array of size `4n`
with children of `k` at `2k+1` and `2k+2`.  The same layout is used by
`LazyRecursive<T>`. -/
structure RecState (N : Type) where
  nodes : List N
  n : Nat

namespace Recursive

variable {N V : Type} [Inhabited N]

/-- `Recursive::build_helper`: writes the leaf for `i = j`, otherwise builds
both children then combines them into `curr`. -/
def buildHelper (ops : NodeOps N V) (values : List N) :
    Nat → Nat → Nat → Nat → List N → List N
  | 0, _, _, _, arr => arr
  | fuel + 1, curr, i, j, arr =>
    if i = j then arr.set curr (values.getD i default)
    else
      let mid := (i + j) / 2
      let leftNode := 2 * curr + 1
      let rightNode := 2 * curr + 2
      let arr1 := buildHelper ops values fuel leftNode i mid arr
      let arr2 := buildHelper ops values fuel rightNode (mid + 1) j arr1
      arr2.set curr (ops.combine (arr2.getD leftNode default) (arr2.getD rightNode default))

/-- `Recursive::build`: an empty slice yields an engine with an empty arena
and `n = 0`; otherwise the `4n` uninitialised arena (modelled with default
placeholders) is filled by `build_helper` from the root range `[0, n-1]`. -/
def build (ops : NodeOps N V) (values : List N) : RecState N :=
  let n := values.length
  if n = 0 then { nodes := [], n := 0 }
  else { nodes := buildHelper ops values n 0 0 (n - 1) (List.replicate (4 * n) default), n := n }

/-- `Recursive::query_helper`: `None` on disjoint ranges, the stored node on
covered ranges, recursion plus combine otherwise. -/
def queryHelper (ops : NodeOps N V) (nodes : List N) :
    Nat → Nat → Nat → Nat → Nat → Nat → Option N
  | 0, _, _, _, _, _ => none
  | fuel + 1, left, right, curr, i, j =>
    if j < left ∨ right < i then none
    else
      let mid := (i + j) / 2
      let leftNode := 2 * curr + 1
      let rightNode := 2 * curr + 2
      if left ≤ i ∧ j ≤ right then some (nodes.getD curr default)
      else
        match queryHelper ops nodes fuel left right leftNode i mid,
              queryHelper ops nodes fuel left right rightNode (mid + 1) j with
        | some ansLeft, some ansRight => some (ops.combine ansLeft ansRight)
        | some ansLeft, none => some ansLeft
        | none, some ansRight => some ansRight
        | none, none => none

/-- `Recursive::query`: the outer `Option` models the `self.n - 1` underflow
panic on an empty tree (`none` is the panic). -/
def query (ops : NodeOps N V) (st : RecState N) (left right : Nat) : Option (Option N) :=
  if st.n = 0 then none
  else some (queryHelper ops st.nodes st.n left right 0 0 (st.n - 1))

/-- `Recursive::lower_bound_helper`: binary descent guided by the predicate
on the left child's value; a leaf returns its own index without testing the
predicate. -/
def lowerBoundHelper (ops : NodeOps N V) (nodes : List N)
    (pred : V → V → Bool) (g : V → V → V) :
    Nat → Nat → Nat → Nat → V → Nat
  | 0, _, i, _, _ => i
  | fuel + 1, curr, i, j, v =>
    if i = j then i
    else
      let mid := (i + j) / 2
      let leftNode := 2 * curr + 1
      let rightNode := 2 * curr + 2
      let leftValue := ops.value (nodes.getD leftNode default)
      if pred leftValue v then lowerBoundHelper ops nodes pred g fuel leftNode i mid v
      else lowerBoundHelper ops nodes pred g fuel rightNode (mid + 1) j (g leftValue v)

/-- `Recursive::lower_bound`: the outer `Option` models the `self.n - 1`
underflow panic on an empty tree. -/
def lowerBound (ops : NodeOps N V) (st : RecState N)
    (pred : V → V → Bool) (g : V → V → V) (v : V) : Option Nat :=
  if st.n = 0 then none
  else some (lowerBoundHelper ops st.nodes pred g st.n 0 0 (st.n - 1) v)

end Recursive

namespace LazyRecursive

variable {N V : Type} [Inhabited N]

/-- `LazyRecursive::build` (src/src/segment_tree/lazy_recursive.rs) is
line-for-line the same top-down build as `Recursive::build`. -/
def build (ops : LazyOps N V) (values : List N) : RecState N :=
  Recursive.build ops.toNodeOps values

/-- `LazyRecursive::push`: if the node has a pending value and is not a leaf,
compose the pending value into both children's pending slots, then finalize
the node itself with `lazy_update`. -/
def push (ops : LazyOps N V) (nodes : List N) (u i j : Nat) : List N :=
  let nodes1 :=
    match ops.lazyValue (nodes.getD u default) with
    | some v =>
      if i ≠ j then
        (nodes.set (2 * u + 1) (ops.updateLazyValue (nodes.getD (2 * u + 1) default) v)).set
          (2 * u + 2) (ops.updateLazyValue (nodes.getD (2 * u + 2) default) v)
      else nodes
    | none => nodes
  nodes1.set u (ops.lazyUpdate (nodes1.getD u default) i j)

/-- `LazyRecursive::update_helper`: push first (even before the disjoint
check), short-circuit on disjoint ranges, stage-then-push on covered ranges,
otherwise recurse and recombine. -/
def updateHelper (ops : LazyOps N V) (left right : Nat) (v : V) :
    Nat → Nat → Nat → Nat → List N → List N
  | 0, _, _, _, nodes => nodes
  | fuel + 1, curr, i, j, nodes =>
    let nodes1 :=
      if (ops.lazyValue (nodes.getD curr default)).isSome then push ops nodes curr i j
      else nodes
    if j < left ∨ right < i then nodes1
    else if left ≤ i ∧ j ≤ right then
      push ops (nodes1.set curr (ops.updateLazyValue (nodes1.getD curr default) v)) curr i j
    else
      let mid := (i + j) / 2
      let leftNode := 2 * curr + 1
      let rightNode := 2 * curr + 2
      let nodes2 := updateHelper ops left right v fuel leftNode i mid nodes1
      let nodes3 := updateHelper ops left right v fuel rightNode (mid + 1) j nodes2
      nodes3.set curr (ops.combine (nodes3.getD leftNode default) (nodes3.getD rightNode default))

/-- `LazyRecursive::update`: the outer `Option` models the `self.n - 1`
underflow panic on an empty tree. -/
def update (ops : LazyOps N V) (st : RecState N) (i j : Nat) (v : V) :
    Option (RecState N) :=
  if st.n = 0 then none
  else some { nodes := updateHelper ops i j v st.n 0 0 (st.n - 1) st.nodes, n := st.n }

/-- `LazyRecursive::query_helper`: disjoint check, push, covered check,
recursion; returns the possibly mutated arena together with the result. -/
def queryHelper (ops : LazyOps N V) (left right : Nat) :
    Nat → Nat → Nat → Nat → List N → List N × Option N
  | 0, _, _, _, nodes => (nodes, none)
  | fuel + 1, curr, i, j, nodes =>
    if j < left ∨ right < i then (nodes, none)
    else
      let mid := (i + j) / 2
      let leftNode := 2 * curr + 1
      let rightNode := 2 * curr + 2
      let nodes1 :=
        if (ops.lazyValue (nodes.getD curr default)).isSome then push ops nodes curr i j
        else nodes
      if left ≤ i ∧ j ≤ right then (nodes1, some (nodes1.getD curr default))
      else
        let res1 := queryHelper ops left right fuel leftNode i mid nodes1
        let res2 := queryHelper ops left right fuel rightNode (mid + 1) j res1.1
        (res2.1,
          match res1.2, res2.2 with
          | some ansLeft, some ansRight => some (ops.combine ansLeft ansRight)
          | some ansLeft, none => some ansLeft
          | none, some ansRight => some ansRight
          | none, none => none)

/-- `LazyRecursive::query`: the outer `Option` models the `self.n - 1`
underflow panic on an empty tree. -/
def query (ops : LazyOps N V) (st : RecState N) (left right : Nat) :
    Option (RecState N × Option N) :=
  if st.n = 0 then none
  else
    let res := queryHelper ops left right st.n 0 0 (st.n - 1) st.nodes
    some ({ nodes := res.1, n := st.n }, res.2)

end LazyRecursive

/-- State of the persistent engines `Persistent<T>` and `LazyPersistent<T>`
(src/src/segment_tree/persistent.rs, lazy_persistent.rs): a growing arena of
wrapped nodes plus the append-only list of version roots. -/
structure PerState (N : Type) where
  nodes : List (PWrap N)
  roots : List Nat
  n : Nat

namespace Persistent

variable {N V : Type} [Inhabited N]

/-- `Persistent::build_helper`: materialize the left subtree, the right
subtree, then push the combined node and point it at its children; returns
the new arena and the index of the created node. -/
def buildHelper (ops : NodeOps N V) (values : List N) :
    Nat → Nat → Nat → List (PWrap N) → List (PWrap N) × Nat
  | 0, _, _, arr => (arr, 0)
  | fuel + 1, i, j, arr =>
    if i = j then (arr ++ [PWrap.ofNode (values.getD i default)], arr.length)
    else
      let mid := (i + j) / 2
      let res1 := buildHelper ops values fuel i mid arr
      let res2 := buildHelper ops values fuel (mid + 1) j res1.1
      let arr2 := res2.1
      let curr := arr2.length
      let arr3 := arr2 ++ [PWrap.combine ops (arr2.getD res1.2 default) (arr2.getD res2.2 default)]
      (arr3.set curr ((arr3.getD curr default).setChildren res1.2 res2.2), curr)

/-- `Persistent::build`: one root, recorded as version 0; the empty slice
yields an engine with no roots. -/
def build (ops : NodeOps N V) (values : List N) : PerState N :=
  let n := values.length
  if n = 0 then { nodes := [], roots := [], n := 0 }
  else
    let res := buildHelper ops values n 0 (n - 1) []
    { nodes := res.1, roots := [res.2], n := n }

/-- `Persistent::query_helper`: the recursive fold of `Recursive`, resolving
children through the stored arena indices. -/
def queryHelper (ops : NodeOps N V) (nodes : List (PWrap N)) (left right : Nat) :
    Nat → Nat → Nat → Nat → Option (PWrap N)
  | 0, _, _, _ => none
  | fuel + 1, curr, i, j =>
    if j < left ∨ right < i then none
    else if left ≤ i ∧ j ≤ right then some (nodes.getD curr default)
    else
      let mid := (i + j) / 2
      let leftNode := ((nodes.getD curr default).left).getD 0
      let rightNode := ((nodes.getD curr default).right).getD 0
      match queryHelper ops nodes left right fuel leftNode i mid,
            queryHelper ops nodes left right fuel rightNode (mid + 1) j with
      | some ansLeft, some ansRight => some (PWrap.combine ops ansLeft ansRight)
      | some ansLeft, none => some ansLeft
      | none, some ansRight => some ansRight
      | none, none => none

/-- `Persistent::query`: panics (outer `none`) on an out-of-range version
(`roots[version]`) and on an empty tree (`self.n - 1`). -/
def query (ops : NodeOps N V) (st : PerState N) (version left right : Nat) :
    Option (Option N) :=
  if version < st.roots.length then
    if st.n = 0 then none
    else
      some ((queryHelper ops st.nodes left right st.n (st.roots.getD version 0) 0
        (st.n - 1)).map PWrap.node)
  else none

/-- `Persistent::update_helper`: copy-on-write — outside the target the old
index is reused; otherwise the node is copied to a fresh slot, the leaf is
rewritten or both children are recursed, and the copy is recombined and
re-pointed. -/
def updateHelper (ops : NodeOps N V) (p : Nat) (v : V) :
    Nat → Nat → Nat → Nat → List (PWrap N) → List (PWrap N) × Nat
  | 0, curr, _, _, nodes => (nodes, curr)
  | fuel + 1, curr, i, j, nodes =>
    if j < p ∨ p < i then (nodes, curr)
    else
      let x := nodes.length
      let nodes1 := nodes ++ [nodes.getD curr default]
      if i = j then (nodes1.set x (PWrap.init ops v), x)
      else
        let mid := (i + j) / 2
        let res1 := updateHelper ops p v fuel (((nodes1.getD x default).left).getD 0) i mid nodes1
        let res2 :=
          updateHelper ops p v fuel (((res1.1.getD x default).right).getD 0) (mid + 1) j res1.1
        let nodes3 := res2.1
        let nodes4 :=
          nodes3.set x (PWrap.combine ops (nodes3.getD res1.2 default) (nodes3.getD res2.2 default))
        (nodes4.set x ((nodes4.getD x default).setChildren res1.2 res2.2), x)

/-- `Persistent::update`: appends the new root; panics (outer `none`) on an
out-of-range version or an empty tree. -/
def update (ops : NodeOps N V) (st : PerState N) (version p : Nat) (v : V) :
    Option (PerState N) :=
  if version < st.roots.length then
    if st.n = 0 then none
    else
      let res := updateHelper ops p v st.n (st.roots.getD version 0) 0 (st.n - 1) st.nodes
      some { nodes := res.1, roots := st.roots ++ [res.2], n := st.n }
  else none

/-- `Persistent::versions`: the number of recorded roots. -/
def versions (st : PerState N) : Nat :=
  st.roots.length

/-- `Persistent::lower_bound_helper`: the descent of
`Recursive::lower_bound_helper`, reading children through stored indices. -/
def lowerBoundHelper (ops : NodeOps N V) (nodes : List (PWrap N))
    (pred : V → V → Bool) (g : V → V → V) :
    Nat → Nat → Nat → Nat → V → Nat
  | 0, _, i, _, _ => i
  | fuel + 1, curr, i, j, v =>
    if i = j then i
    else
      let mid := (i + j) / 2
      let leftNode := ((nodes.getD curr default).left).getD 0
      let rightNode := ((nodes.getD curr default).right).getD 0
      let leftValue := ops.value (nodes.getD leftNode default).node
      if pred leftValue v then lowerBoundHelper ops nodes pred g fuel leftNode i mid v
      else lowerBoundHelper ops nodes pred g fuel rightNode (mid + 1) j (g leftValue v)

/-- `Persistent::lower_bound` with the same panic modelling as `query`. -/
def lowerBound (ops : NodeOps N V) (st : PerState N) (version : Nat)
    (pred : V → V → Bool) (g : V → V → V) (v : V) : Option Nat :=
  if version < st.roots.length then
    if st.n = 0 then none
    else
      some (lowerBoundHelper ops st.nodes pred g st.n (st.roots.getD version 0) 0 (st.n - 1) v)
  else none

end Persistent

namespace LazyPersistent

variable {N V : Type} [Inhabited N]

/-- `LazyPersistent::build` is the same arena build as `Persistent::build`
(leaves wrapped via `From`, internal nodes combined then re-pointed). -/
def build (ops : LazyOps N V) (values : List N) : PerState N :=
  Persistent.build ops.toNodeOps values

/-- `LazyPersistent::push`: if the node holds a pending value and is not a
leaf, allocate fresh copies of both children, compose the pending value into
the copies' pending slots, re-point the current node at the copies; in all
cases finalize the current node with `lazy_update`.  Note the current node is
mutated in place. -/
def push (ops : LazyOps N V) (nodes : List (PWrap N)) (curr i j : Nat) :
    List (PWrap N) :=
  let w := nodes.getD curr default
  let nodes2 :=
    match PWrap.lazyValue ops w with
    | some v =>
      if i ≠ j then
        let leftNode := nodes.length
        let rightNode := nodes.length + 1
        let nodes1 := nodes ++
          [nodes.getD (w.left.getD 0) default, nodes.getD (w.right.getD 0) default]
        let nodes1b :=
          (nodes1.set leftNode (PWrap.updateLazyValue ops (nodes1.getD leftNode default) v)).set
            rightNode (PWrap.updateLazyValue ops (nodes1.getD rightNode default) v)
        nodes1b.set curr ((nodes1b.getD curr default).setChildren leftNode rightNode)
      else nodes
    | none => nodes
  nodes2.set curr (PWrap.lazyUpdate ops (nodes2.getD curr default) i j)

/-- `LazyPersistent::query_helper`: disjoint check, push if pending, covered
check, recursion through stored indices; returns the grown arena with the
result. -/
def queryHelper (ops : LazyOps N V) (left right : Nat) :
    Nat → Nat → Nat → Nat → List (PWrap N) → List (PWrap N) × Option (PWrap N)
  | 0, _, _, _, nodes => (nodes, none)
  | fuel + 1, curr, i, j, nodes =>
    if j < left ∨ right < i then (nodes, none)
    else
      let nodes1 :=
        if (PWrap.lazyValue ops (nodes.getD curr default)).isSome then push ops nodes curr i j
        else nodes
      if left ≤ i ∧ j ≤ right then (nodes1, some (nodes1.getD curr default))
      else
        let mid := (i + j) / 2
        let leftNode := ((nodes1.getD curr default).left).getD 0
        let rightNode := ((nodes1.getD curr default).right).getD 0
        let res1 := queryHelper ops left right fuel leftNode i mid nodes1
        let res2 := queryHelper ops left right fuel rightNode (mid + 1) j res1.1
        (res2.1, mergeW ops.toNodeOps res1.2 res2.2)

/-- `LazyPersistent::query` with the same panic modelling as
`Persistent::query`; returns the new engine state and the result. -/
def query (ops : LazyOps N V) (st : PerState N) (version left right : Nat) :
    Option (PerState N × Option N) :=
  if version < st.roots.length then
    if st.n = 0 then none
    else
      let res := queryHelper ops left right st.n (st.roots.getD version 0) 0 (st.n - 1) st.nodes
      some ({ nodes := res.1, roots := st.roots, n := st.n }, res.2.map PWrap.node)
  else none

/-- `LazyPersistent::update_helper`: copy-on-write recursion; a covered range
stages the value on the copy and immediately pushes it; a partial overlap
recurses into both children and recombines — without pushing the copy
first. -/
def updateHelper (ops : LazyOps N V) (left right : Nat) (v : V) :
    Nat → Nat → Nat → Nat → List (PWrap N) → List (PWrap N) × Nat
  | 0, curr, _, _, nodes => (nodes, curr)
  | fuel + 1, curr, i, j, nodes =>
    if j < left ∨ right < i then (nodes, curr)
    else
      let x := nodes.length
      let nodes1 := nodes ++ [nodes.getD curr default]
      if left ≤ i ∧ j ≤ right then
        (push ops (nodes1.set x (PWrap.updateLazyValue ops (nodes1.getD x default) v)) x i j, x)
      else
        let mid := (i + j) / 2
        let res1 :=
          updateHelper ops left right v fuel (((nodes1.getD x default).left).getD 0) i mid nodes1
        let res2 :=
          updateHelper ops left right v fuel (((res1.1.getD x default).right).getD 0) (mid + 1) j
            res1.1
        let nodes3 := res2.1
        let nodes4 :=
          nodes3.set x
            (PWrap.combine ops.toNodeOps (nodes3.getD res1.2 default) (nodes3.getD res2.2 default))
        (nodes4.set x ((nodes4.getD x default).setChildren res1.2 res2.2), x)

/-- `LazyPersistent::update`: appends the new root; panics (outer `none`) on
an out-of-range version or an empty tree. -/
def update (ops : LazyOps N V) (st : PerState N) (version left right : Nat) (v : V) :
    Option (PerState N) :=
  if version < st.roots.length then
    if st.n = 0 then none
    else
      let res := updateHelper ops left right v st.n (st.roots.getD version 0) 0 (st.n - 1) st.nodes
      some { nodes := res.1, roots := st.roots ++ [res.2], n := st.n }
  else none

/-- `LazyPersistent::versions`: the number of recorded roots. -/
def versions (st : PerState N) : Nat :=
  st.roots.length

/-- `LazyPersistent::lower_bound_helper`: like `Persistent`, but when the
left child slot is unset the node is pushed first. -/
def lowerBoundHelper (ops : LazyOps N V) (pred : V → V → Bool) (g : V → V → V) :
    Nat → Nat → Nat → Nat → V → List (PWrap N) → List (PWrap N) × Nat
  | 0, _, i, _, _, nodes => (nodes, i)
  | fuel + 1, curr, i, j, v, nodes =>
    if i = j then (nodes, i)
    else
      let mid := (i + j) / 2
      let pr : List (PWrap N) × Nat :=
        match (nodes.getD curr default).left with
        | some l => (nodes, l)
        | none =>
          let nodesP := push ops nodes curr i j
          (nodesP, ((nodesP.getD curr default).left).getD 0)
      let nodes1 := pr.1
      let leftNode := pr.2
      let rightNode := ((nodes1.getD curr default).right).getD 0
      let leftValue := ops.value (nodes1.getD leftNode default).node
      if pred leftValue v then lowerBoundHelper ops pred g fuel leftNode i mid v nodes1
      else lowerBoundHelper ops pred g fuel rightNode (mid + 1) j (g leftValue v) nodes1

/-- `LazyPersistent::lower_bound` with the same panic modelling as `query`;
returns the possibly grown engine state and the found index. -/
def lowerBound (ops : LazyOps N V) (st : PerState N) (version : Nat)
    (pred : V → V → Bool) (g : V → V → V) (v : V) : Option (PerState N × Nat) :=
  if version < st.roots.length then
    if st.n = 0 then none
    else
      let res :=
        lowerBoundHelper ops pred g st.n (st.roots.getD version 0) 0 (st.n - 1) v st.nodes
      some ({ nodes := res.1, roots := st.roots, n := st.n }, res.2)
  else none

end LazyPersistent

/-! ### C1: operation sequences over the persistent engines, the canonical
segment assignment of a persistent arena, and the pending-accumulator
denotation of a lazy persistent query -/

/-- The segment stored for arena slot `k` (out-of-range reads default to
`(0, 0)`; they are always guarded by a length bound). -/
def segOf (segs : List (Nat × Nat)) (k : Nat) : Nat × Nat :=
  segs.getD k (0, 0)

/-- `s` is a subsegment of `t`. -/
def segSub (s t : Nat × Nat) : Prop :=
  t.1 ≤ s.1 ∧ s.2 ≤ t.2

/-- Slot `k` of a persistent arena is well-formed for its assigned segment:
a one-element segment is a leaf (no children); a wider segment has both
children present, in range, and assigned exactly the two midpoint halves. -/
def SegOkAt {N : Type} [Inhabited N] (nodes : List (PWrap N)) (segs : List (Nat × Nat))
    (n k : Nat) : Prop :=
  (segOf segs k).1 ≤ (segOf segs k).2 ∧ (segOf segs k).2 < n ∧
  ((segOf segs k).1 = (segOf segs k).2 →
    (nodes.getD k default).left = none ∧ (nodes.getD k default).right = none) ∧
  ((segOf segs k).1 ≠ (segOf segs k).2 →
    ∃ p q, (nodes.getD k default).left = some p ∧ (nodes.getD k default).right = some q ∧
      p < nodes.length ∧ q < nodes.length ∧
      segOf segs p = ((segOf segs k).1, ((segOf segs k).1 + (segOf segs k).2) / 2) ∧
      segOf segs q = (((segOf segs k).1 + (segOf segs k).2) / 2 + 1, (segOf segs k).2))

/-- Every slot of a persistent arena carries the canonical segment recorded
in `segs` (one entry per slot). -/
def SegsOkG {N : Type} [Inhabited N] (nodes : List (PWrap N)) (segs : List (Nat × Nat))
    (n : Nat) : Prop :=
  segs.length = nodes.length ∧ ∀ k, k < nodes.length → SegOkAt nodes segs n k

/-- All recorded roots live in the arena and span the full segment. -/
def RootsOkP {N : Type} [Inhabited N] (st : PerState N) (segs : List (Nat × Nat)) : Prop :=
  ∀ ro ∈ st.roots, ro < st.nodes.length ∧ segOf segs ro = (0, st.n - 1)

/-- The left-child arena index of slot `k` as the code reads it
(`unwrap`-free modelling: an unset slot reads as index 0). -/
def chL {N : Type} [Inhabited N] (nodes : List (PWrap N)) (k : Nat) : Nat :=
  ((nodes.getD k default).left).getD 0

/-- The right-child arena index of slot `k`. -/
def chR {N : Type} [Inhabited N] (nodes : List (PWrap N)) (k : Nat) : Nat :=
  ((nodes.getD k default).right).getD 0

/-- The stored `Sum` value of slot `k`. -/
def valD (nodes : List (PWrap SumNode)) (k : Nat) : Int :=
  (nodes.getD k default).node.value

/-- The pending lazy value of slot `k`, read as an integer (`0` if absent). -/
def pendD (nodes : List (PWrap SumNode)) (k : Nat) : Int :=
  ((nodes.getD k default).node.lazyValue).getD 0

/-- Merging two optional partial answers, as every `query_helper` does. -/
def mergeI : Option Int → Option Int → Option Int
  | some a, some b => some (a + b)
  | some a, none => some a
  | none, some b => some b
  | none, none => none

/-- The pure denotation of a lazy persistent `Sum` query from slot `curr`
spanning `[i, j]`, with `d` the composition of all pending values of the
(conceptually unpushed) ancestors: a covered node contributes its stored
value plus `(pending + d)` once per element; recursion composes the node's
own pending value into `d`. -/
def pQuery (nodes : List (PWrap SumNode)) : Nat → Nat → Nat → Nat → Int → Nat → Nat → Option Int
  | 0, _, _, _, _, _, _ => none
  | fuel + 1, curr, i, j, d, l, r =>
    if j < l ∨ r < i then none
    else if l ≤ i ∧ j ≤ r then
      some (valD nodes curr + (pendD nodes curr + d) * ((j - i + 1 : Nat) : Int))
    else
      mergeI (pQuery nodes fuel (chL nodes curr) i ((i + j) / 2) (d + pendD nodes curr) l r)
        (pQuery nodes fuel (chR nodes curr) ((i + j) / 2 + 1) j (d + pendD nodes curr) l r)

/-- A caller-visible operation on a `Persistent` engine. -/
inductive POp (V : Type) where
  | upd (version p : Nat) (v : V)
  | qry (version l r : Nat)
  | lb (version : Nat) (pred : V → V → Bool) (g : V → V → V) (v : V)

/-- Run one operation on a `Persistent` engine: `query` and `lower_bound`
take `&self` and cannot change the state; a panicking `update` (invalid
version or empty tree) aborts, modelled as leaving the state unchanged. -/
def Persistent.runOp {N V : Type} [Inhabited N] (ops : NodeOps N V) (st : PerState N) :
    POp V → PerState N
  | POp.upd version p v => (Persistent.update ops st version p v).getD st
  | POp.qry _ _ _ => st
  | POp.lb _ _ _ _ => st

/-- Run a sequence of operations on a `Persistent` engine. -/
def Persistent.runOps {N V : Type} [Inhabited N] (ops : NodeOps N V) (st : PerState N)
    (l : List (POp V)) : PerState N :=
  l.foldl (Persistent.runOp ops) st

/-- A caller-visible operation on the `LazyPersistent` engine over `Sum`
nodes: unlike `Persistent`, `query` and `lower_bound` take `&mut self` and
may push pending values through shared nodes. -/
inductive LOp where
  | upd (version l r : Nat) (v : Int)
  | qry (version l r : Nat)
  | lb (version : Nat) (pred : Int → Int → Bool) (g : Int → Int → Int) (v : Int)

/-- Run one operation on a `LazyPersistent` engine over `Sum` nodes, keeping
the mutated state of queries and lower bounds. -/
def LazyPersistent.runOp (st : PerState SumNode) : LOp → PerState SumNode
  | LOp.upd version l r v => (LazyPersistent.update sumOps st version l r v).getD st
  | LOp.qry version l r =>
    match LazyPersistent.query sumOps st version l r with
    | some pr => pr.1
    | none => st
  | LOp.lb version pred g v =>
    match LazyPersistent.lowerBound sumOps st version pred g v with
    | some pr => pr.1
    | none => st

/-- Run a sequence of operations on the `LazyPersistent` engine. -/
def LazyPersistent.runOps (st : PerState SumNode) (l : List LOp) : PerState SumNode :=
  l.foldl LazyPersistent.runOp st

/-! ### Shared concrete inputs -/

/-- The leaves `Sum::initialize(0), …, Sum::initialize(n-1)` used by the
repository's tests and the spec's concrete scenarios. -/
def sumLeavesUpTo (n : Nat) : List SumNode :=
  (List.range n).map (fun x => sumOps.init (x : Int))

/-- The `MaxSubArraySum` leaf row used to exercise `Iterative::query` on a
node type with cached derived fields. -/
def mssLeafRow : List MssNode :=
  ([0, 0, 10, -100, 50, 50, 50, 50] : List Int).map mssOps.init

/-- Left-to-right combine-fold of the leaves `values[l..=r]`, the reference
result the spec describes for a range query. -/
def foldRange {N V : Type} (ops : NodeOps N V) (values : List N) (l r : Nat) : Option N :=
  match (values.drop l).take (r + 1 - l) with
  | [] => none
  | x :: xs => some (xs.foldl ops.combine x)

/-- The value of the combine-fold over `values[i..=j]`, used to state
`lower_bound` properties about segment aggregates. -/
def rangeVal {N V : Type} [Inhabited N] (ops : NodeOps N V) (values : List N) (i j : Nat) : V :=
  ops.value ((foldRange ops values i j).getD default)

/-- Adversarial predicate for `lower_bound` (C9): it fires only on the exact
pair `(1, 99)`, which is never a prefix aggregate paired with the original
target. -/
def predC9 : Int → Int → Bool := fun s v => s == 1 && v == 99

/-- Adversarial residual-transfer function for `lower_bound` (C9): it
replaces the target by `99` when descending right. -/
def gC9 : Int → Int → Int := fun _ _ => 99

/-- The `Sum` leaves `[1, 1, 1, 1]` used by the `lower_bound`
counterexamples. -/
def onesLeaves4 : List SumNode := List.replicate 4 (sumOps.init 1)

/-- The `Recursive` sum tree over `[1, 1, 1, 1]` used by the `lower_bound`
counterexamples. -/
def onesTree4 : RecState SumNode :=
  Recursive.build sumOps.toNodeOps onesLeaves4

/-- The honest sum-threshold predicate `prefix_sum ≥ target` from the
`lower_bound` doc examples. -/
def predSumGe : Int → Int → Bool := fun s v => s ≥ v

/-- The honest residual function "subtract the left sum" from the
`lower_bound` doc examples. -/
def gSumSub : Int → Int → Int := fun l v => v - l

/-- Predicate of the C4 counterexample: the sum-threshold predicate `s ≥ v`
with an always-true escape hatch for targets `≥ 1000`. -/
def predC4 : Int → Int → Bool := fun s v => s ≥ v || v ≥ 1000

/-- Residual-transfer function of the C4 counterexample: honest subtraction,
except that the pair `(2, 4)` — exactly the one produced at the root of the
tree over `[1,1,1,1]` with target 4 — is sent to the escape value 1000. -/
def gC4 : Int → Int → Int := fun l v =>
  if v ≥ 1000 then 1000 else if l = 2 ∧ v = 4 then 1000 else v - l

/-! ### Leaf lists for the iterative layout -/

/-- First-element fold of a list of nodes (left-to-right combine). -/
def fold1 {N V : Type} [Inhabited N] (ops : NodeOps N V) : List N → N
  | [] => default
  | x :: xs => xs.foldl ops.combine x

/-- The left-to-right combine of the leaves with the given indices. -/
def nodeOfL {N V : Type} [Inhabited N] (ops : NodeOps N V) (values : List N)
    (L : List Nat) : N :=
  fold1 ops (L.map (fun t => values.getD t default))

/-- The list of leaf indices below slot `k` of the iterative `2n`-slot
layout: slots `[n, 2n)` are the leaves themselves; an internal slot `k < n`
covers the leaves of `2k` and `2k+1`. -/
def leafL (n : Nat) : Nat → Nat → List Nat
  | 0, k => if n ≤ k then (if k < 2 * n then [k - n] else []) else []
  | fuel + 1, k =>
    if n ≤ k then (if k < 2 * n then [k - n] else [])
    else leafL n fuel (2 * k) ++ leafL n fuel (2 * k + 1)

/-- Canonical leaf list of slot `k` (fuel `n` always suffices: doubling `k`
at least once per step reaches `n` within `n` steps from any `k ≥ 1`). -/
def leafListN (n k : Nat) : List Nat := leafL n n k

/-! ### Canonical subtree values for the heap-layout engines -/

/-- The parent of heap position `k` (children of `c` are `2c+1`, `2c+2`). -/
def anc (k : Nat) : Nat := (k - 1) / 2

/-- The canonical node over `values[i..=j]` combined in the same association
order as the recursive builds: leaf for `i = j`, otherwise the combine of the
two canonical halves split at `(i+j)/2`. -/
def segNode {N V : Type} [Inhabited N] (ops : NodeOps N V) (values : List N) :
    Nat → Nat → Nat → N
  | 0, _, _ => default
  | fuel + 1, i, j =>
    if i = j then values.getD i default
    else
      ops.combine (segNode ops values fuel i ((i + j) / 2))
        (segNode ops values fuel ((i + j) / 2 + 1) j)

/-- Heap positions belonging to the subtree rooted at `curr` for the range
`[i, j]`. -/
def InSub : Nat → Nat → Nat → Nat → Nat → Prop
  | 0, _, _, _, _ => False
  | fuel + 1, curr, i, j, k =>
    k = curr ∨ (i ≠ j ∧
      (InSub fuel (2 * curr + 1) i ((i + j) / 2) k ∨
        InSub fuel (2 * curr + 2) ((i + j) / 2 + 1) j k))

/-- The arena stores the canonical node at every position of the subtree
rooted at `curr` for `[i, j]`. -/
def SubtreeEq {N V : Type} [Inhabited N] (ops : NodeOps N V) (values : List N)
    (nodes : List N) : Nat → Nat → Nat → Nat → Prop
  | 0, _, _, _ => False
  | fuel + 1, curr, i, j =>
    nodes.getD curr default = segNode ops values (fuel + 1) i j ∧
      (i ≠ j →
        SubtreeEq ops values nodes fuel (2 * curr + 1) i ((i + j) / 2) ∧
          SubtreeEq ops values nodes fuel (2 * curr + 2) ((i + j) / 2 + 1) j)

/-! ## Theorems -/

/-- C7: on a sum tree built over the 11 values `0..=10`, `query(0,10)`
aggregates to 55 (shown for both the recursive and the iterative engine);
and on a lazy sum tree over the same leaves, after the range update adding 20
over `[0,9]`, `query(0,1)` yields `0 + 1 + 2·20 = 41`. -/
theorem c7_concrete_sum_scenarios :
    Recursive.query sumOps.toNodeOps (Recursive.build sumOps.toNodeOps (sumLeavesUpTo 11)) 0 10
      = some (some { value := 55, lazyValue := none }) ∧
    Iterative.query sumOps.toNodeOps (Iterative.build sumOps.toNodeOps (sumLeavesUpTo 11)) 0 10
      = some { value := 55, lazyValue := none } ∧
    (LazyRecursive.update sumOps (LazyRecursive.build sumOps (sumLeavesUpTo 11)) 0 9 20).bind
        (fun st => (LazyRecursive.query sumOps st 0 1).map (fun res => res.2.map SumNode.value))
      = some (some 41) := by
  refine ⟨by decide, by decide, by decide⟩

/-- C2 (code evaluation at the failing input): on `LazyPersistent` over
`Sum` leaves `[0, 1]`, after `update(0, [0,1], +10)` and `update(1, [0,0],
+100)`, the partial-overlap branch of `update_helper` recombined a child that
still carried the pending `+10` without pushing it, so version 2 answers
`query(2,0,1) = 111` while its own point queries answer `110` and `11`
(logical contents `[110, 11]`, total `121`). -/
theorem c2_unpushed_update_loses_pending_evaluation :
    (((LazyPersistent.update sumOps (LazyPersistent.build sumOps [sumOps.init 0, sumOps.init 1])
          0 0 1 10).bind
        (fun st => LazyPersistent.update sumOps st 1 0 0 100)).bind
      (fun st =>
        some ((LazyPersistent.query sumOps st 2 0 1).map (fun res => res.2.map SumNode.value),
          (LazyPersistent.query sumOps st 2 0 0).map (fun res => res.2.map SumNode.value),
          (LazyPersistent.query sumOps st 2 1 1).map (fun res => res.2.map SumNode.value))))
      = some (some (some 111), some (some 110), some (some 11)) ∧ (111 : Int) ≠ 110 + 11 := by
  refine ⟨by decide, by decide⟩

/-- C3 (counterexample): for the cached-field node type `MaxSubArraySum`,
`Iterative::query` does not return the left-to-right combine-fold of the
leaves — on the row `[0, 0, 10, -100, 50, 50, 50, 50]` the query `(2,7)`
answers a node with `value()` 210, while the fold of `leaves[2..=7]` has
`value()` 200.  The accumulators are seeded with
`Node::initialize(node.value())`, which collapses the cached prefix/suffix
sums. -/
theorem c3_counterexample_mss_iterative_query :
    (Iterative.query mssOps (Iterative.build mssOps mssLeafRow) 2 7).map mssOps.value
      = some 210 ∧
    (foldRange mssOps mssLeafRow 2 7).map mssOps.value = some 200 ∧
    Iterative.query mssOps (Iterative.build mssOps mssLeafRow) 2 7
      ≠ foldRange mssOps mssLeafRow 2 7 := by
  refine ⟨by decide, by decide, by decide⟩

/-- C9 (counterexample): with arbitrary (non-monotonic) predicate and
residual function, "when no prefix satisfies the predicate the result is
`n-1`" is false: on the sum tree over `[1,1,1,1]` the prefix aggregates are
`1,2,3,4` and `predC9` rejects all of them with the original target `0`, yet
`lower_bound` returns index 2, not `n-1 = 3` — the residual function may
make the predicate fire on non-prefix segments. -/
theorem c9_counterexample_no_prefix_result :
    ((List.range 4).map (fun i =>
        (Recursive.query sumOps.toNodeOps onesTree4 0 i).map (Option.map SumNode.value)))
      = [some (some 1), some (some 2), some (some 3), some (some 4)] ∧
    (∀ s, s ∈ ([1, 2, 3, 4] : List Int) → predC9 s 0 = false) ∧
    Recursive.lowerBound sumOps.toNodeOps onesTree4 predC9 gC9 0 = some 2 ∧
    (2 : Nat) ≠ 4 - 1 := by
  refine ⟨by decide, by decide, by decide, by decide⟩

/-- C6: for each provided lazy node implementation (`Sum`, `Min`,
`LazySetWrapper`): immediately after `lazy_update` the pending slot is empty;
immediately after `update_lazy_value` it is occupied; and `lazy_update` on an
empty pending slot is a no-op. -/
theorem c6_lazy_node_invariants :
    (∀ (s : SumNode) (i j : Nat), sumOps.lazyValue (sumOps.lazyUpdate s i j) = none) ∧
    (∀ (s : SumNode) (v : Int), (sumOps.lazyValue (sumOps.updateLazyValue s v)).isSome) ∧
    (∀ (s : SumNode) (i j : Nat), sumOps.lazyValue s = none → sumOps.lazyUpdate s i j = s) ∧
    (∀ (s : MinNode) (i j : Nat), minOps.lazyValue (minOps.lazyUpdate s i j) = none) ∧
    (∀ (s : MinNode) (v : Int), (minOps.lazyValue (minOps.updateLazyValue s v)).isSome) ∧
    (∀ (s : MinNode) (i j : Nat), minOps.lazyValue s = none → minOps.lazyUpdate s i j = s) ∧
    (∀ (N V : Type) (ops : NodeOps N V) (s : LswNode N V) (i j : Nat),
      (lswOps ops).lazyValue ((lswOps ops).lazyUpdate s i j) = none) ∧
    (∀ (N V : Type) (ops : NodeOps N V) (s : LswNode N V) (v : V),
      ((lswOps ops).lazyValue ((lswOps ops).updateLazyValue s v)).isSome) ∧
    (∀ (N V : Type) (ops : NodeOps N V) (s : LswNode N V) (i j : Nat),
      (lswOps ops).lazyValue s = none → (lswOps ops).lazyUpdate s i j = s) := by
  refine ⟨?_, ?_, ?_, ?_, ?_, ?_, ?_, ?_, ?_⟩
  · intro s i j; cases h : s.lazyValue <;> simp [sumOps, h]
  · intro s v; cases h : s.lazyValue <;> simp [sumOps, h]
  · intro s i j h; simp [sumOps] at h ⊢; simp [h]
  · intro s i j; cases h : s.lazyValue <;> simp [minOps, h]
  · intro s v; cases h : s.lazyValue <;> simp [minOps, h]
  · intro s i j h; simp [minOps] at h ⊢; simp [h]
  · intro N V ops s i j; cases h : s.lazyValue <;> simp [lswOps, h]
  · intro N V ops s v; cases h : s.lazyValue <;> simp [lswOps, h]
  · intro N V ops s i j h; simp [lswOps] at h ⊢; simp [h]

/-- Witness for C6 at concrete nodes with an empty pending slot. -/
theorem c6_lazy_node_invariants_witness :
    sumOps.lazyUpdate { value := 5, lazyValue := none } 1 3
        = { value := 5, lazyValue := none } ∧
    minOps.lazyUpdate { value := 7, lazyValue := none } 0 0
        = { value := 7, lazyValue := none } ∧
    (lswOps mssOps).lazyUpdate { node := mssOps.init 2, lazyValue := none } 0 1
        = { node := mssOps.init 2, lazyValue := none } :=
  ⟨c6_lazy_node_invariants.2.2.1 _ 1 3 rfl,
   c6_lazy_node_invariants.2.2.2.2.2.1 _ 0 0 rfl,
   c6_lazy_node_invariants.2.2.2.2.2.2.2.2 _ _ mssOps _ 0 1 rfl⟩

/-- C10: `build` accepts an empty slice and returns an engine, but on such an
engine every `query` panics (modelled as the outer `none`): the recursive
engines underflow in `self.n - 1`, the persistent engines index
`roots[version]` into an empty root list. -/
theorem c10_empty_build_query_panics {N V : Type} [Inhabited N]
    (ops : NodeOps N V) (lops : LazyOps N V) :
    Recursive.build ops ([] : List N) = { nodes := [], n := 0 } ∧
    (∀ l r, Recursive.query ops (Recursive.build ops []) l r = none) ∧
    Persistent.build ops ([] : List N) = { nodes := [], roots := [], n := 0 } ∧
    (∀ version l r, Persistent.query ops (Persistent.build ops []) version l r = none) ∧
    (∀ version l r, LazyPersistent.query lops (LazyPersistent.build lops []) version l r = none) ∧
    (∀ l r, LazyRecursive.query lops (LazyRecursive.build lops []) l r = none) := by
  refine ⟨rfl, fun l r => rfl, rfl, fun version l r => ?_, fun version l r => ?_, fun l r => rfl⟩
  · simp [Persistent.query, Persistent.build]
  · simp [LazyPersistent.query, LazyPersistent.build, Persistent.build]

/-! ### C5: a query returns a result exactly on a non-empty intersection -/

theorem Recursive.queryHelper_isSome_iff {N V : Type} [Inhabited N] (ops : NodeOps N V)
    (nodes : List N) (left right : Nat) :
    ∀ (fuel curr i j : Nat), j - i < fuel → i ≤ j →
      ((Recursive.queryHelper ops nodes fuel left right curr i j).isSome
        ↔ (left ≤ j ∧ i ≤ right ∧ left ≤ right)) := by
  intro fuel
  induction fuel with
  | zero => intro curr i j h _; omega
  | succ fuel ih =>
    intro curr i j hfuel hij
    rw [Recursive.queryHelper]
    by_cases hdis : j < left ∨ right < i
    · rw [if_pos hdis]; simp; omega
    · rw [if_neg hdis]
      by_cases hcov : left ≤ i ∧ j ≤ right
      · simp only [hcov, and_self, if_pos, Option.isSome_some]
        constructor
        · intro _; omega
        · intro _; trivial
      · have hlt : i < j := by omega
        simp only [hcov, if_neg, if_false]
        have h1 := ih (2 * curr + 1) i ((i + j) / 2) (by omega) (by omega)
        have h2 := ih (2 * curr + 2) ((i + j) / 2 + 1) j (by omega) (by omega)
        rcases e1 : Recursive.queryHelper ops nodes fuel left right (2 * curr + 1) i ((i + j) / 2)
          with _ | a <;>
          rcases e2 : Recursive.queryHelper ops nodes fuel left right (2 * curr + 2)
            ((i + j) / 2 + 1) j with _ | b <;>
          rw [e1] at h1 <;> rw [e2] at h2 <;> simp at h1 h2 ⊢ <;> omega

theorem Persistent.queryHelper_isSome_iff_per {N V : Type} [Inhabited N] (ops : NodeOps N V)
    (nodes : List (PWrap N)) (left right : Nat) :
    ∀ (fuel curr i j : Nat), j - i < fuel → i ≤ j →
      ((Persistent.queryHelper ops nodes left right fuel curr i j).isSome
        ↔ (left ≤ j ∧ i ≤ right ∧ left ≤ right)) := by
  intro fuel
  induction fuel with
  | zero => intro curr i j h _; omega
  | succ fuel ih =>
    intro curr i j hfuel hij
    rw [Persistent.queryHelper]
    by_cases hdis : j < left ∨ right < i
    · rw [if_pos hdis]; simp; omega
    · rw [if_neg hdis]
      by_cases hcov : left ≤ i ∧ j ≤ right
      · simp only [hcov, and_self, if_pos, Option.isSome_some]
        constructor
        · intro _; omega
        · intro _; trivial
      · have hlt : i < j := by omega
        simp only [hcov, if_neg, if_false]
        have h1 := ih (((nodes.getD curr default).left).getD 0) i ((i + j) / 2)
          (by omega) (by omega)
        have h2 := ih (((nodes.getD curr default).right).getD 0) ((i + j) / 2 + 1) j
          (by omega) (by omega)
        rcases e1 : Persistent.queryHelper ops nodes left right fuel
          (((nodes.getD curr default).left).getD 0) i ((i + j) / 2) with _ | a <;>
          rcases e2 : Persistent.queryHelper ops nodes left right fuel
            (((nodes.getD curr default).right).getD 0) ((i + j) / 2 + 1) j with _ | b <;>
          rw [e1] at h1 <;> rw [e2] at h2 <;> simp at h1 h2 ⊢ <;> omega

theorem LazyRecursive.queryHelper_isSome_iff_lr {N V : Type} [Inhabited N] (ops : LazyOps N V)
    (left right : Nat) :
    ∀ (fuel curr i j : Nat) (nodes : List N), j - i < fuel → i ≤ j →
      (((LazyRecursive.queryHelper ops left right fuel curr i j nodes).2).isSome
        ↔ (left ≤ j ∧ i ≤ right ∧ left ≤ right)) := by
  intro fuel
  induction fuel with
  | zero => intro curr i j nodes h _; omega
  | succ fuel ih =>
    intro curr i j nodes hfuel hij
    rw [LazyRecursive.queryHelper]
    by_cases hdis : j < left ∨ right < i
    · rw [if_pos hdis]; simp; omega
    · rw [if_neg hdis]
      by_cases hcov : left ≤ i ∧ j ≤ right
      · simp only [hcov, and_self, if_pos, Option.isSome_some]
        constructor
        · intro _; omega
        · intro _; trivial
      · have hlt : i < j := by omega
        simp only [hcov, if_neg, if_false]
        set nodes1 :=
          if (ops.lazyValue (nodes.getD curr default)).isSome then
            LazyRecursive.push ops nodes curr i j
          else nodes with hn1
        have h1 := ih (2 * curr + 1) i ((i + j) / 2) nodes1 (by omega) (by omega)
        set res1 := LazyRecursive.queryHelper ops left right fuel (2 * curr + 1) i
          ((i + j) / 2) nodes1 with hr1
        have h2 := ih (2 * curr + 2) ((i + j) / 2 + 1) j res1.1 (by omega) (by omega)
        set res2 := LazyRecursive.queryHelper ops left right fuel (2 * curr + 2)
          ((i + j) / 2 + 1) j res1.1 with hr2
        rcases e1 : res1.2 with _ | a <;> rcases e2 : res2.2 with _ | b <;>
          rw [e1] at h1 <;> rw [e2] at h2 <;> simp [mergeW] at h1 h2 ⊢ <;> omega

theorem LazyPersistent.queryHelper_isSome_iff_lp {N V : Type} [Inhabited N] (ops : LazyOps N V)
    (left right : Nat) :
    ∀ (fuel curr i j : Nat) (nodes : List (PWrap N)), j - i < fuel → i ≤ j →
      (((LazyPersistent.queryHelper ops left right fuel curr i j nodes).2).isSome
        ↔ (left ≤ j ∧ i ≤ right ∧ left ≤ right)) := by
  intro fuel
  induction fuel with
  | zero => intro curr i j nodes h _; omega
  | succ fuel ih =>
    intro curr i j nodes hfuel hij
    rw [LazyPersistent.queryHelper]
    by_cases hdis : j < left ∨ right < i
    · rw [if_pos hdis]; simp; omega
    · rw [if_neg hdis]
      by_cases hcov : left ≤ i ∧ j ≤ right
      · simp only [hcov, and_self, if_pos]
        simp only [Option.isSome_some]
        constructor
        · intro _; omega
        · intro _; trivial
      · have hlt : i < j := by omega
        simp only [hcov, if_neg, if_false]
        set nodes1 :=
          if (PWrap.lazyValue ops (nodes.getD curr default)).isSome then
            LazyPersistent.push ops nodes curr i j
          else nodes with hn1
        have h1 := ih (((nodes1.getD curr default).left).getD 0) i ((i + j) / 2) nodes1
          (by omega) (by omega)
        set res1 := LazyPersistent.queryHelper ops left right fuel
          (((nodes1.getD curr default).left).getD 0) i ((i + j) / 2) nodes1 with hr1
        have h2 := ih (((nodes1.getD curr default).right).getD 0) ((i + j) / 2 + 1) j res1.1
          (by omega) (by omega)
        set res2 := LazyPersistent.queryHelper ops left right fuel
          (((nodes1.getD curr default).right).getD 0) ((i + j) / 2 + 1) j res1.1 with hr2
        rcases e1 : res1.2 with _ | a <;> rcases e2 : res2.2 with _ | b <;>
          rw [e1] at h1 <;> rw [e2] at h2 <;> simp [mergeW] at h1 h2 ⊢ <;> omega

theorem Iterative.queryGo_succ {N V : Type} [Inhabited N] (ops : NodeOps N V)
    (nodes : List N) (fuel l r : Nat) (ansLeft ansRight : Option N) :
    Iterative.queryGo ops nodes (fuel + 1) l r ansLeft ansRight =
      if l < r then
        let p1 :=
          if l % 2 = 1 then (l + 1, some (Iterative.accStepL ops nodes l ansLeft))
          else (l, ansLeft)
        let p2 :=
          if r % 2 = 1 then (r - 1, some (Iterative.accStepR ops nodes (r - 1) ansRight))
          else (r, ansRight)
        Iterative.queryGo ops nodes fuel (p1.1 / 2) (p2.1 / 2) p1.2 p2.2
      else (ansLeft, ansRight) := rfl

theorem Iterative.queryGo_succ_of_lt {N V : Type} [Inhabited N] (ops : NodeOps N V)
    (nodes : List N) (fuel l r : Nat) (ansLeft ansRight : Option N) (h : l < r) :
    Iterative.queryGo ops nodes (fuel + 1) l r ansLeft ansRight =
      Iterative.queryGo ops nodes fuel
        ((if l % 2 = 1 then l + 1 else l) / 2)
        ((if r % 2 = 1 then r - 1 else r) / 2)
        (if l % 2 = 1 then some (Iterative.accStepL ops nodes l ansLeft) else ansLeft)
        (if r % 2 = 1 then some (Iterative.accStepR ops nodes (r - 1) ansRight)
          else ansRight) := by
  rw [Iterative.queryGo_succ, if_pos h]
  by_cases hl : l % 2 = 1 <;> by_cases hr : r % 2 = 1 <;> simp [hl, hr]

theorem Iterative.queryGo_isSome_iff {N V : Type} [Inhabited N] (ops : NodeOps N V)
    (nodes : List N) :
    ∀ (fuel l r : Nat) (aL aR : Option N), r - l < fuel →
      ((((Iterative.queryGo ops nodes fuel l r aL aR).1).isSome
          ∨ (((Iterative.queryGo ops nodes fuel l r aL aR).2)).isSome)
        ↔ (l < r ∨ aL.isSome ∨ aR.isSome)) := by
  intro fuel
  induction fuel with
  | zero => intro l r aL aR h; omega
  | succ fuel ih =>
    intro l r aL aR hfuel
    by_cases hlr : l < r
    · rw [Iterative.queryGo_succ_of_lt ops nodes fuel l r aL aR hlr]
      by_cases hl : l % 2 = 1 <;> by_cases hr : r % 2 = 1
      · rw [if_pos hl, if_pos hr, if_pos hl, if_pos hr, ih _ _ _ _ (by omega)]
        simp [hlr]
      · rw [if_pos hl, if_neg hr, if_pos hl, if_neg hr, ih _ _ _ _ (by omega)]
        simp [hlr]
      · rw [if_neg hl, if_pos hr, if_neg hl, if_pos hr, ih _ _ _ _ (by omega)]
        simp [hlr]
      · rw [if_neg hl, if_neg hr, if_neg hl, if_neg hr, ih _ _ _ _ (by omega)]
        simp only [hlr, true_or, iff_true]
        exact Or.inl (by omega)
    · rw [Iterative.queryGo_succ, if_neg hlr]
      constructor
      · intro h; right; exact h
      · intro h
        rcases h with h | h
        · omega
        · exact h

theorem isNone_eq_decide {α : Type} {x : Option α} {p : Prop} [Decidable p]
    (h : x.isSome ↔ ¬ p) : x.isNone = decide p := by
  cases x with
  | none =>
    simp only [Option.isSome_none, Bool.false_eq_true, false_iff, not_not] at h
    simp [h]
  | some a =>
    simp only [Option.isSome_some, true_iff] at h
    simp [h]

/-- C5: on a tree with `n ≥ 1` elements and both endpoints in `[0, n)` (and,
for the persistent engines, a valid version), `query` returns `None` exactly
when `l > r` — for all five engines, independently of the arena contents. -/
theorem c5_query_none_iff_empty_range {N V : Type} [Inhabited N]
    (ops : NodeOps N V) (lops : LazyOps N V) :
    (∀ (st : IterState N) (l r : Nat), l < st.n → r < st.n →
        (Iterative.query ops st l r).isNone = decide (r < l)) ∧
    (∀ (st : RecState N) (l r : Nat), 1 ≤ st.n → l < st.n → r < st.n →
        (Recursive.query ops st l r).map Option.isNone = some (decide (r < l))) ∧
    (∀ (st : RecState N) (l r : Nat), 1 ≤ st.n → l < st.n → r < st.n →
        (LazyRecursive.query lops st l r).map (fun res => res.2.isNone)
          = some (decide (r < l))) ∧
    (∀ (st : PerState N) (version l r : Nat), version < st.roots.length → 1 ≤ st.n →
        l < st.n → r < st.n →
        (Persistent.query ops st version l r).map Option.isNone = some (decide (r < l))) ∧
    (∀ (st : PerState N) (version l r : Nat), version < st.roots.length → 1 ≤ st.n →
        l < st.n → r < st.n →
        (LazyPersistent.query lops st version l r).map (fun res => res.2.isNone)
          = some (decide (r < l))) := by
  refine ⟨?_, ?_, ?_, ?_, ?_⟩
  · intro st l r hl hr
    have h := Iterative.queryGo_isSome_iff ops st.nodes (st.n + r + 2) (l + st.n)
      (r + st.n + 1) none none (by omega)
    rw [Iterative.query]
    rcases e : Iterative.queryGo ops st.nodes (st.n + r + 2) (l + st.n) (r + st.n + 1)
      none none with ⟨aL, aR⟩
    rw [e] at h
    simp only [Option.isSome_none, Bool.false_eq_true, or_false] at h
    cases aL <;> cases aR <;> simp at h ⊢ <;> omega
  · intro st l r hn hl hr
    rw [Recursive.query, if_neg (by omega)]
    have h := Recursive.queryHelper_isSome_iff ops st.nodes l r st.n 0 0 (st.n - 1)
      (by omega) (by omega)
    simp only [Option.map_some']
    congr 1
    exact isNone_eq_decide (by rw [h]; omega)
  · intro st l r hn hl hr
    rw [LazyRecursive.query, if_neg (by omega)]
    have h := LazyRecursive.queryHelper_isSome_iff_lr lops l r st.n 0 0 (st.n - 1) st.nodes
      (by omega) (by omega)
    simp only [Option.map_some']
    congr 1
    exact isNone_eq_decide (by rw [h]; omega)
  · intro st version l r hv hn hl hr
    rw [Persistent.query, if_pos hv, if_neg (by omega)]
    have h := Persistent.queryHelper_isSome_iff_per ops st.nodes l r st.n
      (st.roots.getD version 0) 0 (st.n - 1) (by omega) (by omega)
    simp only [Option.map_some']
    congr 1
    refine isNone_eq_decide ?_
    simp only [Option.isSome_map']
    rw [h]; omega
  · intro st version l r hv hn hl hr
    rw [LazyPersistent.query, if_pos hv, if_neg (by omega)]
    have h := LazyPersistent.queryHelper_isSome_iff_lp lops l r st.n
      (st.roots.getD version 0) 0 (st.n - 1) st.nodes (by omega) (by omega)
    simp only [Option.map_some']
    congr 1
    refine isNone_eq_decide ?_
    simp only [Option.isSome_map']
    rw [h]; omega

/-- Witness for C5 on concrete sum trees with three leaves. -/
theorem c5_query_none_iff_empty_range_witness :
    (Iterative.query sumOps.toNodeOps (Iterative.build sumOps.toNodeOps (sumLeavesUpTo 3))
        2 1).isNone = decide ((1 : Nat) < 2) ∧
    (Recursive.query sumOps.toNodeOps (Recursive.build sumOps.toNodeOps (sumLeavesUpTo 3))
        0 2).map Option.isNone = some (decide ((2 : Nat) < 0)) ∧
    (LazyRecursive.query sumOps (LazyRecursive.build sumOps (sumLeavesUpTo 3)) 0 2).map
        (fun res => res.2.isNone) = some (decide ((2 : Nat) < 0)) ∧
    (Persistent.query sumOps.toNodeOps (Persistent.build sumOps.toNodeOps (sumLeavesUpTo 3))
        0 2 1).map Option.isNone = some (decide ((1 : Nat) < 2)) ∧
    (LazyPersistent.query sumOps (LazyPersistent.build sumOps (sumLeavesUpTo 3)) 0 1 1).map
        (fun res => res.2.isNone) = some (decide ((1 : Nat) < 1)) :=
  ⟨(c5_query_none_iff_empty_range sumOps.toNodeOps sumOps).1 _ 2 1 (by decide) (by decide),
   (c5_query_none_iff_empty_range sumOps.toNodeOps sumOps).2.1 _ 0 2 (by decide) (by decide)
     (by decide),
   (c5_query_none_iff_empty_range sumOps.toNodeOps sumOps).2.2.1 _ 0 2 (by decide) (by decide)
     (by decide),
   (c5_query_none_iff_empty_range sumOps.toNodeOps sumOps).2.2.2.1 _ 0 2 1 (by decide)
     (by decide) (by decide) (by decide),
   (c5_query_none_iff_empty_range sumOps.toNodeOps sumOps).2.2.2.2 _ 0 1 1 (by decide)
     (by decide) (by decide) (by decide)⟩

/-! ### C9: `lower_bound` stays inside the leaf range -/

theorem Recursive.lowerBoundHelper_mem {N V : Type} [Inhabited N] (ops : NodeOps N V)
    (nodes : List N) (pred : V → V → Bool) (g : V → V → V) :
    ∀ (fuel curr i j : Nat) (v : V), j - i < fuel → i ≤ j →
      i ≤ Recursive.lowerBoundHelper ops nodes pred g fuel curr i j v ∧
        Recursive.lowerBoundHelper ops nodes pred g fuel curr i j v ≤ j := by
  intro fuel
  induction fuel with
  | zero => intro curr i j v h _; omega
  | succ fuel ih =>
    intro curr i j v hfuel hij
    rw [Recursive.lowerBoundHelper]
    by_cases he : i = j
    · rw [if_pos he]; omega
    · rw [if_neg he]
      by_cases hp : pred (ops.value (nodes.getD (2 * curr + 1) default)) v
      · rw [if_pos hp]
        have := ih (2 * curr + 1) i ((i + j) / 2) v (by omega) (by omega)
        omega
      · rw [if_neg hp]
        have := ih (2 * curr + 2) ((i + j) / 2 + 1) j
          (g (ops.value (nodes.getD (2 * curr + 1) default)) v) (by omega) (by omega)
        omega

theorem Persistent.lowerBoundHelper_mem_per {N V : Type} [Inhabited N] (ops : NodeOps N V)
    (nodes : List (PWrap N)) (pred : V → V → Bool) (g : V → V → V) :
    ∀ (fuel curr i j : Nat) (v : V), j - i < fuel → i ≤ j →
      i ≤ Persistent.lowerBoundHelper ops nodes pred g fuel curr i j v ∧
        Persistent.lowerBoundHelper ops nodes pred g fuel curr i j v ≤ j := by
  intro fuel
  induction fuel with
  | zero => intro curr i j v h _; omega
  | succ fuel ih =>
    intro curr i j v hfuel hij
    rw [Persistent.lowerBoundHelper]
    by_cases he : i = j
    · rw [if_pos he]; omega
    · rw [if_neg he]
      by_cases hp : pred
        (ops.value (nodes.getD (((nodes.getD curr default).left).getD 0) default).node) v
      · rw [if_pos hp]
        have := ih (((nodes.getD curr default).left).getD 0) i ((i + j) / 2) v
          (by omega) (by omega)
        omega
      · rw [if_neg hp]
        have := ih (((nodes.getD curr default).right).getD 0) ((i + j) / 2 + 1) j
          (g (ops.value (nodes.getD (((nodes.getD curr default).left).getD 0) default).node) v)
          (by omega) (by omega)
        omega

theorem Recursive.lowerBoundHelper_false {N V : Type} [Inhabited N] (ops : NodeOps N V)
    (nodes : List N) (g : V → V → V) :
    ∀ (fuel curr i j : Nat) (v : V), j - i < fuel → i ≤ j →
      Recursive.lowerBoundHelper ops nodes (fun _ _ => false) g fuel curr i j v = j := by
  intro fuel
  induction fuel with
  | zero => intro curr i j v h _; omega
  | succ fuel ih =>
    intro curr i j v hfuel hij
    rw [Recursive.lowerBoundHelper]
    by_cases he : i = j
    · rw [if_pos he]; omega
    · rw [if_neg he, if_neg (by simp)]
      exact ih (2 * curr + 2) ((i + j) / 2 + 1) j _ (by omega) (by omega)

theorem Persistent.lowerBoundHelper_false_per {N V : Type} [Inhabited N] (ops : NodeOps N V)
    (nodes : List (PWrap N)) (g : V → V → V) :
    ∀ (fuel curr i j : Nat) (v : V), j - i < fuel → i ≤ j →
      Persistent.lowerBoundHelper ops nodes (fun _ _ => false) g fuel curr i j v = j := by
  intro fuel
  induction fuel with
  | zero => intro curr i j v h _; omega
  | succ fuel ih =>
    intro curr i j v hfuel hij
    rw [Persistent.lowerBoundHelper]
    by_cases he : i = j
    · rw [if_pos he]; omega
    · rw [if_neg he, if_neg (by simp)]
      exact ih (((nodes.getD curr default).right).getD 0) ((i + j) / 2 + 1) j _
        (by omega) (by omega)

/-- C9 (amended): for every tree with `n ≥ 1` and arbitrary predicate,
`g`, and value, `lower_bound` returns an index in `[0, n)` for the
`Recursive` and `Persistent` engines; the leaf base case returns the leaf's
index without testing the predicate, so with an everywhere-false predicate
the result is `n - 1`. -/
theorem c9_lower_bound_returns_index_in_range {N V : Type} [Inhabited N]
    (ops : NodeOps N V) :
    (∀ (st : RecState N) (pred : V → V → Bool) (g : V → V → V) (v : V), 1 ≤ st.n →
        ∃ idx, Recursive.lowerBound ops st pred g v = some idx ∧ idx < st.n) ∧
    (∀ (st : PerState N) (version : Nat) (pred : V → V → Bool) (g : V → V → V) (v : V),
        version < st.roots.length → 1 ≤ st.n →
        ∃ idx, Persistent.lowerBound ops st version pred g v = some idx ∧ idx < st.n) ∧
    (∀ (st : RecState N) (g : V → V → V) (v : V), 1 ≤ st.n →
        Recursive.lowerBound ops st (fun _ _ => false) g v = some (st.n - 1)) ∧
    (∀ (st : PerState N) (version : Nat) (g : V → V → V) (v : V),
        version < st.roots.length → 1 ≤ st.n →
        Persistent.lowerBound ops st version (fun _ _ => false) g v = some (st.n - 1)) := by
  refine ⟨?_, ?_, ?_, ?_⟩
  · intro st pred g v hn
    rw [Recursive.lowerBound, if_neg (by omega)]
    refine ⟨_, rfl, ?_⟩
    have := Recursive.lowerBoundHelper_mem ops st.nodes pred g st.n 0 0 (st.n - 1) v
      (by omega) (by omega)
    omega
  · intro st version pred g v hv hn
    rw [Persistent.lowerBound, if_pos hv, if_neg (by omega)]
    refine ⟨_, rfl, ?_⟩
    have := Persistent.lowerBoundHelper_mem_per ops st.nodes pred g st.n
      (st.roots.getD version 0) 0 (st.n - 1) v (by omega) (by omega)
    omega
  · intro st g v hn
    rw [Recursive.lowerBound, if_neg (by omega)]
    rw [Recursive.lowerBoundHelper_false ops st.nodes g st.n 0 0 (st.n - 1) v
      (by omega) (by omega)]
  · intro st version g v hv hn
    rw [Persistent.lowerBound, if_pos hv, if_neg (by omega)]
    rw [Persistent.lowerBoundHelper_false_per ops st.nodes g st.n (st.roots.getD version 0) 0
      (st.n - 1) v (by omega) (by omega)]

/-- Witness for the amended C9 on concrete four-leaf trees. -/
theorem c9_lower_bound_returns_index_in_range_witness :
    (∃ idx, Recursive.lowerBound sumOps.toNodeOps onesTree4 predC9 gC9 0 = some idx ∧
      idx < onesTree4.n) ∧
    Recursive.lowerBound sumOps.toNodeOps onesTree4 (fun _ _ => false) gC9 0
      = some (onesTree4.n - 1) ∧
    (∃ idx, Persistent.lowerBound sumOps.toNodeOps
        (Persistent.build sumOps.toNodeOps (sumLeavesUpTo 4)) 0 predC9 gC9 0 = some idx ∧
      idx < (Persistent.build sumOps.toNodeOps (sumLeavesUpTo 4)).n) ∧
    Persistent.lowerBound sumOps.toNodeOps (Persistent.build sumOps.toNodeOps (sumLeavesUpTo 4))
        0 (fun _ _ => false) gC9 0
      = some ((Persistent.build sumOps.toNodeOps (sumLeavesUpTo 4)).n - 1) :=
  ⟨(c9_lower_bound_returns_index_in_range sumOps.toNodeOps).1 _ predC9 gC9 0 (by decide),
   (c9_lower_bound_returns_index_in_range sumOps.toNodeOps).2.2.1 _ gC9 0 (by decide),
   (c9_lower_bound_returns_index_in_range sumOps.toNodeOps).2.1 _ 0 predC9 gC9 0 (by decide)
     (by decide),
   (c9_lower_bound_returns_index_in_range sumOps.toNodeOps).2.2.2 _ 0 gC9 0 (by decide)
     (by decide)⟩

/-- C8: for both persistent engines `versions()` is the number of recorded
roots: it is 1 right after building a non-empty slice, each (valid) `update`
grows it by exactly one, and `query`/`lower_bound` leave the root list
untouched — `Persistent`'s query and lower_bound take `&self` and are
modelled as pure functions, and `LazyPersistent`'s return a state whose
`roots` field is passed through unchanged even though its pushes grow the
arena. -/
theorem c8_versions_counts_roots {N V : Type} [Inhabited N]
    (ops : NodeOps N V) (lops : LazyOps N V) :
    (∀ st : PerState N, Persistent.versions st = st.roots.length) ∧
    (∀ st : PerState N, LazyPersistent.versions st = st.roots.length) ∧
    (∀ values : List N, values ≠ [] → Persistent.versions (Persistent.build ops values) = 1) ∧
    (∀ values : List N, values ≠ [] →
        LazyPersistent.versions (LazyPersistent.build lops values) = 1) ∧
    (∀ (st : PerState N) (version p : Nat) (v : V), version < st.roots.length → 1 ≤ st.n →
        (Persistent.update ops st version p v).map Persistent.versions
          = some (Persistent.versions st + 1)) ∧
    (∀ (st : PerState N) (version l r : Nat) (v : V), version < st.roots.length → 1 ≤ st.n →
        (LazyPersistent.update lops st version l r v).map LazyPersistent.versions
          = some (LazyPersistent.versions st + 1)) ∧
    (∀ (st : PerState N) (version l r : Nat), version < st.roots.length → 1 ≤ st.n →
        (LazyPersistent.query lops st version l r).map (fun res => res.1.roots)
          = some st.roots) ∧
    (∀ (st : PerState N) (version : Nat) (pred : V → V → Bool) (g : V → V → V) (v : V),
        version < st.roots.length → 1 ≤ st.n →
        (LazyPersistent.lowerBound lops st version pred g v).map (fun res => res.1.roots)
          = some st.roots) := by
  refine ⟨fun st => rfl, fun st => rfl, ?_, ?_, ?_, ?_, ?_, ?_⟩
  · intro values hne
    rw [Persistent.build]
    rw [if_neg (by simpa using hne)]
    rfl
  · intro values hne
    rw [LazyPersistent.build, Persistent.build]
    rw [if_neg (by simpa using hne)]
    rfl
  · intro st version p v hv hn
    rw [Persistent.update, if_pos hv, if_neg (by omega)]
    simp [Persistent.versions]
  · intro st version l r v hv hn
    rw [LazyPersistent.update, if_pos hv, if_neg (by omega)]
    simp [LazyPersistent.versions]
  · intro st version l r hv hn
    rw [LazyPersistent.query, if_pos hv, if_neg (by omega)]
    simp
  · intro st version pred g v hv hn
    rw [LazyPersistent.lowerBound, if_pos hv, if_neg (by omega)]
    simp

/-- Witness for C8 on concrete two-leaf lazy-persistent sum trees. -/
theorem c8_versions_counts_roots_witness :
    Persistent.versions (Persistent.build sumOps.toNodeOps (sumLeavesUpTo 2)) = 1 ∧
    LazyPersistent.versions (LazyPersistent.build sumOps (sumLeavesUpTo 2)) = 1 ∧
    (Persistent.update sumOps.toNodeOps (Persistent.build sumOps.toNodeOps (sumLeavesUpTo 2))
        0 1 5).map Persistent.versions
      = some (Persistent.versions (Persistent.build sumOps.toNodeOps (sumLeavesUpTo 2)) + 1) ∧
    (LazyPersistent.update sumOps (LazyPersistent.build sumOps (sumLeavesUpTo 2))
        0 0 1 5).map LazyPersistent.versions
      = some (LazyPersistent.versions (LazyPersistent.build sumOps (sumLeavesUpTo 2)) + 1) ∧
    (LazyPersistent.query sumOps (LazyPersistent.build sumOps (sumLeavesUpTo 2)) 0 0 1).map
        (fun res => res.1.roots)
      = some (LazyPersistent.build sumOps (sumLeavesUpTo 2)).roots ∧
    (LazyPersistent.lowerBound sumOps (LazyPersistent.build sumOps (sumLeavesUpTo 2)) 0
        predC9 gC9 0).map (fun res => res.1.roots)
      = some (LazyPersistent.build sumOps (sumLeavesUpTo 2)).roots :=
  ⟨(c8_versions_counts_roots sumOps.toNodeOps sumOps).2.2.1 _ (by decide),
   (c8_versions_counts_roots sumOps.toNodeOps sumOps).2.2.2.1 _ (by decide),
   (c8_versions_counts_roots sumOps.toNodeOps sumOps).2.2.2.2.1 _ 0 1 5 (by decide) (by decide),
   (c8_versions_counts_roots sumOps.toNodeOps sumOps).2.2.2.2.2.1 _ 0 0 1 5 (by decide)
     (by decide),
   (c8_versions_counts_roots sumOps.toNodeOps sumOps).2.2.2.2.2.2.1 _ 0 0 1 (by decide)
     (by decide),
   (c8_versions_counts_roots sumOps.toNodeOps sumOps).2.2.2.2.2.2.2 _ 0 predC9 gC9 0
     (by decide) (by decide)⟩

/-! ### Heap positions: disjointness of sibling subtrees and the `4n` bound -/

theorem anc_le (k : Nat) : anc k ≤ k := by
  rw [anc]; omega

theorem iter_anc_le (m k : Nat) : anc^[m] k ≤ k := by
  induction m with
  | zero => simp
  | succ m ih =>
    rw [Function.iterate_succ_apply']
    exact le_trans (anc_le _) ih

theorem anc_left (c : Nat) : anc (2 * c + 1) = c := by
  rw [anc]; omega

theorem anc_right (c : Nat) : anc (2 * c + 2) = c := by
  rw [anc]; omega

theorem desc_sibling_disjoint {k c : Nat} (h1 : ∃ m, anc^[m] k = 2 * c + 1)
    (h2 : ∃ m, anc^[m] k = 2 * c + 2) : False := by
  obtain ⟨m1, h1⟩ := h1
  obtain ⟨m2, h2⟩ := h2
  rcases le_total m1 m2 with h | h
  · obtain ⟨s, rfl⟩ : ∃ s, m2 = s + m1 := ⟨m2 - m1, by omega⟩
    rw [Function.iterate_add_apply, h1] at h2
    rcases s with _ | s
    · simp at h2
    · rw [Function.iterate_succ_apply, anc_left] at h2
      have := iter_anc_le s c
      omega
  · obtain ⟨s, rfl⟩ : ∃ s, m1 = s + m2 := ⟨m1 - m2, by omega⟩
    rw [Function.iterate_add_apply, h2] at h1
    rcases s with _ | s
    · simp at h1
    · rw [Function.iterate_succ_apply, anc_right] at h1
      have := iter_anc_le s c
      omega

theorem InSub_desc : ∀ (fuel c i j k : Nat), InSub fuel c i j k → ∃ m, anc^[m] k = c := by
  intro fuel
  induction fuel with
  | zero => intro c i j k h; exact absurd h (by rw [InSub]; exact not_false)
  | succ fuel ih =>
    intro c i j k h
    rw [InSub] at h
    rcases h with rfl | ⟨hij, h | h⟩
    · exact ⟨0, rfl⟩
    · obtain ⟨m, hm⟩ := ih _ _ _ _ h
      exact ⟨m + 1, by rw [Function.iterate_succ_apply', hm, anc_left]⟩
    · obtain ⟨m, hm⟩ := ih _ _ _ _ h
      exact ⟨m + 1, by rw [Function.iterate_succ_apply', hm, anc_right]⟩

theorem InSub_ge {fuel c i j k : Nat} (h : InSub fuel c i j k) : c ≤ k := by
  obtain ⟨m, hm⟩ := InSub_desc fuel c i j k h
  have := iter_anc_le m k
  omega

theorem InSub_sibling_disjoint {f1 f2 c i1 j1 i2 j2 k : Nat}
    (h1 : InSub f1 (2 * c + 1) i1 j1 k) (h2 : InSub f2 (2 * c + 2) i2 j2 k) : False :=
  desc_sibling_disjoint (InSub_desc _ _ _ _ _ h1) (InSub_desc _ _ _ _ _ h2)

theorem InSub_le_bound : ∀ (fuel c i j k : Nat), i ≤ j → InSub fuel c i j k →
    k ≤ (c + 2) * 2 ^ (Nat.clog 2 (j - i + 1)) - 2 := by
  intro fuel
  induction fuel with
  | zero => intro c i j k _ h; exact absurd h (by rw [InSub]; exact not_false)
  | succ fuel ih =>
    intro c i j k hij h
    have hpow : 1 ≤ 2 ^ Nat.clog 2 (j - i + 1) := Nat.one_le_two_pow
    rw [InSub] at h
    rcases h with rfl | ⟨hne, h | h⟩
    · have : (k + 2) * 1 ≤ (k + 2) * 2 ^ Nat.clog 2 (j - i + 1) :=
        Nat.mul_le_mul_left _ hpow
      omega
    · have hrec := ih (2 * c + 1) i ((i + j) / 2) k (by omega) h
      have hsz : (i + j) / 2 - i + 1 = (j - i + 1 + 1) / 2 := by omega
      have hclog : Nat.clog 2 (j - i + 1) = Nat.clog 2 ((j - i + 1 + 1) / 2) + 1 :=
        Nat.clog_of_two_le (by omega) (by omega)
      rw [hsz] at hrec
      rw [hclog, pow_succ]
      have hle : (2 * c + 1 + 2) * 2 ^ Nat.clog 2 ((j - i + 1 + 1) / 2)
          ≤ (2 * c + 4) * 2 ^ Nat.clog 2 ((j - i + 1 + 1) / 2) :=
        Nat.mul_le_mul_right _ (by omega)
      have heq : (2 * c + 4) * 2 ^ Nat.clog 2 ((j - i + 1 + 1) / 2)
          = (c + 2) * (2 ^ Nat.clog 2 ((j - i + 1 + 1) / 2) * 2) := by ring
      omega
    · have hrec := ih (2 * c + 2) ((i + j) / 2 + 1) j k (by omega) h
      have hclog : Nat.clog 2 (j - i + 1) = Nat.clog 2 ((j - i + 1 + 1) / 2) + 1 :=
        Nat.clog_of_two_le (by omega) (by omega)
      have hmono : Nat.clog 2 (j - ((i + j) / 2 + 1) + 1)
          ≤ Nat.clog 2 ((j - i + 1 + 1) / 2) :=
        Nat.clog_mono_right 2 (by omega)
      have hrec2 : k ≤ (2 * c + 2 + 2) * 2 ^ Nat.clog 2 ((j - i + 1 + 1) / 2) - 2 := by
        refine le_trans hrec ?_
        have := Nat.pow_le_pow_right (n := 2) (by omega) hmono
        have := Nat.mul_le_mul_left (2 * c + 2 + 2) this
        omega
      rw [hclog, pow_succ]
      have : (2 * c + 2 + 2) * 2 ^ Nat.clog 2 ((j - i + 1 + 1) / 2)
          = (c + 2) * (2 ^ Nat.clog 2 ((j - i + 1 + 1) / 2) * 2) := by ring
      omega

theorem InSub_lt_four_mul {fuel n k : Nat} (hn : 1 ≤ n) (h : InSub fuel 0 0 (n - 1) k) :
    k < 4 * n := by
  have hb := InSub_le_bound fuel 0 0 (n - 1) k (by omega) h
  have hsz : n - 1 - 0 + 1 = n := by omega
  rw [hsz] at hb
  rcases Nat.lt_or_ge n 2 with h2 | h2
  · have : n = 1 := by omega
    subst this
    simp [Nat.clog_one_right] at hb
    omega
  · have hlt : 2 ^ (Nat.clog 2 n - 1) < n := Nat.pow_pred_clog_lt_self (by omega) (by omega)
    have hpos : 0 < Nat.clog 2 n := Nat.clog_pos (by omega) h2
    have : 2 ^ Nat.clog 2 n = 2 ^ (Nat.clog 2 n - 1) * 2 := by
      rw [← pow_succ]
      congr 1
      omega
    omega

/-! ### Build correctness for the recursive heap layout -/

theorem getD_set_ne {α : Type} [Inhabited α] (l : List α) (i k : Nat) (x : α) (h : i ≠ k) :
    (l.set i x).getD k default = l.getD k default := by
  rw [List.getD_eq_getElem?_getD, List.getD_eq_getElem?_getD, List.getElem?_set_ne h]

theorem getD_set_self {α : Type} [Inhabited α] (l : List α) (i : Nat) (x : α)
    (h : i < l.length) : (l.set i x).getD i default = x := by
  rw [List.getD_eq_getElem?_getD, List.getElem?_set_eq_of_lt x h]
  rfl

theorem Recursive.buildHelper_length {N V : Type} [Inhabited N] (ops : NodeOps N V)
    (values : List N) :
    ∀ (fuel curr i j : Nat) (arr : List N),
      (Recursive.buildHelper ops values fuel curr i j arr).length = arr.length := by
  intro fuel
  induction fuel with
  | zero => intro curr i j arr; rfl
  | succ fuel ih =>
    intro curr i j arr
    rw [Recursive.buildHelper]
    by_cases hij : i = j
    · rw [if_pos hij, List.length_set]
    · rw [if_neg hij]
      simp only [List.length_set, ih]

theorem Recursive.buildHelper_untouched {N V : Type} [Inhabited N] (ops : NodeOps N V)
    (values : List N) :
    ∀ (fuel curr i j : Nat) (arr : List N) (k : Nat), ¬ InSub fuel curr i j k →
      (Recursive.buildHelper ops values fuel curr i j arr).getD k default
        = arr.getD k default := by
  intro fuel
  induction fuel with
  | zero => intro curr i j arr k _; rfl
  | succ fuel ih =>
    intro curr i j arr k hk
    rw [InSub] at hk
    push_neg at hk
    obtain ⟨hkc, hrest⟩ := hk
    rw [Recursive.buildHelper]
    by_cases hij : i = j
    · rw [if_pos hij]
      exact getD_set_ne _ _ _ _ (fun h => hkc h.symm)
    · rw [if_neg hij]
      have hLR := hrest hij
      rw [getD_set_ne _ _ _ _ (fun h => hkc h.symm)]
      rw [ih _ _ _ _ _ hLR.2]
      exact ih _ _ _ _ _ hLR.1

theorem SubtreeEq_getD {N V : Type} [Inhabited N] {ops : NodeOps N V} {values nodes : List N}
    {fuel curr i j : Nat} (h : SubtreeEq ops values nodes fuel curr i j) :
    nodes.getD curr default = segNode ops values fuel i j := by
  cases fuel with
  | zero => rw [SubtreeEq] at h; exact h.elim
  | succ fuel => exact h.1

theorem SubtreeEq_congr {N V : Type} [Inhabited N] (ops : NodeOps N V)
    (values : List N) (nodes nodes' : List N) :
    ∀ (fuel curr i j : Nat), SubtreeEq ops values nodes fuel curr i j →
      (∀ k, InSub fuel curr i j k → nodes'.getD k default = nodes.getD k default) →
      SubtreeEq ops values nodes' fuel curr i j := by
  intro fuel
  induction fuel with
  | zero => intro curr i j h _; rw [SubtreeEq] at h; exact h.elim
  | succ fuel ih =>
    intro curr i j h hag
    refine ⟨?_, fun hij => ?_⟩
    · rw [hag curr (Or.inl rfl)]
      exact h.1
    · exact ⟨ih _ _ _ (h.2 hij).1 (fun k hk => hag k (Or.inr ⟨hij, Or.inl hk⟩)),
        ih _ _ _ (h.2 hij).2 (fun k hk => hag k (Or.inr ⟨hij, Or.inr hk⟩))⟩

theorem Recursive.buildHelper_SubtreeEq {N V : Type} [Inhabited N] (ops : NodeOps N V)
    (values : List N) :
    ∀ (fuel curr i j : Nat) (arr : List N), j - i < fuel → i ≤ j →
      (∀ k, InSub fuel curr i j k → k < arr.length) →
      SubtreeEq ops values (Recursive.buildHelper ops values fuel curr i j arr)
        fuel curr i j := by
  intro fuel
  induction fuel with
  | zero => intro curr i j arr h _ _; omega
  | succ fuel ih =>
    intro curr i j arr hfuel hij hbound
    rw [Recursive.buildHelper]
    by_cases he : i = j
    · rw [if_pos he]
      refine ⟨?_, fun h => absurd he h⟩
      rw [getD_set_self _ _ _ (hbound curr (Or.inl rfl)), segNode, if_pos he, he]
    · rw [if_neg he]
      have hL := ih (2 * curr + 1) i ((i + j) / 2) arr (by omega) (by omega)
        (fun k hk => hbound k (Or.inr ⟨he, Or.inl hk⟩))
      set arr1 := Recursive.buildHelper ops values fuel (2 * curr + 1) i ((i + j) / 2) arr
        with harr1
      have hR := ih (2 * curr + 2) ((i + j) / 2 + 1) j arr1 (by omega) (by omega)
        (fun k hk => by
          rw [harr1, Recursive.buildHelper_length]
          exact hbound k (Or.inr ⟨he, Or.inr hk⟩))
      set arr2 := Recursive.buildHelper ops values fuel (2 * curr + 2) ((i + j) / 2 + 1) j arr1
        with harr2
      have hL2 : SubtreeEq ops values arr2 fuel (2 * curr + 1) i ((i + j) / 2) :=
        SubtreeEq_congr ops values arr1 arr2 fuel (2 * curr + 1) i ((i + j) / 2) hL
          (fun k hk => by
            rw [harr2]
            exact Recursive.buildHelper_untouched ops values fuel (2 * curr + 2)
              ((i + j) / 2 + 1) j arr1 k (fun hk2 => InSub_sibling_disjoint hk hk2))
      have hcurrlt : curr < arr2.length := by
        rw [harr2, Recursive.buildHelper_length, harr1, Recursive.buildHelper_length]
        exact hbound curr (Or.inl rfl)
      have hset : ∀ k, InSub fuel (2 * curr + 1) i ((i + j) / 2) k
            ∨ InSub fuel (2 * curr + 2) ((i + j) / 2 + 1) j k →
          (arr2.set curr (ops.combine (arr2.getD (2 * curr + 1) default)
              (arr2.getD (2 * curr + 2) default))).getD k default = arr2.getD k default := by
        intro k hk
        refine getD_set_ne _ _ _ _ (fun h => ?_)
        rcases hk with hk | hk
        · have := InSub_ge hk; omega
        · have := InSub_ge hk; omega
      refine ⟨?_, fun _ => ?_⟩
      · rw [getD_set_self _ _ _ hcurrlt, segNode, if_neg he,
          SubtreeEq_getD hL2, SubtreeEq_getD hR]
      · exact ⟨SubtreeEq_congr ops values arr2 _ fuel (2 * curr + 1) i ((i + j) / 2) hL2
            (fun k hk => hset k (Or.inl hk)),
          SubtreeEq_congr ops values arr2 _ fuel (2 * curr + 2) ((i + j) / 2 + 1) j hR
            (fun k hk => hset k (Or.inr hk))⟩

theorem Recursive.build_SubtreeEq {N V : Type} [Inhabited N] (ops : NodeOps N V)
    (values : List N) (hne : values ≠ []) :
    SubtreeEq ops values (Recursive.build ops values).nodes values.length 0 0
      (values.length - 1) := by
  have hn : 1 ≤ values.length := List.length_pos.2 hne
  rw [Recursive.build]
  rw [if_neg (by omega)]
  exact Recursive.buildHelper_SubtreeEq ops values values.length 0 0 (values.length - 1)
    (List.replicate (4 * values.length) default) (by omega) (by omega)
    (fun k hk => by
      rw [List.length_replicate]
      exact InSub_lt_four_mul hn hk)

/-! ### Associativity: the canonical subtree node is the left-to-right fold -/

theorem foldl_combine_pull {N V : Type} (ops : NodeOps N V)
    (hassoc : ∀ a b c, ops.combine (ops.combine a b) c = ops.combine a (ops.combine b c)) :
    ∀ (L : List N) (a b : N),
      L.foldl ops.combine (ops.combine a b) = ops.combine a (L.foldl ops.combine b) := by
  intro L
  induction L with
  | nil => intro a b; rfl
  | cons x xs ih =>
    intro a b
    rw [List.foldl_cons, List.foldl_cons, hassoc]
    exact ih a (ops.combine b x)

theorem slice_ne_nil {N : Type} (values : List N) (i j : Nat) (hij : i ≤ j)
    (hj : j < values.length) : (values.drop i).take (j + 1 - i) ≠ [] := by
  intro h
  have := congrArg List.length h
  rw [List.length_take, List.length_drop] at this
  simp at this
  omega

theorem slice_split {N : Type} (values : List N) (i mid j : Nat) (h1 : i ≤ mid)
    (h2 : mid < j) :
    (values.drop i).take (j + 1 - i)
      = (values.drop i).take (mid + 1 - i)
          ++ (values.drop (mid + 1)).take (j + 1 - (mid + 1)) := by
  have he : j + 1 - i = (mid + 1 - i) + (j + 1 - (mid + 1)) := by omega
  rw [he, List.take_add, List.drop_drop]
  have he2 : i + (mid + 1 - i) = mid + 1 := by omega
  rw [he2]

theorem foldRange_split {N V : Type} [Inhabited N] (ops : NodeOps N V)
    (hassoc : ∀ a b c, ops.combine (ops.combine a b) c = ops.combine a (ops.combine b c))
    (values : List N) (i mid j : Nat) (h1 : i ≤ mid) (h2 : mid < j) (h3 : j < values.length) :
    foldRange ops values i j
      = some (ops.combine ((foldRange ops values i mid).getD default)
          ((foldRange ops values (mid + 1) j).getD default)) := by
  have hA := slice_ne_nil values i mid h1 (by omega)
  have hB := slice_ne_nil values (mid + 1) j (by omega) h3
  rw [foldRange, foldRange, foldRange, slice_split values i mid j h1 h2]
  rcases eA : (values.drop i).take (mid + 1 - i) with _ | ⟨x, xs⟩
  · exact absurd eA hA
  rcases eB : (values.drop (mid + 1)).take (j + 1 - (mid + 1)) with _ | ⟨y, ys⟩
  · exact absurd eB hB
  simp only [List.cons_append, Option.getD_some]
  congr 1
  rw [List.foldl_append, List.foldl_cons]
  exact foldl_combine_pull ops hassoc ys (xs.foldl ops.combine x) y

theorem foldRange_single {N : Type} {V : Type} [Inhabited N] (ops : NodeOps N V)
    (values : List N) (i : Nat) (hi : i < values.length) :
    foldRange ops values i i = some (values.getD i default) := by
  rw [foldRange, show i + 1 - i = 1 from by omega]
  rcases ed : values.drop i with _ | ⟨z, zs⟩
  · have := congrArg List.length ed
    rw [List.length_drop] at this
    simp at this
    omega
  · have hz : values[i]? = some z := by
      have h0 := List.getElem?_drop values i 0
      rw [ed] at h0
      simpa using h0.symm
    simp only [List.take_succ_cons, List.take_zero, List.foldl_nil]
    rw [List.getD_eq_getElem?_getD, hz]
    rfl

theorem segNode_eq_foldRange {N V : Type} [Inhabited N] (ops : NodeOps N V)
    (hassoc : ∀ a b c, ops.combine (ops.combine a b) c = ops.combine a (ops.combine b c))
    (values : List N) :
    ∀ (fuel i j : Nat), j - i < fuel → i ≤ j → j < values.length →
      foldRange ops values i j = some (segNode ops values fuel i j) := by
  intro fuel
  induction fuel with
  | zero => intro i j h _ _; omega
  | succ fuel ih =>
    intro i j hfuel hij hj
    by_cases he : i = j
    · subst he
      rw [foldRange_single ops values i hj, segNode, if_pos rfl]
    · rw [segNode, if_neg he,
        foldRange_split ops hassoc values i ((i + j) / 2) j (by omega) (by omega) hj,
        ih i ((i + j) / 2) (by omega) (by omega) (by omega),
        ih ((i + j) / 2 + 1) j (by omega) (by omega) hj]
      rfl

theorem rangeVal_eq_segNode {N V : Type} [Inhabited N] (ops : NodeOps N V)
    (hassoc : ∀ a b c, ops.combine (ops.combine a b) c = ops.combine a (ops.combine b c))
    (values : List N) (fuel i j : Nat) (hfuel : j - i < fuel) (hij : i ≤ j)
    (hj : j < values.length) :
    rangeVal ops values i j = ops.value (segNode ops values fuel i j) := by
  rw [rangeVal, segNode_eq_foldRange ops hassoc values fuel i j hfuel hij hj]
  rfl

theorem Recursive.build_n {N V : Type} [Inhabited N] (ops : NodeOps N V) (values : List N) :
    (Recursive.build ops values).n = values.length := by
  rw [Recursive.build]
  by_cases h : values.length = 0
  · rw [if_pos h]; exact h.symm
  · rw [if_neg h]

theorem Recursive.lowerBoundHelper_finds_least {N V : Type} [Inhabited N] (ops : NodeOps N V)
    (hassoc : ∀ a b c, ops.combine (ops.combine a b) c = ops.combine a (ops.combine b c))
    (values : List N) (pred : V → V → Bool) (g : V → V → V) (v0 : V) (ans : Nat)
    (hM : ∀ (v : V) (t t' : Nat), t ≤ t' → t' < values.length →
        pred (rangeVal ops values 0 t) v = true → pred (rangeVal ops values 0 t') v = true)
    (hG : ∀ (i j k : Nat), i ≤ j → j < k → k < values.length → ∀ v : V,
        (pred (rangeVal ops values i k) v = true
          ↔ pred (rangeVal ops values (j + 1) k) (g (rangeVal ops values i j) v) = true))
    (hansP : pred (rangeVal ops values 0 ans) v0 = true)
    (hansMin : ∀ t, t < ans → pred (rangeVal ops values 0 t) v0 = false) :
    ∀ (fuel curr i j : Nat) (v : V) (nodes : List N),
      j - i < fuel → i ≤ j → j < values.length →
      SubtreeEq ops values nodes fuel curr i j →
      (∀ t, i ≤ t → t ≤ j →
        (pred (rangeVal ops values 0 t) v0 = true ↔ pred (rangeVal ops values i t) v = true)) →
      i ≤ ans → ans ≤ j →
      Recursive.lowerBoundHelper ops nodes pred g fuel curr i j v = ans := by
  intro fuel
  induction fuel with
  | zero => intro curr i j v nodes h _ _ _ _ _ _; omega
  | succ fuel ih =>
    intro curr i j v nodes hfuel hij hjlen hsub hfr hans1 hans2
    rw [Recursive.lowerBoundHelper]
    by_cases he : i = j
    · rw [if_pos he]; omega
    · rw [if_neg he]
      have hmidlt : (i + j) / 2 < j := by omega
      have hLsub := (hsub.2 he).1
      have hRsub := (hsub.2 he).2
      have hleft : ops.value (nodes.getD (2 * curr + 1) default)
          = rangeVal ops values i ((i + j) / 2) := by
        rw [SubtreeEq_getD hLsub,
          rangeVal_eq_segNode ops hassoc values fuel i ((i + j) / 2) (by omega) (by omega)
            (by omega)]
      by_cases hp : pred (ops.value (nodes.getD (2 * curr + 1) default)) v = true
      · rw [if_pos hp]
        have hpm : pred (rangeVal ops values i ((i + j) / 2)) v = true := by
          rw [← hleft]; exact hp
        have hansle : ans ≤ (i + j) / 2 := by
          by_contra hcon
          have h1 : pred (rangeVal ops values 0 ((i + j) / 2)) v0 = true :=
            (hfr ((i + j) / 2) (by omega) (by omega)).2 hpm
          have h2 := hansMin ((i + j) / 2) (by omega)
          rw [h1] at h2
          simp at h2
        exact ih (2 * curr + 1) i ((i + j) / 2) v nodes (by omega) (by omega) (by omega)
          hLsub (fun t ht1 ht2 => hfr t ht1 (by omega)) hans1 hansle
      · rw [if_neg hp]
        have hpm : ¬ pred (rangeVal ops values i ((i + j) / 2)) v = true := by
          rw [← hleft]; exact hp
        have hansge : (i + j) / 2 + 1 ≤ ans := by
          by_contra hcon
          have h1 : pred (rangeVal ops values 0 ((i + j) / 2)) v0 = true :=
            hM v0 ans ((i + j) / 2) (by omega) (by omega) hansP
          exact hpm ((hfr ((i + j) / 2) (by omega) (by omega)).1 h1)
        rw [hleft]
        refine ih (2 * curr + 2) ((i + j) / 2 + 1) j
          (g (rangeVal ops values i ((i + j) / 2)) v) nodes (by omega) (by omega) hjlen
          hRsub (fun t ht1 ht2 => ?_) hansge hans2
        rw [hfr t (by omega) ht2]
        exact hG i ((i + j) / 2) t (by omega) (by omega) (by omega) v

/-- C4 (amended): for the `Recursive` engine built from a non-empty slice,
if `combine` is associative, the predicate is monotonic over prefixes (for
every target value), and `g` satisfies the residual-transfer condition as an
equivalence — `predicate([i,k].value(), value)` holds **iff**
`predicate([j+1,k].value(), g([i,j].value(), value))` does — then
`lower_bound(predicate, g, value)` returns the smallest `i` whose prefix
`[0,i]` satisfies the predicate, whenever one exists.  (With the one-way
implication the claim states, the result can be wrong; see the
counterexample.) -/
theorem c4_lower_bound_finds_least_prefix {N V : Type} [Inhabited N] (ops : NodeOps N V)
    (hassoc : ∀ a b c, ops.combine (ops.combine a b) c = ops.combine a (ops.combine b c))
    (values : List N) (hne : values ≠ [])
    (pred : V → V → Bool) (g : V → V → V) (v0 : V) (ans : Nat)
    (hM : ∀ (v : V) (t t' : Nat), t ≤ t' → t' < values.length →
        pred (rangeVal ops values 0 t) v = true → pred (rangeVal ops values 0 t') v = true)
    (hG : ∀ (i j k : Nat), i ≤ j → j < k → k < values.length → ∀ v : V,
        (pred (rangeVal ops values i k) v = true
          ↔ pred (rangeVal ops values (j + 1) k) (g (rangeVal ops values i j) v) = true))
    (hansLt : ans < values.length)
    (hansP : pred (rangeVal ops values 0 ans) v0 = true)
    (hansMin : ∀ t, t < ans → pred (rangeVal ops values 0 t) v0 = false) :
    Recursive.lowerBound ops (Recursive.build ops values) pred g v0 = some ans := by
  have hn : 1 ≤ values.length := List.length_pos.2 hne
  rw [Recursive.lowerBound, Recursive.build_n, if_neg (by omega)]
  congr 1
  exact Recursive.lowerBoundHelper_finds_least ops hassoc values pred g v0 ans hM hG hansP
    hansMin values.length 0 0 (values.length - 1) v0 (Recursive.build ops values).nodes
    (by omega) (by omega) (by omega)
    (Recursive.build_SubtreeEq ops values hne)
    (fun t _ _ => Iff.rfl) (by omega) (by omega)

/-- C4 (counterexample): on the `Recursive` sum tree over `[1,1,1,1]` with
target 4, `predC4` is monotonic over nested prefixes for every target value,
`gC4` satisfies the claim's one-way residual-transfer condition, and prefix
`[0,3]` satisfies the predicate — yet `lower_bound` returns index 2, whose
prefix does not satisfy the predicate (the smallest satisfying prefix is 3).
The one-way implication lets `g` poison the target so the transferred
predicate fires on a non-prefix segment. -/
theorem c4_counterexample_one_way_transfer :
    (∀ (v : Int) (t t' : Nat), t ≤ t' → t' < 4 →
        predC4 (rangeVal sumOps.toNodeOps onesLeaves4 0 t) v = true →
        predC4 (rangeVal sumOps.toNodeOps onesLeaves4 0 t') v = true) ∧
    (∀ (i j k : Nat), i ≤ j → j < k → k < 4 → ∀ v : Int,
        predC4 (rangeVal sumOps.toNodeOps onesLeaves4 i k) v = true →
        predC4 (rangeVal sumOps.toNodeOps onesLeaves4 (j + 1) k)
          (gC4 (rangeVal sumOps.toNodeOps onesLeaves4 i j) v) = true) ∧
    predC4 (rangeVal sumOps.toNodeOps onesLeaves4 0 3) 4 = true ∧
    Recursive.lowerBound sumOps.toNodeOps onesTree4 predC4 gC4 4 = some 2 ∧
    predC4 (rangeVal sumOps.toNodeOps onesLeaves4 0 2) 4 = false := by
  refine ⟨?_, ?_, by decide, by decide, by decide⟩
  · intro v t t' h1 h2 hp
    have r0 : rangeVal sumOps.toNodeOps onesLeaves4 0 0 = 1 := by decide
    have r1 : rangeVal sumOps.toNodeOps onesLeaves4 0 1 = 2 := by decide
    have r2 : rangeVal sumOps.toNodeOps onesLeaves4 0 2 = 3 := by decide
    have r3 : rangeVal sumOps.toNodeOps onesLeaves4 0 3 = 4 := by decide
    interval_cases t' <;> interval_cases t <;>
      simp only [r0, r1, r2, r3, predC4, Bool.or_eq_true, decide_eq_true_eq] at hp ⊢ <;>
      omega
  · intro i j k h1 h2 h3 v hp
    have hadd : rangeVal sumOps.toNodeOps onesLeaves4 i k
        = rangeVal sumOps.toNodeOps onesLeaves4 i j
          + rangeVal sumOps.toNodeOps onesLeaves4 (j + 1) k := by
      interval_cases k <;> interval_cases j <;> interval_cases i <;> decide
    simp only [predC4, gC4, Bool.or_eq_true, decide_eq_true_eq] at hp ⊢
    split_ifs with hv hl
    · right; omega
    · right; omega
    · left; omega

/-- Witness for the amended C4: the sum-threshold search on `[1,1,1,1]` with
target 3 returns index 2 (prefix sums `1,2,3,4`). -/
theorem c4_lower_bound_finds_least_prefix_witness :
    Recursive.lowerBound sumOps.toNodeOps (Recursive.build sumOps.toNodeOps onesLeaves4)
      predSumGe gSumSub 3 = some 2 := by
  have r0 : rangeVal sumOps.toNodeOps onesLeaves4 0 0 = 1 := by decide
  have r1 : rangeVal sumOps.toNodeOps onesLeaves4 0 1 = 2 := by decide
  have r2 : rangeVal sumOps.toNodeOps onesLeaves4 0 2 = 3 := by decide
  have r3 : rangeVal sumOps.toNodeOps onesLeaves4 0 3 = 4 := by decide
  refine c4_lower_bound_finds_least_prefix sumOps.toNodeOps ?_ onesLeaves4 (by decide)
    predSumGe gSumSub 3 2 ?_ ?_ (by decide) (by decide) ?_
  · intro a b c
    simp [sumOps]
    ring
  · intro v t t' h1 h2 hp
    rw [show onesLeaves4.length = 4 from by decide] at h2
    interval_cases t' <;> interval_cases t <;>
      simp only [r0, r1, r2, r3, predSumGe, decide_eq_true_eq] at hp ⊢ <;> omega
  · intro i j k h1 h2 h3 v
    rw [show onesLeaves4.length = 4 from by decide] at h3
    have hadd : rangeVal sumOps.toNodeOps onesLeaves4 i k
        = rangeVal sumOps.toNodeOps onesLeaves4 i j
          + rangeVal sumOps.toNodeOps onesLeaves4 (j + 1) k := by
      interval_cases k <;> interval_cases j <;> interval_cases i <;> decide
    simp only [predSumGe, gSumSub, decide_eq_true_eq]
    omega
  · intro t ht
    interval_cases t <;> simp only [r0, r1, predSumGe, decide_eq_true_eq] <;> decide

/-! ### C3: leaf lists of the iterative layout -/

theorem leafL_of_ge {n fuel k : Nat} (h : n ≤ k) :
    leafL n fuel k = if k < 2 * n then [k - n] else [] := by
  cases fuel with
  | zero => rw [leafL, if_pos h]
  | succ fuel => rw [leafL, if_pos h]

theorem leafL_of_lt {n fuel k : Nat} (h : k < n) :
    leafL n (fuel + 1) k = leafL n fuel (2 * k) ++ leafL n fuel (2 * k + 1) := by
  rw [leafL, if_neg (by omega)]

theorem leafL_zero_of_lt {n k : Nat} (h : k < n) : leafL n 0 k = [] := by
  rw [leafL, if_neg (by omega)]

theorem leafL_fuel_irrel (n : Nat) :
    ∀ (f1 f2 k : Nat), 1 ≤ k → n ≤ k * 2 ^ f1 → n ≤ k * 2 ^ f2 →
      leafL n f1 k = leafL n f2 k := by
  intro f1
  induction f1 with
  | zero =>
    intro f2 k hk h1 h2
    have hge : n ≤ k := by simpa using h1
    rw [leafL_of_ge hge, leafL_of_ge hge]
  | succ f1 ih =>
    intro f2 k hk h1 h2
    by_cases hge : n ≤ k
    · rw [leafL_of_ge hge, leafL_of_ge hge]
    · have hlt : k < n := by omega
      have hf2 : f2 ≠ 0 := by
        intro h
        subst h
        simp at h2
        omega
      obtain ⟨f2', rfl⟩ : ∃ f2', f2 = f2' + 1 := ⟨f2 - 1, by omega⟩
      rw [leafL_of_lt hlt, leafL_of_lt hlt]
      have hm1 : n ≤ 2 * k * 2 ^ f1 := by
        rw [pow_succ] at h1
        calc n ≤ k * (2 ^ f1 * 2) := h1
        _ = 2 * k * 2 ^ f1 := by ring
      have hm2 : n ≤ 2 * k * 2 ^ f2' := by
        rw [pow_succ] at h2
        calc n ≤ k * (2 ^ f2' * 2) := h2
        _ = 2 * k * 2 ^ f2' := by ring
      rw [ih f2' (2 * k) (by omega) hm1 hm2,
        ih f2' (2 * k + 1) (by omega)
          (le_trans hm1 (Nat.mul_le_mul_right _ (by omega)))
          (le_trans hm2 (Nat.mul_le_mul_right _ (by omega)))]

theorem n_le_mul_two_pow (n k : Nat) (hk : 1 ≤ k) : n ≤ k * 2 ^ n := by
  calc n ≤ 2 ^ n := le_of_lt (Nat.lt_two_pow n)
  _ = 1 * 2 ^ n := (one_mul _).symm
  _ ≤ k * 2 ^ n := Nat.mul_le_mul_right _ hk

theorem leafListN_leaf {n k : Nat} (h1 : n ≤ k) (h2 : k < 2 * n) :
    leafListN n k = [k - n] := by
  rw [leafListN, leafL_of_ge h1, if_pos h2]

theorem leafListN_internal {n k : Nat} (hk : 1 ≤ k) (h : k < n) :
    leafListN n k = leafListN n (2 * k) ++ leafListN n (2 * k + 1) := by
  obtain ⟨n', rfl⟩ : ∃ n', n = n' + 1 := ⟨n - 1, by omega⟩
  have hbase : n' + 1 ≤ 2 * k * 2 ^ n' := by
    have h0 := n_le_mul_two_pow (n' + 1) k hk
    rw [pow_succ] at h0
    calc n' + 1 ≤ k * (2 ^ n' * 2) := h0
    _ = 2 * k * 2 ^ n' := by ring
  rw [leafListN, leafL_of_lt h, leafListN, leafListN,
    leafL_fuel_irrel (n' + 1) n' (n' + 1) (2 * k) (by omega) hbase
      (n_le_mul_two_pow _ _ (by omega)),
    leafL_fuel_irrel (n' + 1) n' (n' + 1) (2 * k + 1) (by omega)
      (le_trans hbase (Nat.mul_le_mul_right _ (by omega)))
      (n_le_mul_two_pow _ _ (by omega))]

theorem leafL_mem_lt (n : Nat) :
    ∀ (fuel k t : Nat), t ∈ leafL n fuel k → t < n := by
  intro fuel
  induction fuel with
  | zero =>
    intro k t ht
    by_cases hge : n ≤ k
    · rw [leafL_of_ge hge] at ht
      by_cases h2 : k < 2 * n
      · rw [if_pos h2] at ht
        simp at ht
        omega
      · rw [if_neg h2] at ht
        simp at ht
    · rw [leafL_zero_of_lt (by omega)] at ht
      simp at ht
  | succ fuel ih =>
    intro k t ht
    by_cases hge : n ≤ k
    · rw [leafL_of_ge hge] at ht
      by_cases h2 : k < 2 * n
      · rw [if_pos h2] at ht
        simp at ht
        omega
      · rw [if_neg h2] at ht
        simp at ht
    · rw [leafL_of_lt (by omega)] at ht
      rcases List.mem_append.1 ht with h | h
      · exact ih _ _ h
      · exact ih _ _ h

theorem leafL_ne_nil (n : Nat) :
    ∀ (fuel k : Nat), 1 ≤ k → k < 2 * n → n ≤ k * 2 ^ fuel →
      leafL n fuel k ≠ [] := by
  intro fuel
  induction fuel with
  | zero =>
    intro k hk h2 h3
    have hge : n ≤ k := by simpa using h3
    rw [leafL_of_ge hge, if_pos h2]
    simp
  | succ fuel ih =>
    intro k hk h2 h3
    by_cases hge : n ≤ k
    · rw [leafL_of_ge hge, if_pos h2]
      simp
    · rw [leafL_of_lt (by omega)]
      have hm : n ≤ 2 * k * 2 ^ fuel := by
        rw [pow_succ] at h3
        calc n ≤ k * (2 ^ fuel * 2) := h3
        _ = 2 * k * 2 ^ fuel := by ring
      have := ih (2 * k) (by omega) (by omega) hm
      simp only [ne_eq, List.append_eq_nil]
      intro hcon
      exact this hcon.1

theorem leafListN_ne_nil {n k : Nat} (hk : 1 ≤ k) (h2 : k < 2 * n) :
    leafListN n k ≠ [] :=
  leafL_ne_nil n n k hk h2 (n_le_mul_two_pow n k hk)

theorem leafListN_mem_lt {n k t : Nat} (ht : t ∈ leafListN n k) : t < n :=
  leafL_mem_lt n n k t ht

theorem leafListN_append_ne_nil (n k : Nat) (A : List Nat) (hk : 1 ≤ k)
    (h2 : k < 2 * n) : A ++ leafListN n k ≠ [] := fun hc =>
  leafListN_ne_nil hk h2 (List.append_eq_nil.mp hc).2

theorem leafListN_ne_nil_append (n k : Nat) (B : List Nat) (hk : 1 ≤ k)
    (h2 : k < 2 * n) : leafListN n k ++ B ≠ [] := fun hc =>
  leafListN_ne_nil hk h2 (List.append_eq_nil.mp hc).1

/-! ### C3: folds of leaf lists and build correctness of the iterative arena -/

theorem fold1_append {N V : Type} [Inhabited N] (ops : NodeOps N V)
    (hassoc : ∀ a b c, ops.combine (ops.combine a b) c = ops.combine a (ops.combine b c))
    (A B : List N) (hA : A ≠ []) (hB : B ≠ []) :
    fold1 ops (A ++ B) = ops.combine (fold1 ops A) (fold1 ops B) := by
  rcases A with _ | ⟨x, xs⟩
  · exact absurd rfl hA
  rcases B with _ | ⟨y, ys⟩
  · exact absurd rfl hB
  show ((xs ++ y :: ys).foldl ops.combine x) = _
  rw [List.foldl_append, List.foldl_cons]
  exact foldl_combine_pull ops hassoc ys (xs.foldl ops.combine x) y

theorem nodeOfL_append {N V : Type} [Inhabited N] (ops : NodeOps N V)
    (hassoc : ∀ a b c, ops.combine (ops.combine a b) c = ops.combine a (ops.combine b c))
    (values : List N) (A B : List Nat) (hA : A ≠ []) (hB : B ≠ []) :
    nodeOfL ops values (A ++ B)
      = ops.combine (nodeOfL ops values A) (nodeOfL ops values B) := by
  rw [nodeOfL, List.map_append]
  exact fold1_append ops hassoc _ _ (by simpa using hA) (by simpa using hB)
    |>.trans (by rw [nodeOfL, nodeOfL])

theorem good_foldl {N V : Type} [Inhabited N] (ops : NodeOps N V) (values : List N)
    (hleaf : ∀ t, t < values.length →
      ops.init (ops.value (values.getD t default)) = values.getD t default)
    (hcomb : ∀ a b, ops.init (ops.value a) = a → ops.init (ops.value b) = b →
      ops.init (ops.value (ops.combine a b)) = ops.combine a b) :
    ∀ (L : List Nat) (acc : N), ops.init (ops.value acc) = acc →
      (∀ t ∈ L, t < values.length) →
      ops.init (ops.value (L.foldl (fun a t => ops.combine a (values.getD t default)) acc))
        = L.foldl (fun a t => ops.combine a (values.getD t default)) acc := by
  intro L
  induction L with
  | nil => intro acc hacc _; exact hacc
  | cons u us ih =>
    intro acc hacc hmem
    rw [List.foldl_cons]
    exact ih _ (hcomb _ _ hacc (hleaf u (hmem u (by simp)))) (fun t ht => hmem t (by simp [ht]))

theorem good_nodeOfL {N V : Type} [Inhabited N] (ops : NodeOps N V) (values : List N)
    (hleaf : ∀ t, t < values.length →
      ops.init (ops.value (values.getD t default)) = values.getD t default)
    (hcomb : ∀ a b, ops.init (ops.value a) = a → ops.init (ops.value b) = b →
      ops.init (ops.value (ops.combine a b)) = ops.combine a b)
    (L : List Nat) (hL : L ≠ []) (hmem : ∀ t ∈ L, t < values.length) :
    ops.init (ops.value (nodeOfL ops values L)) = nodeOfL ops values L := by
  rcases L with _ | ⟨x, xs⟩
  · exact absurd rfl hL
  have heq : nodeOfL ops values (x :: xs)
      = xs.foldl (fun a t => ops.combine a (values.getD t default))
          (values.getD x default) := by
    rw [nodeOfL, List.map_cons]
    show (xs.map _).foldl ops.combine (values.getD x default) = _
    rw [List.foldl_map]
  rw [heq]
  exact good_foldl ops values hleaf hcomb xs _ (hleaf x (hmem x (by simp)))
    (fun t ht => hmem t (by simp [ht]))

theorem Iterative.buildAux_length {N V : Type} [Inhabited N] (ops : NodeOps N V) (n : Nat) :
    ∀ (m : Nat) (arr : List N), (Iterative.buildAux ops n m arr).length = arr.length := by
  intro m
  induction m with
  | zero => intro arr; rfl
  | succ m ih =>
    intro arr
    rw [Iterative.buildAux]
    simp only [List.length_set, ih]

theorem Iterative.buildAux_spec {N V : Type} [Inhabited N] (ops : NodeOps N V)
    (hassoc : ∀ a b c, ops.combine (ops.combine a b) c = ops.combine a (ops.combine b c))
    (values : List N) :
    ∀ (m : Nat), m ≤ values.length - 1 →
      (∀ k, values.length - m ≤ k → k < 2 * values.length →
        (Iterative.buildAux ops values.length m
            (List.replicate values.length default ++ values)).getD k default
          = nodeOfL ops values (leafListN values.length k)) ∧
      (∀ k, k < values.length - m →
        (Iterative.buildAux ops values.length m
            (List.replicate values.length default ++ values)).getD k default
          = (List.replicate values.length default ++ values).getD k default) := by
  intro m
  induction m with
  | zero =>
    intro _
    refine ⟨?_, fun k _ => rfl⟩
    intro k hk1 hk2
    have hge : values.length ≤ k := by omega
    rw [Iterative.buildAux, leafListN_leaf hge hk2]
    have hread : (List.replicate values.length default ++ values).getD k default
        = values.getD (k - values.length) default := by
      rw [List.getD_eq_getElem?_getD, List.getD_eq_getElem?_getD,
        List.getElem?_append_right (by simpa using hge)]
      simp
    rw [hread]
    rfl
  | succ m ih =>
    intro hm
    have ihm := ih (by omega)
    set A := Iterative.buildAux ops values.length m
      (List.replicate values.length default ++ values) with hA
    have hlenA : A.length = 2 * values.length := by
      rw [hA, Iterative.buildAux_length]
      simp only [List.length_append, List.length_replicate]
      omega
    have hi : values.length - 1 - m = values.length - (m + 1) := by omega
    constructor
    · intro k hk1 hk2
      rw [Iterative.buildAux, ← hA, hi]
      by_cases hk : k = values.length - (m + 1)
      · subst hk
        rw [getD_set_self _ _ _ (by omega)]
        have hil : 1 ≤ values.length - (m + 1) := by omega
        have hiu : values.length - (m + 1) < values.length := by omega
        have hreadL := ihm.1 (2 * (values.length - (m + 1))) (by omega) (by omega)
        have hreadR := ihm.1 (2 * (values.length - (m + 1)) + 1) (by omega) (by omega)
        rw [hreadL, hreadR, leafListN_internal hil hiu]
        rw [nodeOfL_append ops hassoc values _ _
          (leafListN_ne_nil (by omega) (by omega))
          (leafListN_ne_nil (by omega) (by omega))]
      · rw [getD_set_ne _ _ _ _ (fun h => hk h.symm)]
        exact ihm.1 k (by omega) hk2
    · intro k hk
      rw [Iterative.buildAux, ← hA, hi]
      rw [getD_set_ne _ _ _ _ (by omega)]
      exact ihm.2 k (by omega)

theorem Iterative.build_arena {N V : Type} [Inhabited N] (ops : NodeOps N V)
    (hassoc : ∀ a b c, ops.combine (ops.combine a b) c = ops.combine a (ops.combine b c))
    (values : List N) (hne : values ≠ []) :
    ∀ k, 1 ≤ k → k < 2 * values.length →
      (Iterative.build ops values).nodes.getD k default
        = nodeOfL ops values (leafListN values.length k) := by
  intro k hk1 hk2
  have hn : 1 ≤ values.length := List.length_pos.2 hne
  rw [Iterative.build]
  exact (Iterative.buildAux_spec ops hassoc values (values.length - 1) (by omega)).1 k
    (by omega) hk2

/-! ### C3: range bookkeeping for the two-pointer query loop -/

theorem range'_split_front (l c : Nat) (h : 1 ≤ c) :
    List.range' l c = l :: List.range' (l + 1) (c - 1) := by
  obtain ⟨c', rfl⟩ : ∃ c', c = c' + 1 := ⟨c - 1, by omega⟩
  rw [List.range'_succ]
  simp

theorem range'_split_back (l c : Nat) (h : 1 ≤ c) :
    List.range' l c = List.range' l (c - 1) ++ [l + (c - 1)] := by
  have := List.range'_append l (c - 1) 1 1
  rw [List.range'_one] at this
  simp only [one_mul] at this
  rw [show 1 + (c - 1) = c from by omega] at this
  exact this.symm

theorem flatMap_leafListN_halve (n : Nat) :
    ∀ (d a : Nat), 1 ≤ a → a + d ≤ n →
      (List.range' a d).flatMap (leafListN n)
        = (List.range' (2 * a) (2 * d)).flatMap (leafListN n) := by
  intro d
  induction d with
  | zero => intro a _ _; rfl
  | succ d ih =>
    intro a ha hle
    rw [range'_split_front a (d + 1) (by omega)]
    rw [show (2 * (d + 1)) = (2 * d + 1) + 1 from by omega,
      range'_split_front (2 * a) (2 * d + 1 + 1) (by omega),
      show (2 * d + 1 + 1 - 1) = 2 * d + 1 from rfl,
      range'_split_front (2 * a + 1) (2 * d + 1) (by omega),
      show (2 * d + 1 - 1) = 2 * d from rfl]
    simp only [List.flatMap_cons, Nat.add_sub_cancel]
    rw [leafListN_internal ha (by omega)]
    rw [show (2 * a + 1 + 1) = 2 * (a + 1) from by omega,
      ← ih (a + 1) (by omega) (by omega)]
    simp [List.append_assoc]

theorem flatMap_leafListN_leaves (n : Nat) :
    ∀ (c t0 : Nat), n + t0 + c ≤ 2 * n →
      (List.range' (n + t0) c).flatMap (leafListN n) = List.range' t0 c := by
  intro c
  induction c with
  | zero => intro t0 _; rfl
  | succ c ih =>
    intro t0 hle
    rw [List.range'_succ, List.range'_succ, List.flatMap_cons,
      leafListN_leaf (by omega) (by omega)]
    rw [show n + t0 + 1 = n + (t0 + 1) from by omega, ih (t0 + 1) (by omega)]
    simp

theorem map_leaf_range'_eq_slice {N : Type} [Inhabited N] (values : List N) :
    ∀ (c a : Nat), a + c ≤ values.length →
      (List.range' a c).map (fun t => values.getD t default)
        = (values.drop a).take c := by
  intro c
  induction c with
  | zero => intro a _; simp
  | succ c ih =>
    intro a hle
    rw [List.range'_succ, List.map_cons, List.drop_eq_getElem_cons (by omega),
      List.take_succ_cons, ih (a + 1) (by omega), List.getD_eq_getElem values default
        (by omega)]

theorem foldRange_eq_nodeOfL_range' {N V : Type} [Inhabited N] (ops : NodeOps N V)
    (values : List N) (l r : Nat) (hlr : l ≤ r) (hr : r < values.length) :
    foldRange ops values l r
      = some (nodeOfL ops values (List.range' l (r + 1 - l))) := by
  rw [foldRange, nodeOfL, map_leaf_range'_eq_slice values (r + 1 - l) l (by omega)]
  rcases e : (values.drop l).take (r + 1 - l) with _ | ⟨x, xs⟩
  · exact absurd e (slice_ne_nil values l r hlr hr)
  · rfl

theorem Iterative.accL_step {N V : Type} [Inhabited N] (ops : NodeOps N V)
    (values nodes : List N)
    (hassoc : ∀ a b c, ops.combine (ops.combine a b) c = ops.combine a (ops.combine b c))
    (hleaf : ∀ t, t < values.length →
      ops.init (ops.value (values.getD t default)) = values.getD t default)
    (hcomb : ∀ a b, ops.init (ops.value a) = a → ops.init (ops.value b) = b →
      ops.init (ops.value (ops.combine a b)) = ops.combine a b)
    (harena : ∀ k, 1 ≤ k → k < 2 * values.length →
      nodes.getD k default = nodeOfL ops values (leafListN values.length k))
    (l : Nat) (hl : 1 ≤ l) (hl2 : l < 2 * values.length)
    (aL : Option N) (A : List Nat)
    (hAeq : aL = none ∧ A = [] ∨ A ≠ [] ∧ aL = some (nodeOfL ops values A)) :
    Iterative.accStepL ops nodes l aL
      = nodeOfL ops values (A ++ leafListN values.length l) := by
  rcases hAeq with ⟨rfl, rfl⟩ | ⟨hAne, rfl⟩
  · show ops.init (ops.value (nodes.getD l default)) = _
    rw [harena l hl hl2, List.nil_append]
    exact good_nodeOfL ops values hleaf hcomb _ (leafListN_ne_nil hl hl2)
      (fun t ht => leafListN_mem_lt ht)
  · show ops.combine (nodeOfL ops values A) (nodes.getD l default) = _
    rw [harena l hl hl2]
    exact (nodeOfL_append ops hassoc values A _ hAne (leafListN_ne_nil hl hl2)).symm

theorem Iterative.accR_step {N V : Type} [Inhabited N] (ops : NodeOps N V)
    (values nodes : List N)
    (hassoc : ∀ a b c, ops.combine (ops.combine a b) c = ops.combine a (ops.combine b c))
    (hleaf : ∀ t, t < values.length →
      ops.init (ops.value (values.getD t default)) = values.getD t default)
    (hcomb : ∀ a b, ops.init (ops.value a) = a → ops.init (ops.value b) = b →
      ops.init (ops.value (ops.combine a b)) = ops.combine a b)
    (harena : ∀ k, 1 ≤ k → k < 2 * values.length →
      nodes.getD k default = nodeOfL ops values (leafListN values.length k))
    (r : Nat) (hr : 1 ≤ r - 1) (hr2 : r - 1 < 2 * values.length)
    (aR : Option N) (B : List Nat)
    (hBeq : aR = none ∧ B = [] ∨ B ≠ [] ∧ aR = some (nodeOfL ops values B)) :
    Iterative.accStepR ops nodes (r - 1) aR
      = nodeOfL ops values (leafListN values.length (r - 1) ++ B) := by
  rcases hBeq with ⟨rfl, rfl⟩ | ⟨hBne, rfl⟩
  · show ops.init (ops.value (nodes.getD (r - 1) default)) = _
    rw [harena (r - 1) hr hr2, List.append_nil]
    exact good_nodeOfL ops values hleaf hcomb _ (leafListN_ne_nil hr hr2)
      (fun t ht => leafListN_mem_lt ht)
  · show ops.combine (nodes.getD (r - 1) default) (nodeOfL ops values B) = _
    rw [harena (r - 1) hr hr2]
    exact (nodeOfL_append ops hassoc values _ B (leafListN_ne_nil hr hr2) hBne).symm

theorem Iterative.queryGo_fold {N V : Type} [Inhabited N] (ops : NodeOps N V)
    (values nodes : List N)
    (hassoc : ∀ a b c, ops.combine (ops.combine a b) c = ops.combine a (ops.combine b c))
    (hleaf : ∀ t, t < values.length →
      ops.init (ops.value (values.getD t default)) = values.getD t default)
    (hcomb : ∀ a b, ops.init (ops.value a) = a → ops.init (ops.value b) = b →
      ops.init (ops.value (ops.combine a b)) = ops.combine a b)
    (harena : ∀ k, 1 ≤ k → k < 2 * values.length →
      nodes.getD k default = nodeOfL ops values (leafListN values.length k)) :
    ∀ (fuel l r : Nat) (aL aR : Option N) (A B : List Nat), r - l < fuel →
      1 ≤ l → r ≤ 2 * values.length →
      (∀ t ∈ A, t < values.length) → (∀ t ∈ B, t < values.length) →
      (aL = none ∧ A = [] ∨ A ≠ [] ∧ aL = some (nodeOfL ops values A)) →
      (aR = none ∧ B = [] ∨ B ≠ [] ∧ aR = some (nodeOfL ops values B)) →
      ∃ A' B' : List Nat,
        (∀ t ∈ A', t < values.length) ∧ (∀ t ∈ B', t < values.length) ∧
        A' ++ B' = A ++ (List.range' l (r - l)).flatMap (leafListN values.length) ++ B ∧
        ((Iterative.queryGo ops nodes fuel l r aL aR).1 = none ∧ A' = [] ∨
          A' ≠ [] ∧ (Iterative.queryGo ops nodes fuel l r aL aR).1
            = some (nodeOfL ops values A')) ∧
        ((Iterative.queryGo ops nodes fuel l r aL aR).2 = none ∧ B' = [] ∨
          B' ≠ [] ∧ (Iterative.queryGo ops nodes fuel l r aL aR).2
            = some (nodeOfL ops values B')) := by
  intro fuel
  induction fuel with
  | zero => intro l r aL aR A B hfuel _ _ _ _ _ _; omega
  | succ fuel ih =>
    intro l r aL aR A B hfuel hl hrb hAm hBm hAeq hBeq
    by_cases hlr : l < r
    · rw [Iterative.queryGo_succ_of_lt ops nodes fuel l r aL aR hlr]
      have hmemA1 : ∀ t ∈ A ++ leafListN values.length l, t < values.length := by
        intro t ht
        rcases List.mem_append.1 ht with h | h
        · exact hAm t h
        · exact leafListN_mem_lt h
      have hmemB1 : ∀ t ∈ leafListN values.length (r - 1) ++ B, t < values.length := by
        intro t ht
        rcases List.mem_append.1 ht with h | h
        · exact leafListN_mem_lt h
        · exact hBm t h
      by_cases hlp : l % 2 = 1 <;> by_cases hrp : r % 2 = 1
      · -- both boundaries folded
        rw [if_pos hlp, if_pos hrp, if_pos hlp, if_pos hrp]
        have hA1 := Iterative.accL_step ops values nodes hassoc hleaf hcomb harena l hl
          (by omega) aL A hAeq
        have hB1 := Iterative.accR_step ops values nodes hassoc hleaf hcomb harena r
          (by omega) (by omega) aR B hBeq
        obtain ⟨A', B', hm1, hm2, hcat, hres1, hres2⟩ :=
          ih ((l + 1) / 2) ((r - 1) / 2) _ _ (A ++ leafListN values.length l)
            (leafListN values.length (r - 1) ++ B) (by omega) (by omega) (by omega)
            hmemA1 hmemB1
            (Or.inr ⟨leafListN_append_ne_nil values.length l A hl (by omega),
              congrArg some hA1⟩)
            (Or.inr ⟨leafListN_ne_nil_append values.length (r - 1) B (by omega) (by omega),
              congrArg some hB1⟩)
        refine ⟨A', B', hm1, hm2, ?_, hres1, hres2⟩
        rw [hcat]
        have h2a : 2 * ((l + 1) / 2) = l + 1 := by omega
        have h2d : 2 * ((r - 1) / 2 - (l + 1) / 2) = (r - 1) - (l + 1) := by omega
        rw [flatMap_leafListN_halve values.length ((r - 1) / 2 - (l + 1) / 2) ((l + 1) / 2)
            (by omega) (by omega), h2a, h2d]
        rw [range'_split_front l (r - l) (by omega),
          range'_split_back (l + 1) (r - l - 1) (by omega)]
        rw [show l + 1 + (r - l - 1 - 1) = r - 1 from by omega,
          show r - l - 1 - 1 = r - 1 - (l + 1) from by omega]
        simp [List.flatMap_cons, List.flatMap_append, List.append_assoc]
      · -- left folded, right even
        rw [if_pos hlp, if_neg hrp, if_pos hlp, if_neg hrp]
        have hA1 := Iterative.accL_step ops values nodes hassoc hleaf hcomb harena l hl
          (by omega) aL A hAeq
        obtain ⟨A', B', hm1, hm2, hcat, hres1, hres2⟩ :=
          ih ((l + 1) / 2) (r / 2) _ _ (A ++ leafListN values.length l) B
            (by omega) (by omega) (by omega) hmemA1 hBm
            (Or.inr ⟨leafListN_append_ne_nil values.length l A hl (by omega),
              congrArg some hA1⟩) hBeq
        refine ⟨A', B', hm1, hm2, ?_, hres1, hres2⟩
        rw [hcat]
        have h2a : 2 * ((l + 1) / 2) = l + 1 := by omega
        have h2d : 2 * (r / 2 - (l + 1) / 2) = r - (l + 1) := by omega
        rw [flatMap_leafListN_halve values.length (r / 2 - (l + 1) / 2) ((l + 1) / 2)
            (by omega) (by omega), h2a, h2d]
        rw [range'_split_front l (r - l) (by omega),
          show r - l - 1 = r - (l + 1) from by omega]
        simp [List.flatMap_cons, List.append_assoc]
      · -- left even, right folded
        rw [if_neg hlp, if_pos hrp, if_neg hlp, if_pos hrp]
        have hB1 := Iterative.accR_step ops values nodes hassoc hleaf hcomb harena r
          (by omega) (by omega) aR B hBeq
        obtain ⟨A', B', hm1, hm2, hcat, hres1, hres2⟩ :=
          ih (l / 2) ((r - 1) / 2) _ _ A (leafListN values.length (r - 1) ++ B)
            (by omega) (by omega) (by omega) hAm hmemB1 hAeq
            (Or.inr ⟨leafListN_ne_nil_append values.length (r - 1) B (by omega) (by omega),
              congrArg some hB1⟩)
        refine ⟨A', B', hm1, hm2, ?_, hres1, hres2⟩
        rw [hcat]
        have h2a : 2 * (l / 2) = l := by omega
        have h2d : 2 * ((r - 1) / 2 - l / 2) = (r - 1) - l := by omega
        rw [flatMap_leafListN_halve values.length ((r - 1) / 2 - l / 2) (l / 2)
            (by omega) (by omega), h2a, h2d]
        rw [range'_split_back l (r - l) (by omega)]
        rw [show l + (r - l - 1) = r - 1 from by omega,
          show r - l - 1 = r - 1 - l from by omega]
        simp [List.flatMap_append, List.append_assoc]
      · -- both even
        rw [if_neg hlp, if_neg hrp, if_neg hlp, if_neg hrp]
        obtain ⟨A', B', hm1, hm2, hcat, hres1, hres2⟩ :=
          ih (l / 2) (r / 2) _ _ A B (by omega) (by omega) (by omega) hAm hBm hAeq hBeq
        refine ⟨A', B', hm1, hm2, ?_, hres1, hres2⟩
        rw [hcat]
        have h2a : 2 * (l / 2) = l := by omega
        have h2d : 2 * (r / 2 - l / 2) = r - l := by omega
        rw [flatMap_leafListN_halve values.length (r / 2 - l / 2) (l / 2)
            (by omega) (by omega), h2a, h2d]
    · rw [Iterative.queryGo_succ, if_neg hlr]
      refine ⟨A, B, hAm, hBm, ?_, ?_, ?_⟩
      · rw [show r - l = 0 from by omega]
        simp
      · rcases hAeq with ⟨h1, h2⟩ | ⟨h1, h2⟩
        · exact Or.inl ⟨h1, h2⟩
        · exact Or.inr ⟨h1, h2⟩
      · rcases hBeq with ⟨h1, h2⟩ | ⟨h1, h2⟩
        · exact Or.inl ⟨h1, h2⟩
        · exact Or.inr ⟨h1, h2⟩

/-- C3 (amended): for node types in which `initialize(value())` reconstructs
every leaf and this property is preserved by `combine` — as for `Sum`, `Min`
and `Max`, but not for cached-field types like `MaxSubArraySum` — and an
associative `combine`, `Iterative::query(l, r)` with `l ≤ r < n` on the tree
built from `values` returns exactly the left-to-right combine-fold of the
leaves `values[l..=r]`. -/
theorem c3_iterative_query_matches_fold {N V : Type} [Inhabited N] (ops : NodeOps N V)
    (values : List N)
    (hassoc : ∀ a b c, ops.combine (ops.combine a b) c = ops.combine a (ops.combine b c))
    (hleaf : ∀ t, t < values.length →
      ops.init (ops.value (values.getD t default)) = values.getD t default)
    (hcomb : ∀ a b, ops.init (ops.value a) = a → ops.init (ops.value b) = b →
      ops.init (ops.value (ops.combine a b)) = ops.combine a b)
    (l r : Nat) (hlr : l ≤ r) (hr : r < values.length) :
    Iterative.query ops (Iterative.build ops values) l r = foldRange ops values l r := by
  have hn : 1 ≤ values.length := by omega
  have hne : values ≠ [] := by
    intro h
    rw [h] at hn
    simp at hn
  have harena := Iterative.build_arena ops hassoc values hne
  obtain ⟨A', B', hm1, hm2, hcat, hres1, hres2⟩ :=
    Iterative.queryGo_fold ops values (Iterative.build ops values).nodes hassoc hleaf hcomb
      harena (values.length + r + 2) (l + values.length) (r + values.length + 1) none none
      [] [] (by omega) (by omega) (by omega)
      (by intro t ht; simp at ht) (by intro t ht; simp at ht)
      (Or.inl ⟨rfl, rfl⟩) (Or.inl ⟨rfl, rfl⟩)
  rw [show r + values.length + 1 - (l + values.length) = r + 1 - l from by omega,
    show l + values.length = values.length + l from by omega,
    flatMap_leafListN_leaves values.length (r + 1 - l) l (by omega),
    List.nil_append, List.append_nil] at hcat
  have key : Iterative.query ops (Iterative.build ops values) l r =
      match Iterative.queryGo ops (Iterative.build ops values).nodes
        (values.length + r + 2) (l + values.length) (r + values.length + 1) none none with
      | (some aL, some aR) => some (ops.combine aL aR)
      | (some aL, none) => some (ops.init (ops.value aL))
      | (none, some aR) => some (ops.init (ops.value aR))
      | (none, none) => none := rfl
  rw [key, foldRange_eq_nodeOfL_range' ops values l r hlr hr]
  rcases e : Iterative.queryGo ops (Iterative.build ops values).nodes
      (values.length + r + 2) (l + values.length) (r + values.length + 1) none none
    with ⟨aLv, aRv⟩
  have e1 : (Iterative.queryGo ops (Iterative.build ops values).nodes
      (values.length + r + 2) (l + values.length) (r + values.length + 1) none none).1
      = aLv := by rw [e]
  have e2 : (Iterative.queryGo ops (Iterative.build ops values).nodes
      (values.length + r + 2) (l + values.length) (r + values.length + 1) none none).2
      = aRv := by rw [e]
  rw [e1] at hres1
  rw [e2] at hres2
  rcases aLv with _ | aL <;> rcases aRv with _ | aR
  · -- both absent: the covered leaf range would be empty
    rcases hres1 with ⟨_, rfl⟩ | ⟨_, h1⟩
    · rcases hres2 with ⟨_, rfl⟩ | ⟨_, h2⟩
      · rw [List.nil_append] at hcat
        have : r + 1 - l = 0 := List.range'_eq_nil.mp hcat.symm
        omega
      · exact absurd h2 (by simp)
    · exact absurd h1 (by simp)
  · -- only the right accumulator is present
    show some (ops.init (ops.value aR))
      = some (nodeOfL ops values (List.range' l (r + 1 - l)))
    rcases hres2 with ⟨h2, _⟩ | ⟨hBne, h2⟩
    · exact absurd h2 (by simp)
    rcases hres1 with ⟨_, rfl⟩ | ⟨_, h1⟩
    · rw [List.nil_append] at hcat
      have haR : aR = nodeOfL ops values B' := Option.some.inj h2
      rw [haR, good_nodeOfL ops values hleaf hcomb B' hBne hm2, hcat]
    · exact absurd h1 (by simp)
  · -- only the left accumulator is present
    show some (ops.init (ops.value aL))
      = some (nodeOfL ops values (List.range' l (r + 1 - l)))
    rcases hres1 with ⟨h1, _⟩ | ⟨hAne, h1⟩
    · exact absurd h1 (by simp)
    rcases hres2 with ⟨_, rfl⟩ | ⟨_, h2⟩
    · rw [List.append_nil] at hcat
      have haL : aL = nodeOfL ops values A' := Option.some.inj h1
      rw [haL, good_nodeOfL ops values hleaf hcomb A' hAne hm1, hcat]
    · exact absurd h2 (by simp)
  · -- both accumulators are present
    show some (ops.combine aL aR)
      = some (nodeOfL ops values (List.range' l (r + 1 - l)))
    rcases hres1 with ⟨h1, _⟩ | ⟨hAne, h1⟩
    · exact absurd h1 (by simp)
    rcases hres2 with ⟨h2, _⟩ | ⟨hBne, h2⟩
    · exact absurd h2 (by simp)
    have haL : aL = nodeOfL ops values A' := Option.some.inj h1
    have haR : aR = nodeOfL ops values B' := Option.some.inj h2
    rw [haL, haR, ← nodeOfL_append ops hassoc values A' B' hAne hBne, hcat]

/-- Witness for C3 (amended), on the sum tree over the 5 leaves `0..4`:
`Iterative::query(1, 3)` equals the fold of leaves 1..3. -/
theorem c3_iterative_query_matches_fold_witness :
    Iterative.query sumOps.toNodeOps
        (Iterative.build sumOps.toNodeOps (sumLeavesUpTo 5)) 1 3
      = foldRange sumOps.toNodeOps (sumLeavesUpTo 5) 1 3
    ∧ foldRange sumOps.toNodeOps (sumLeavesUpTo 5) 1 3 = some (sumOps.init 6) := by
  constructor
  · exact c3_iterative_query_matches_fold sumOps.toNodeOps (sumLeavesUpTo 5)
      (by
        intro a b c
        show SumNode.mk (a.value + b.value + c.value) none
          = SumNode.mk (a.value + (b.value + c.value)) none
        rw [Int.add_assoc])
      (by
        intro t ht
        have ht5 : t < 5 := by simpa [sumLeavesUpTo] using ht
        interval_cases t <;> rfl)
      (fun a b _ _ => rfl)
      1 3 (by omega) (by decide)
  · decide

/-! ### C1: list access helpers with an explicit default -/

theorem getD_append_lt {α : Type} (l ext : List α) (k : Nat) (d : α) (h : k < l.length) :
    (l ++ ext).getD k d = l.getD k d := by
  rw [List.getD_eq_getElem?_getD, List.getD_eq_getElem?_getD, List.getElem?_append_left h]

theorem getD_append_ge {α : Type} (l ext : List α) (k : Nat) (d : α) (h : l.length ≤ k) :
    (l ++ ext).getD k d = ext.getD (k - l.length) d := by
  rw [List.getD_eq_getElem?_getD, List.getD_eq_getElem?_getD, List.getElem?_append_right h]

theorem getD_set_ne2 {α : Type} (l : List α) (i k : Nat) (x d : α) (h : i ≠ k) :
    (l.set i x).getD k d = l.getD k d := by
  rw [List.getD_eq_getElem?_getD, List.getD_eq_getElem?_getD, List.getElem?_set_ne h]

theorem getD_set_self2 {α : Type} (l : List α) (i : Nat) (x d : α) (h : i < l.length) :
    (l.set i x).getD i d = x := by
  rw [List.getD_eq_getElem?_getD, List.getElem?_set_eq_of_lt x h]
  rfl

theorem getD_mem_of_lt {α : Type} (l : List α) (k : Nat) (d : α) (h : k < l.length) :
    l.getD k d ∈ l := by
  rw [List.getD_eq_getElem l d h]
  exact List.getElem_mem h

theorem segOf_append_lt (segs ext : List (Nat × Nat)) (k : Nat) (h : k < segs.length) :
    segOf (segs ++ ext) k = segOf segs k :=
  getD_append_lt segs ext k (0, 0) h

/-! ### C1: the canonical segment assignment survives extensions -/

theorem SegOkAt_mono {N : Type} [Inhabited N] {nodes nodes2 : List (PWrap N)}
    {segs segs2 : List (Nat × Nat)} {n k : Nat}
    (hk : k < nodes.length)
    (hmon : nodes.length ≤ nodes2.length)
    (hleneq : segs.length = nodes.length)
    (hnagk : nodes2.getD k default = nodes.getD k default)
    (hsag : ∀ m, m < segs.length → segOf segs2 m = segOf segs m)
    (h : SegOkAt nodes segs n k) : SegOkAt nodes2 segs2 n k := by
  obtain ⟨h1, h2, h3, h4⟩ := h
  have hsk := hsag k (by omega)
  refine ⟨by rw [hsk]; exact h1, by rw [hsk]; exact h2, ?_, ?_⟩
  · intro he
    rw [hnagk]
    exact h3 (by rw [hsk] at he; exact he)
  · intro he
    obtain ⟨p, q, hp1, hq1, hp2, hq2, hp3, hq3⟩ := h4 (by rw [hsk] at he; exact he)
    exact ⟨p, q, by rw [hnagk]; exact hp1, by rw [hnagk]; exact hq1, by omega, by omega,
      by rw [hsag p (by omega), hsk]; exact hp3,
      by rw [hsag q (by omega), hsk]; exact hq3⟩

/-! ### C1: `Persistent::build_helper` produces a canonically segmented
arena, appending to whatever arena it is given -/

theorem Persistent.buildHelper_segs {N V : Type} [Inhabited N] (ops : NodeOps N V)
    (values : List N) (n : Nat) :
    ∀ (fuel i j : Nat) (arr : List (PWrap N)) (segs : List (Nat × Nat)),
      j - i < fuel → i ≤ j → j < n → SegsOkG arr segs n →
      ∃ ext : List (Nat × Nat),
        SegsOkG (Persistent.buildHelper ops values fuel i j arr).1 (segs ++ ext) n ∧
        arr.length ≤ (Persistent.buildHelper ops values fuel i j arr).1.length ∧
        (∀ k, k < arr.length →
          (Persistent.buildHelper ops values fuel i j arr).1.getD k default
            = arr.getD k default) ∧
        (Persistent.buildHelper ops values fuel i j arr).2
          < (Persistent.buildHelper ops values fuel i j arr).1.length ∧
        segOf (segs ++ ext) (Persistent.buildHelper ops values fuel i j arr).2 = (i, j) := by
  intro fuel
  induction fuel with
  | zero => intro i j arr segs hf _ _ _; omega
  | succ fuel ih =>
    intro i j arr segs hf hij hjn hok
    obtain ⟨hlen, hall⟩ := hok
    by_cases he : i = j
    · have hres : Persistent.buildHelper ops values (fuel + 1) i j arr
          = (arr ++ [PWrap.ofNode (values.getD i default)], arr.length) := by
        rw [Persistent.buildHelper, if_pos he]
      rw [hres]
      refine ⟨[(i, j)], ⟨?_, ?_⟩, ?_, ?_, ?_, ?_⟩
      · simp [hlen]
      · intro k hk
        rw [List.length_append, List.length_singleton] at hk
        rcases Nat.lt_or_ge k arr.length with hk2 | hk2
        · exact SegOkAt_mono hk2 (by simp) hlen
            (getD_append_lt arr _ k default hk2)
            (fun m hm => segOf_append_lt segs _ m hm) (hall k hk2)
        · have hkeq : k = arr.length := by omega
          have hsegk : segOf (segs ++ [(i, j)]) k = (i, j) := by
            rw [segOf, getD_append_ge segs _ k (0, 0) (by omega), hlen, hkeq]
            simp
          have hnodk : (arr ++ [PWrap.ofNode (values.getD i default)]).getD k default
              = PWrap.ofNode (values.getD i default) := by
            rw [getD_append_ge arr _ k default (by omega), hkeq]
            simp
          refine ⟨by rw [hsegk]; exact hij, by rw [hsegk]; exact hjn, ?_, ?_⟩
          · intro _
            rw [hnodk]
            exact ⟨rfl, rfl⟩
          · intro hne
            rw [hsegk] at hne
            exact absurd he hne
      · simp
      · intro k hk
        exact getD_append_lt arr _ k default hk
      · simp
      · rw [segOf, getD_append_ge segs _ arr.length (0, 0) (by omega), hlen]
        simp
    · obtain ⟨ext1, hok1, hmono1, hpres1, hidx1, hseg1⟩ :=
        ih i ((i + j) / 2) arr segs (by omega) (by omega) (by omega) ⟨hlen, hall⟩
      obtain ⟨ext2, hok2, hmono2, hpres2, hidx2, hseg2⟩ :=
        ih ((i + j) / 2 + 1) j
          (Persistent.buildHelper ops values fuel i ((i + j) / 2) arr).1 (segs ++ ext1)
          (by omega) (by omega) (by omega) hok1
      obtain ⟨hlen1, _⟩ := hok1
      obtain ⟨hlen2, hall2⟩ := hok2
      rw [Persistent.buildHelper, if_neg he]
      simp only []
      generalize e1 : Persistent.buildHelper ops values fuel i ((i + j) / 2) arr = res1
        at hlen1 hmono1 hpres1 hidx1 hseg1 hmono2 hpres2 hidx2 hseg2 hlen2 hall2 ⊢
      generalize e2 : Persistent.buildHelper ops values fuel ((i + j) / 2 + 1) j res1.1 = res2
        at hmono2 hpres2 hidx2 hseg2 hlen2 hall2 ⊢
      have hlen1b : segs.length + ext1.length = res1.1.length := by
        rw [← hlen1]
        simp only [List.length_append]
      have hlen2b : segs.length + ext1.length + ext2.length = res2.1.length := by
        rw [← hlen2]
        simp only [List.length_append]
      have hR1A2 : res1.2 < res2.1.length := by omega
      refine ⟨ext1 ++ ext2 ++ [(i, j)], ⟨?_, ?_⟩, ?_, ?_, ?_, ?_⟩ <;>
        (try rw [show segs ++ (ext1 ++ ext2 ++ [(i, j)]) = segs ++ ext1 ++ ext2 ++ [(i, j)] from
          by simp [List.append_assoc]])
      · simp only [List.length_set, List.length_append, List.length_singleton]
        omega
      · intro k hk
        simp only [List.length_set, List.length_append, List.length_singleton] at hk
        rcases Nat.lt_or_ge k res2.1.length with hk2 | hk2
        · refine SegOkAt_mono hk2 ?_ hlen2 ?_ ?_ (hall2 k hk2)
          · simp only [List.length_set, List.length_append, List.length_singleton]
            omega
          · rw [getD_set_ne2 _ _ _ _ _ (by omega), getD_append_lt _ _ _ _ hk2]
          · intro m hm
            exact segOf_append_lt _ _ m hm
        · have hkeq : k = res2.1.length := by omega
          have hsegk : segOf (segs ++ ext1 ++ ext2 ++ [(i, j)]) k = (i, j) := by
            rw [segOf, getD_append_ge _ _ k (0, 0) (by omega), hlen2, hkeq]
            simp
          refine ⟨by rw [hsegk]; exact hij, by rw [hsegk]; exact hjn, ?_, ?_⟩
          · intro hc
            rw [hsegk] at hc
            exact absurd hc he
          · intro _
            refine ⟨res1.2, res2.2, ?_, ?_, ?_, ?_, ?_, ?_⟩
            · rw [hkeq, getD_set_self2 _ _ _ _ (by
                simp only [List.length_append, List.length_singleton]; omega)]
              rfl
            · rw [hkeq, getD_set_self2 _ _ _ _ (by
                simp only [List.length_append, List.length_singleton]; omega)]
              rfl
            · simp only [List.length_set, List.length_append, List.length_singleton]
              omega
            · simp only [List.length_set, List.length_append, List.length_singleton]
              omega
            · rw [hsegk]
              rw [segOf, getD_append_lt _ _ _ _ (by omega)]
              rw [show (segs ++ ext1 ++ ext2).getD res1.2 (0, 0)
                  = segOf (segs ++ ext1) res1.2 from by
                rw [segOf, getD_append_lt _ _ _ _ (by omega)]]
              exact hseg1
            · rw [hsegk]
              rw [segOf, getD_append_lt _ _ _ _ (by omega)]
              exact hseg2
      · simp only [List.length_set, List.length_append, List.length_singleton]
        omega
      · intro k hk
        rw [getD_set_ne2 _ _ _ _ _ (by omega), getD_append_lt _ _ _ _ (by omega),
          hpres2 k (by omega), hpres1 k hk]
      · simp only [List.length_set, List.length_append, List.length_singleton]
        omega
      · rw [segOf, getD_append_ge _ _ _ (0, 0) (by omega), hlen2]
        simp

theorem SegsOkG_append_copy {N : Type} [Inhabited N] {nodes : List (PWrap N)}
    {segs : List (Nat × Nat)} {n : Nat} (h : SegsOkG nodes segs n) (curr : Nat)
    (hc : curr < nodes.length) :
    SegsOkG (nodes ++ [nodes.getD curr default]) (segs ++ [segOf segs curr]) n := by
  obtain ⟨hlen, hall⟩ := h
  refine ⟨by simp [hlen], ?_⟩
  intro k hk
  rw [List.length_append, List.length_singleton] at hk
  rcases Nat.lt_or_ge k nodes.length with hk2 | hk2
  · exact SegOkAt_mono hk2 (by simp) hlen (getD_append_lt _ _ _ _ hk2)
      (fun m hm => segOf_append_lt _ _ m hm) (hall k hk2)
  · have hkeq : k = nodes.length := by omega
    have hsg : segOf (segs ++ [segOf segs curr]) k = segOf segs curr := by
      rw [segOf, getD_append_ge _ _ _ _ (by omega), hkeq, hlen]
      simp [segOf]
    have hnd : (nodes ++ [nodes.getD curr default]).getD k default
        = nodes.getD curr default := by
      rw [getD_append_ge _ _ _ _ (by omega), hkeq]
      simp
    obtain ⟨h1, h2, h3, h4⟩ := hall curr hc
    refine ⟨by rw [hsg]; exact h1, by rw [hsg]; exact h2, ?_, ?_⟩
    · intro hc2
      rw [hsg] at hc2
      rw [hnd]
      exact h3 hc2
    · intro hc2
      rw [hsg] at hc2
      obtain ⟨p, q, hp1, hq1, hp2, hq2, hp3, hq3⟩ := h4 hc2
      refine ⟨p, q, by rw [hnd]; exact hp1, by rw [hnd]; exact hq1,
        by simp only [List.length_append, List.length_singleton]; omega,
        by simp only [List.length_append, List.length_singleton]; omega, ?_, ?_⟩
      · rw [hsg, segOf_append_lt _ _ _ (by omega)]
        exact hp3
      · rw [hsg, segOf_append_lt _ _ _ (by omega)]
        exact hq3

/-- `Persistent::build` on a non-empty slice: a canonically segmented arena
with version 0 recorded as the single root over `[0, n-1]`. -/
theorem Persistent.build_segs {N V : Type} [Inhabited N] (ops : NodeOps N V)
    (values : List N) (hne : values ≠ []) :
    ∃ segs, SegsOkG (Persistent.build ops values).nodes segs values.length ∧
      RootsOkP (Persistent.build ops values) segs ∧
      (Persistent.build ops values).n = values.length ∧
      (Persistent.build ops values).roots = [(Persistent.build ops values).roots.getD 0 0] := by
  have hn : 0 < values.length := List.length_pos.2 hne
  obtain ⟨ext, hok, _, _, hidx, hseg⟩ :=
    Persistent.buildHelper_segs ops values values.length values.length 0
      (values.length - 1) [] [] (by omega) (by omega) (by omega)
      ⟨rfl, by intro k hk; simp at hk⟩
  have hb : Persistent.build ops values
      = { nodes := (Persistent.buildHelper ops values values.length 0
            (values.length - 1) []).1,
          roots := [(Persistent.buildHelper ops values values.length 0
            (values.length - 1) []).2],
          n := values.length } := by
    rw [Persistent.build]
    simp only []
    rw [if_neg (by omega)]
  rw [hb]
  rw [List.nil_append] at hok hseg
  refine ⟨ext, hok, ?_, rfl, rfl⟩
  intro ro hro
  simp only [List.mem_singleton] at hro
  subst hro
  simp only [List.getD_cons_zero]
  exact ⟨hidx, hseg⟩

/-- `Persistent::update_helper` appends copies, never touching existing
slots, and returns a canonically placed root for the same segment. -/
theorem Persistent.updateHelper_segs {N V : Type} [Inhabited N] (ops : NodeOps N V)
    (p : Nat) (v : V) (n : Nat) :
    ∀ (fuel curr i j : Nat) (nodes : List (PWrap N)) (segs : List (Nat × Nat)),
      SegsOkG nodes segs n → curr < nodes.length → segOf segs curr = (i, j) →
      j - i < fuel →
      ∃ ext : List (Nat × Nat),
        SegsOkG (Persistent.updateHelper ops p v fuel curr i j nodes).1 (segs ++ ext) n ∧
        nodes.length ≤ (Persistent.updateHelper ops p v fuel curr i j nodes).1.length ∧
        (∀ k, k < nodes.length →
          (Persistent.updateHelper ops p v fuel curr i j nodes).1.getD k default
            = nodes.getD k default) ∧
        (Persistent.updateHelper ops p v fuel curr i j nodes).2
          < (Persistent.updateHelper ops p v fuel curr i j nodes).1.length ∧
        segOf (segs ++ ext) (Persistent.updateHelper ops p v fuel curr i j nodes).2
          = (i, j) := by
  intro fuel
  induction fuel with
  | zero => intro curr i j nodes segs _ _ _ hf; omega
  | succ fuel ih =>
    intro curr i j nodes segs hok hc hcur hf
    obtain ⟨hlen, hall⟩ := hok
    obtain ⟨hb1, hb2, hleafC, hintC⟩ := hall curr hc
    rw [hcur] at hb1 hb2 hleafC hintC
    rw [Persistent.updateHelper]
    by_cases hd : j < p ∨ p < i
    · rw [if_pos hd]
      exact ⟨[], by rw [List.append_nil]; exact ⟨hlen, hall⟩, Nat.le_refl _,
        fun k _ => rfl, hc, by rw [List.append_nil]; exact hcur⟩
    · rw [if_neg hd]
      simp only []
      by_cases hij : i = j
      · rw [if_pos hij]
        refine ⟨[(i, j)], ⟨?_, ?_⟩, ?_, ?_, ?_, ?_⟩
        · simp only [List.length_set, List.length_append, List.length_singleton, hlen]
        · intro k hk
          simp only [List.length_set, List.length_append, List.length_singleton] at hk
          rcases Nat.lt_or_ge k nodes.length with hk2 | hk2
          · refine SegOkAt_mono hk2 (by simp) hlen ?_
              (fun m hm => segOf_append_lt _ _ m hm) (hall k hk2)
            rw [getD_set_ne2 _ _ _ _ _ (by omega), getD_append_lt _ _ _ _ hk2]
          · have hkeq : k = nodes.length := by omega
            have hsg : segOf (segs ++ [(i, j)]) k = (i, j) := by
              rw [segOf, getD_append_ge _ _ _ _ (by omega), hkeq, hlen]
              simp
            have hng : ((nodes ++ [nodes.getD curr default]).set nodes.length
                (PWrap.init ops v)).getD k default = PWrap.init ops v := by
              rw [hkeq, getD_set_self2 _ _ _ _ (by simp)]
            refine ⟨by rw [hsg]; exact hb1, by rw [hsg]; exact hb2, ?_, ?_⟩
            · intro _
              rw [hng]
              exact ⟨rfl, rfl⟩
            · intro hne
              rw [hsg] at hne
              exact absurd hij hne
        · simp only [List.length_set, List.length_append, List.length_singleton]
          omega
        · intro k hk
          rw [getD_set_ne2 _ _ _ _ _ (by omega), getD_append_lt _ _ _ _ hk]
        · simp only [List.length_set, List.length_append, List.length_singleton]
          omega
        · rw [segOf, getD_append_ge _ _ _ _ (by omega), hlen]
          simp
      · rw [if_neg hij]
        obtain ⟨pp, qq, hp1, hq1, hp2, hq2, hp3, hq3⟩ := hintC hij
        have hok1 : SegsOkG (nodes ++ [nodes.getD curr default]) (segs ++ [(i, j)]) n := by
          rw [← hcur]
          exact SegsOkG_append_copy ⟨hlen, hall⟩ curr hc
        have hchl : ((nodes ++ [nodes.getD curr default]).getD nodes.length default).left.getD 0
            = pp := by
          rw [getD_append_ge _ _ _ _ (Nat.le_refl _), Nat.sub_self, List.getD_cons_zero, hp1]
          rfl
        rw [hchl]
        obtain ⟨ext1, hok1r, hmono1, hpres1, hidx1, hseg1⟩ :=
          ih pp i ((i + j) / 2) (nodes ++ [nodes.getD curr default]) (segs ++ [(i, j)])
            hok1 (by simp only [List.length_append, List.length_singleton]; omega)
            (by rw [segOf_append_lt _ _ _ (by omega)]; exact hp3) (by omega)
        have hchr : (((Persistent.updateHelper ops p v fuel pp i ((i + j) / 2)
              (nodes ++ [nodes.getD curr default])).1.getD nodes.length default)).right.getD 0
            = qq := by
          rw [hpres1 nodes.length (by simp), getD_append_ge _ _ _ _ (Nat.le_refl _),
            Nat.sub_self, List.getD_cons_zero, hq1]
          rfl
        rw [hchr]
        obtain ⟨ext2, hok2r, hmono2, hpres2, hidx2, hseg2⟩ :=
          ih qq ((i + j) / 2 + 1) j
            (Persistent.updateHelper ops p v fuel pp i ((i + j) / 2)
              (nodes ++ [nodes.getD curr default])).1 (segs ++ [(i, j)] ++ ext1)
            hok1r
            (by
              have : qq < (nodes ++ [nodes.getD curr default]).length := by
                simp only [List.length_append, List.length_singleton]
                omega
              omega)
            (by
              rw [segOf_append_lt _ _ _ (by
                rw [List.length_append, List.length_singleton]
                omega), segOf_append_lt _ _ _ (by omega)]
              exact hq3)
            (by omega)
        obtain ⟨hlen1, _⟩ := hok1r
        obtain ⟨hlen2, hall2⟩ := hok2r
        generalize e1 : Persistent.updateHelper ops p v fuel pp i ((i + j) / 2)
            (nodes ++ [nodes.getD curr default]) = res1
          at hlen1 hmono1 hpres1 hidx1 hseg1 hmono2 hpres2 hidx2 hseg2 hlen2 hall2 ⊢
        generalize e2 : Persistent.updateHelper ops p v fuel qq ((i + j) / 2 + 1) j res1.1
            = res2 at hmono2 hpres2 hidx2 hseg2 hlen2 hall2 ⊢
        have hxlen : nodes.length < res2.1.length := by
          have : nodes.length < (nodes ++ [nodes.getD curr default]).length := by simp
          omega
        have hxq : res2.1.getD nodes.length default
            = (nodes ++ [nodes.getD curr default]).getD nodes.length default := by
          rw [hpres2 nodes.length (by
            have : nodes.length < (nodes ++ [nodes.getD curr default]).length := by simp
            omega), hpres1 nodes.length (by simp)]
        refine ⟨[(i, j)] ++ ext1 ++ ext2, ⟨?_, ?_⟩, ?_, ?_, ?_, ?_⟩ <;>
          (try rw [show segs ++ ([(i, j)] ++ ext1 ++ ext2)
              = segs ++ [(i, j)] ++ ext1 ++ ext2 from by simp [List.append_assoc]])
        · simp only [List.length_set]
          exact hlen2
        · intro k hk
          simp only [List.length_set] at hk
          by_cases hkx : k = nodes.length
          · have hsg : segOf (segs ++ [(i, j)] ++ ext1 ++ ext2) k = (i, j) := by
              rw [segOf, getD_append_lt _ _ _ _ (by
                  rw [List.length_append, List.length_append, List.length_singleton]
                  omega),
                getD_append_lt _ _ _ _ (by
                  rw [List.length_append, List.length_singleton]
                  omega),
                getD_append_ge _ _ _ _ (by omega), hkx, hlen]
              simp
            have hng : ((res2.1.set nodes.length
                  (PWrap.combine ops (res2.1.getD res1.2 default)
                    (res2.1.getD res2.2 default))).set nodes.length
                  (((res2.1.set nodes.length
                      (PWrap.combine ops (res2.1.getD res1.2 default)
                        (res2.1.getD res2.2 default))).getD nodes.length
                    default).setChildren res1.2 res2.2)).getD k default
                = (PWrap.combine ops (res2.1.getD res1.2 default)
                    (res2.1.getD res2.2 default)).setChildren res1.2 res2.2 := by
              rw [hkx, getD_set_self2 _ _ _ _ (by simp only [List.length_set]; omega),
                getD_set_self2 _ _ _ _ (by omega)]
            refine ⟨by rw [hsg]; exact hb1, by rw [hsg]; exact hb2, ?_, ?_⟩
            · intro hc2
              rw [hsg] at hc2
              exact absurd hc2 hij
            · intro _
              refine ⟨res1.2, res2.2, ?_, ?_, ?_, ?_, ?_, ?_⟩
              · rw [hng]
                rfl
              · rw [hng]
                rfl
              · simp only [List.length_set]
                omega
              · simp only [List.length_set]
                omega
              · rw [hsg, segOf_append_lt _ _ _ (by omega)]
                exact hseg1
              · rw [hsg]
                exact hseg2
          · have hk2 : k < res2.1.length := hk
            refine SegOkAt_mono hk2 (by simp only [List.length_set]; exact Nat.le_refl _)
              hlen2 ?_ (fun m hm => rfl) (hall2 k hk2)
            rw [getD_set_ne2 _ _ _ _ _ (fun hx => hkx hx.symm),
              getD_set_ne2 _ _ _ _ _ (fun hx => hkx hx.symm)]
        · simp only [List.length_set]
          have : nodes.length ≤ (nodes ++ [nodes.getD curr default]).length := by simp
          omega
        · intro k hk
          rw [getD_set_ne2 _ _ _ _ _ (by omega), getD_set_ne2 _ _ _ _ _ (by omega),
            hpres2 k (by
              have : k < (nodes ++ [nodes.getD curr default]).length := by
                simp only [List.length_append, List.length_singleton]
                omega
              omega),
            hpres1 k (by simp only [List.length_append, List.length_singleton]; omega),
            getD_append_lt _ _ _ _ hk]
        · simp only [List.length_set]
          omega
        · rw [segOf, getD_append_lt _ _ _ _ (by
              rw [List.length_append, List.length_append, List.length_singleton]
              omega),
            getD_append_lt _ _ _ _ (by
              rw [List.length_append, List.length_singleton]
              omega),
            getD_append_ge _ _ _ _ (by omega), hlen]
          simp

/-- `Persistent::query_helper` reads only canonically reachable slots, so
arenas agreeing on the original prefix answer alike. -/
theorem Persistent.queryHelper_congr {N V : Type} [Inhabited N] (ops : NodeOps N V)
    {nodes nodes2 : List (PWrap N)} {segs : List (Nat × Nat)} {n : Nat}
    (hok : SegsOkG nodes segs n)
    (hag : ∀ k, k < nodes.length → nodes2.getD k default = nodes.getD k default)
    (left right : Nat) :
    ∀ (fuel curr i j : Nat), curr < nodes.length → segOf segs curr = (i, j) →
      Persistent.queryHelper ops nodes2 left right fuel curr i j
        = Persistent.queryHelper ops nodes left right fuel curr i j := by
  obtain ⟨hlen, hall⟩ := hok
  intro fuel
  induction fuel with
  | zero => intro curr i j _ _; rfl
  | succ fuel ih =>
    intro curr i j hc hcur
    obtain ⟨hb1, hb2, hleafC, hintC⟩ := hall curr hc
    rw [hcur] at hb1 hb2 hleafC hintC
    rw [Persistent.queryHelper, Persistent.queryHelper]
    by_cases hdis : j < left ∨ right < i
    · rw [if_pos hdis, if_pos hdis]
    · rw [if_neg hdis, if_neg hdis]
      by_cases hcov : left ≤ i ∧ j ≤ right
      · rw [if_pos hcov, if_pos hcov, hag curr hc]
      · rw [if_neg hcov, if_neg hcov]
        have hij : i ≠ j := by
          intro he
          subst he
          omega
        obtain ⟨pp, qq, hp1, hq1, hp2, hq2, hp3, hq3⟩ := hintC hij
        rw [hag curr hc,
          show ((nodes.getD curr default).left).getD 0 = pp from by rw [hp1]; rfl,
          show ((nodes.getD curr default).right).getD 0 = qq from by rw [hq1]; rfl]
        simp only []
        rw [ih pp i ((i + j) / 2) hp2 hp3, ih qq ((i + j) / 2 + 1) j hq2 hq3]

/-- One `Persistent` operation leaves the old arena prefix, the recorded
roots, and `n` intact, extending the arena and roots only. -/
theorem Persistent.runOp_extends {N V : Type} [Inhabited N] (ops : NodeOps N V)
    (st : PerState N) (segs : List (Nat × Nat)) (op : POp V)
    (hok : SegsOkG st.nodes segs st.n) (hroots : RootsOkP st segs) (hn : 1 ≤ st.n) :
    ∃ ext rext,
      SegsOkG (Persistent.runOp ops st op).nodes (segs ++ ext)
        (Persistent.runOp ops st op).n ∧
      RootsOkP (Persistent.runOp ops st op) (segs ++ ext) ∧
      (Persistent.runOp ops st op).n = st.n ∧
      (∀ k, k < st.nodes.length →
        (Persistent.runOp ops st op).nodes.getD k default = st.nodes.getD k default) ∧
      st.nodes.length ≤ (Persistent.runOp ops st op).nodes.length ∧
      (Persistent.runOp ops st op).roots = st.roots ++ rext := by
  cases op with
  | qry version l r =>
    exact ⟨[], [], by rw [List.append_nil]; exact hok,
      by rw [List.append_nil]; exact hroots, rfl, fun k _ => rfl, Nat.le_refl _,
      by rw [List.append_nil]; rfl⟩
  | lb version pred g v =>
    exact ⟨[], [], by rw [List.append_nil]; exact hok,
      by rw [List.append_nil]; exact hroots, rfl, fun k _ => rfl, Nat.le_refl _,
      by rw [List.append_nil]; rfl⟩
  | upd version pos v =>
    by_cases hv : version < st.roots.length
    · have hn0 : ¬ st.n = 0 := by omega
      have hst : Persistent.runOp ops st (POp.upd version pos v)
          = { nodes := (Persistent.updateHelper ops pos v st.n (st.roots.getD version 0) 0
                (st.n - 1) st.nodes).1,
              roots := st.roots ++ [(Persistent.updateHelper ops pos v st.n
                (st.roots.getD version 0) 0 (st.n - 1) st.nodes).2],
              n := st.n } := by
        show (Persistent.update ops st version pos v).getD st = _
        rw [Persistent.update, if_pos hv, if_neg hn0]
        rfl
      obtain ⟨hrb, hrs⟩ := hroots _ (getD_mem_of_lt st.roots version 0 hv)
      obtain ⟨ext, hok2, hmono, hpres, hidx, hseg⟩ :=
        Persistent.updateHelper_segs ops pos v st.n st.n (st.roots.getD version 0) 0
          (st.n - 1) st.nodes segs hok hrb hrs (by omega)
      obtain ⟨hsl, _⟩ := hok
      rw [hst]
      refine ⟨ext, [(Persistent.updateHelper ops pos v st.n (st.roots.getD version 0) 0
        (st.n - 1) st.nodes).2], hok2, ?_, rfl, hpres, hmono, rfl⟩
      intro ro hro
      rcases List.mem_append.1 hro with hro | hro
      · obtain ⟨hrb2, hrs2⟩ := hroots ro hro
        exact ⟨Nat.lt_of_lt_of_le hrb2 hmono,
          by rw [segOf_append_lt _ _ _ (by omega)]; exact hrs2⟩
      · simp only [List.mem_singleton] at hro
        subst hro
        exact ⟨hidx, hseg⟩
    · have hst : Persistent.runOp ops st (POp.upd version pos v) = st := by
        show (Persistent.update ops st version pos v).getD st = st
        rw [Persistent.update, if_neg hv]
        rfl
      rw [hst]
      exact ⟨[], [], by rw [List.append_nil]; exact hok,
        by rw [List.append_nil]; exact hroots, rfl, fun k _ => rfl, Nat.le_refl _,
        by rw [List.append_nil]⟩

/-- A whole sequence of `Persistent` operations only extends the state. -/
theorem Persistent.runOps_extends {N V : Type} [Inhabited N] (ops : NodeOps N V) :
    ∀ (l : List (POp V)) (st : PerState N) (segs : List (Nat × Nat)),
      SegsOkG st.nodes segs st.n → RootsOkP st segs → 1 ≤ st.n →
      ∃ ext rext,
        SegsOkG (Persistent.runOps ops st l).nodes (segs ++ ext)
          (Persistent.runOps ops st l).n ∧
        RootsOkP (Persistent.runOps ops st l) (segs ++ ext) ∧
        (Persistent.runOps ops st l).n = st.n ∧
        (∀ k, k < st.nodes.length →
          (Persistent.runOps ops st l).nodes.getD k default = st.nodes.getD k default) ∧
        st.nodes.length ≤ (Persistent.runOps ops st l).nodes.length ∧
        (Persistent.runOps ops st l).roots = st.roots ++ rext := by
  intro l
  induction l with
  | nil =>
    intro st segs hok hroots hn
    exact ⟨[], [], by rw [List.append_nil]; exact hok,
      by rw [List.append_nil]; exact hroots, rfl, fun k _ => rfl, Nat.le_refl _,
      by rw [List.append_nil]; rfl⟩
  | cons op l ih =>
    intro st segs hok hroots hn
    obtain ⟨ext0, rext0, hok0, hroots0, hneq0, hpres0, hmono0, hre0⟩ :=
      Persistent.runOp_extends ops st segs op hok hroots hn
    obtain ⟨ext1, rext1, hok1, hroots1, hneq1, hpres1, hmono1, hre1⟩ :=
      ih (Persistent.runOp ops st op) (segs ++ ext0) hok0 hroots0 (by omega)
    have hrun : Persistent.runOps ops st (op :: l)
        = Persistent.runOps ops (Persistent.runOp ops st op) l := rfl
    rw [hrun]
    refine ⟨ext0 ++ ext1, rext0 ++ rext1, ?_, ?_, by omega, ?_, by omega, ?_⟩
    · rw [← List.append_assoc]
      exact hok1
    · rw [← List.append_assoc]
      exact hroots1
    · intro k hk
      rw [hpres1 k (by omega), hpres0 k hk]
    · rw [hre1, hre0, List.append_assoc]

/-- Queries on a recorded version read the same nodes before and after any
state extension. -/
theorem Persistent.query_stable {N V : Type} [Inhabited N] (ops : NodeOps N V)
    (st st2 : PerState N) (segs : List (Nat × Nat)) (v l r : Nat)
    (hok : SegsOkG st.nodes segs st.n) (hroots : RootsOkP st segs) (hn : 1 ≤ st.n)
    (hneq : st2.n = st.n)
    (hpres : ∀ k, k < st.nodes.length → st2.nodes.getD k default = st.nodes.getD k default)
    (hre : ∃ rext, st2.roots = st.roots ++ rext)
    (hv : v < st.roots.length) :
    Persistent.query ops st2 v l r = Persistent.query ops st v l r := by
  obtain ⟨rext, hre⟩ := hre
  have hv2 : v < st2.roots.length := by
    rw [hre, List.length_append]
    omega
  have hroot : st2.roots.getD v 0 = st.roots.getD v 0 := by
    rw [hre, getD_append_lt _ _ _ _ hv]
  obtain ⟨hrb, hrs⟩ := hroots _ (getD_mem_of_lt st.roots v 0 hv)
  rw [Persistent.query, Persistent.query, if_pos hv, if_pos hv2,
    if_neg (by omega : ¬ st.n = 0), if_neg (by omega : ¬ st2.n = 0), hroot, hneq]
  rw [Persistent.queryHelper_congr ops hok hpres l r st.n (st.roots.getD v 0) 0
    (st.n - 1) hrb hrs]

/-! ### C1, lazy side: the denotation reads only slots whose segments sit
inside the traversal segment -/

theorem pQuery_congr {nodes nodes2 : List (PWrap SumNode)} {segs : List (Nat × Nat)}
    {n : Nat} (hok : SegsOkG nodes segs n) :
    ∀ (fuel curr i j : Nat) (d : Int) (l r : Nat), curr < nodes.length →
      segOf segs curr = (i, j) →
      (∀ k, k < nodes.length → segSub (segOf segs k) (i, j) →
        nodes2.getD k default = nodes.getD k default) →
      pQuery nodes2 fuel curr i j d l r = pQuery nodes fuel curr i j d l r := by
  obtain ⟨hlen, hall⟩ := hok
  intro fuel
  induction fuel with
  | zero => intros; rfl
  | succ fuel ih =>
    intro curr i j d l r hc hcur hag
    obtain ⟨hb1, hb2, hleafC, hintC⟩ := hall curr hc
    rw [hcur] at hb1 hb2 hleafC hintC
    have hb1' : i ≤ j := hb1
    have hcagree : nodes2.getD curr default = nodes.getD curr default :=
      hag curr hc (by rw [hcur]; exact ⟨Nat.le_refl _, Nat.le_refl _⟩)
    rw [pQuery, pQuery]
    by_cases hdis : j < l ∨ r < i
    · rw [if_pos hdis, if_pos hdis]
    · rw [if_neg hdis, if_neg hdis]
      by_cases hcov : l ≤ i ∧ j ≤ r
      · rw [if_pos hcov, if_pos hcov, valD, valD, pendD, pendD, hcagree]
      · rw [if_neg hcov, if_neg hcov]
        have hij : i ≠ j := by
          intro he
          subst he
          omega
        obtain ⟨pp, qq, hp1, hq1, hp2, hq2, hp3, hq3⟩ := hintC hij
        have hp3' : segOf segs pp = (i, (i + j) / 2) := hp3
        have hq3' : segOf segs qq = ((i + j) / 2 + 1, j) := hq3
        have hchl2 : chL nodes2 curr = chL nodes curr := by rw [chL, chL, hcagree]
        have hchl : chL nodes curr = pp := by rw [chL, hp1]; rfl
        have hchr2 : chR nodes2 curr = chR nodes curr := by rw [chR, chR, hcagree]
        have hchr : chR nodes curr = qq := by rw [chR, hq1]; rfl
        have hpend : pendD nodes2 curr = pendD nodes curr := by rw [pendD, pendD, hcagree]
        have hagl : ∀ k, k < nodes.length → segSub (segOf segs k) (i, (i + j) / 2) →
            nodes2.getD k default = nodes.getD k default := by
          intro k hk hsub
          obtain ⟨hs1, hs2⟩ := hsub
          have hs1' : i ≤ (segOf segs k).1 := hs1
          have hs2' : (segOf segs k).2 ≤ (i + j) / 2 := hs2
          exact hag k hk ⟨hs1', by show (segOf segs k).2 ≤ j; omega⟩
        have hagr : ∀ k, k < nodes.length → segSub (segOf segs k) ((i + j) / 2 + 1, j) →
            nodes2.getD k default = nodes.getD k default := by
          intro k hk hsub
          obtain ⟨hs1, hs2⟩ := hsub
          have hs1' : (i + j) / 2 + 1 ≤ (segOf segs k).1 := hs1
          have hs2' : (segOf segs k).2 ≤ j := hs2
          exact hag k hk ⟨by show i ≤ (segOf segs k).1; omega, hs2'⟩
        rw [hchl2, hchl, hchr2, hchr, hpend,
          ih pp i ((i + j) / 2) (d + pendD nodes curr) l r hp2 hp3' hagl,
          ih qq ((i + j) / 2 + 1) j (d + pendD nodes curr) l r hq2 hq3' hagr]

/-! ### C1, lazy side: the shape of a `push` -/

theorem updateLazyValue_value (nd : SumNode) (P : Int) :
    (sumOps.updateLazyValue nd P).value = nd.value := by
  cases h : nd.lazyValue <;> simp [sumOps, h]

theorem updateLazyValue_pend (nd : SumNode) (P : Int) :
    ((sumOps.updateLazyValue nd P).lazyValue).getD 0 = (nd.lazyValue).getD 0 + P := by
  cases h : nd.lazyValue <;> simp [sumOps, h]

theorem push_spec_internal (nodes : List (PWrap SumNode)) (e i j a b : Nat) (P : Int)
    (hpend : (nodes.getD e default).node.lazyValue = some P)
    (hij : i ≠ j)
    (ha : (nodes.getD e default).left = some a)
    (hb : (nodes.getD e default).right = some b)
    (he : e < nodes.length) :
    (LazyPersistent.push sumOps nodes e i j).length = nodes.length + 2 ∧
    (∀ k, k < nodes.length → k ≠ e →
      (LazyPersistent.push sumOps nodes e i j).getD k default = nodes.getD k default) ∧
    (LazyPersistent.push sumOps nodes e i j).getD e default
      = ⟨⟨(nodes.getD e default).node.value + P * ((j - i + 1 : Nat) : Int), none⟩,
          some nodes.length, some (nodes.length + 1)⟩ ∧
    (LazyPersistent.push sumOps nodes e i j).getD nodes.length default
      = ⟨sumOps.updateLazyValue (nodes.getD a default).node P,
          (nodes.getD a default).left, (nodes.getD a default).right⟩ ∧
    (LazyPersistent.push sumOps nodes e i j).getD (nodes.length + 1) default
      = ⟨sumOps.updateLazyValue (nodes.getD b default).node P,
          (nodes.getD b default).left, (nodes.getD b default).right⟩ := by
  have hchl : ((nodes.getD e default).left).getD 0 = a := by rw [ha]; rfl
  have hchr : ((nodes.getD e default).right).getD 0 = b := by rw [hb]; rfl
  have hg1 : (nodes ++ [nodes.getD a default, nodes.getD b default]).getD nodes.length default
      = nodes.getD a default := by
    rw [getD_append_ge _ _ _ _ (Nat.le_refl _), Nat.sub_self, List.getD_cons_zero]
  have hg2 : (nodes ++ [nodes.getD a default, nodes.getD b default]).getD
      (nodes.length + 1) default = nodes.getD b default := by
    rw [getD_append_ge _ _ _ _ (by omega),
      show nodes.length + 1 - nodes.length = 1 from by omega]
    rfl
  have hpush : LazyPersistent.push sumOps nodes e i j
      = ((((nodes ++ [nodes.getD a default, nodes.getD b default]).set nodes.length
            (PWrap.updateLazyValue sumOps (nodes.getD a default) P)).set (nodes.length + 1)
            (PWrap.updateLazyValue sumOps (nodes.getD b default) P)).set e
          ((nodes.getD e default).setChildren nodes.length (nodes.length + 1))).set e
          (PWrap.lazyUpdate sumOps
            ((nodes.getD e default).setChildren nodes.length (nodes.length + 1)) i j) := by
    rw [LazyPersistent.push]
    simp only []
    rw [show PWrap.lazyValue sumOps (nodes.getD e default) = some P from hpend]
    simp only []
    rw [if_pos hij, hchl, hchr, hg1, hg2]
    have hb2 : ((((nodes ++ [nodes.getD a default, nodes.getD b default]).set nodes.length
          (PWrap.updateLazyValue sumOps (nodes.getD a default) P)).set (nodes.length + 1)
          (PWrap.updateLazyValue sumOps (nodes.getD b default) P)).getD e default)
        = nodes.getD e default := by
      rw [getD_set_ne2 _ _ _ _ _ (by omega), getD_set_ne2 _ _ _ _ _ (by omega),
        getD_append_lt _ _ _ _ he]
    rw [hb2]
    have hb3 : (((((nodes ++ [nodes.getD a default, nodes.getD b default]).set nodes.length
          (PWrap.updateLazyValue sumOps (nodes.getD a default) P)).set (nodes.length + 1)
          (PWrap.updateLazyValue sumOps (nodes.getD b default) P)).set e
          ((nodes.getD e default).setChildren nodes.length (nodes.length + 1))).getD e
          default)
        = (nodes.getD e default).setChildren nodes.length (nodes.length + 1) := by
      rw [getD_set_self2 _ _ _ _ (by
        simp only [List.length_set, List.length_append, List.length_cons,
          List.length_singleton]
        omega)]
    rw [hb3]
  rw [hpush]
  have hlen4 : ∀ x y z w,
      (((((nodes ++ [nodes.getD a default, nodes.getD b default]).set nodes.length x).set
        (nodes.length + 1) y).set e z).set e w).length = nodes.length + 2 := by
    intro x y z w
    simp only [List.length_set, List.length_append, List.length_cons, List.length_nil]
  refine ⟨hlen4 _ _ _ _, ?_, ?_, ?_, ?_⟩
  · intro k hk hke
    rw [getD_set_ne2 _ _ _ _ _ (fun hx => hke hx.symm),
      getD_set_ne2 _ _ _ _ _ (fun hx => hke hx.symm),
      getD_set_ne2 _ _ _ _ _ (by omega), getD_set_ne2 _ _ _ _ _ (by omega),
      getD_append_lt _ _ _ _ hk]
  · rw [getD_set_self2 _ _ _ _ (by
      simp only [List.length_set, List.length_append, List.length_cons,
        List.length_singleton]
      omega)]
    show PWrap.lazyUpdate sumOps
      ((nodes.getD e default).setChildren nodes.length (nodes.length + 1)) i j = _
    rw [PWrap.lazyUpdate, PWrap.setChildren]
    rw [show sumOps.lazyUpdate (nodes.getD e default).node i j
        = ⟨(nodes.getD e default).node.value + P * ((j - i + 1 : Nat) : Int), none⟩ from by
      show (match (nodes.getD e default).node.lazyValue with
        | some v => ({ value := (nodes.getD e default).node.value
            + v * ((j - i + 1 : Nat) : Int), lazyValue := none } : SumNode)
        | none => (nodes.getD e default).node) = _
      rw [hpend]]
  · rw [getD_set_ne2 _ _ _ _ _ (by omega), getD_set_ne2 _ _ _ _ _ (by omega),
      getD_set_ne2 _ _ _ _ _ (by omega), getD_set_self2 _ _ _ _ (by
        simp only [List.length_append, List.length_cons, List.length_singleton]
        omega)]
    rfl
  · rw [getD_set_ne2 _ _ _ _ _ (by omega), getD_set_ne2 _ _ _ _ _ (by omega),
      getD_set_self2 _ _ _ _ (by
        simp only [List.length_set, List.length_append, List.length_cons,
          List.length_singleton]
        omega)]
    rfl

theorem push_spec_leaf (nodes : List (PWrap SumNode)) (e i j : Nat) (P : Int)
    (hpend : (nodes.getD e default).node.lazyValue = some P)
    (hij : i = j)
    (he : e < nodes.length) :
    (LazyPersistent.push sumOps nodes e i j).length = nodes.length ∧
    (∀ k, k < nodes.length → k ≠ e →
      (LazyPersistent.push sumOps nodes e i j).getD k default = nodes.getD k default) ∧
    (LazyPersistent.push sumOps nodes e i j).getD e default
      = ⟨⟨(nodes.getD e default).node.value + P * ((j - i + 1 : Nat) : Int), none⟩,
          (nodes.getD e default).left, (nodes.getD e default).right⟩ := by
  have hpush : LazyPersistent.push sumOps nodes e i j
      = nodes.set e (PWrap.lazyUpdate sumOps (nodes.getD e default) i j) := by
    rw [LazyPersistent.push]
    simp only []
    rw [show PWrap.lazyValue sumOps (nodes.getD e default) = some P from hpend]
    simp only []
    rw [if_neg (by simp [hij])]
  rw [hpush]
  refine ⟨by simp only [List.length_set], ?_, ?_⟩
  · intro k hk hke
    rw [getD_set_ne2 _ _ _ _ _ (fun hx => hke hx.symm)]
  · rw [getD_set_self2 _ _ _ _ he]
    show PWrap.lazyUpdate sumOps (nodes.getD e default) i j = _
    rw [PWrap.lazyUpdate]
    rw [show sumOps.lazyUpdate (nodes.getD e default).node i j
        = ⟨(nodes.getD e default).node.value + P * ((j - i + 1 : Nat) : Int), none⟩ from by
      show (match (nodes.getD e default).node.lazyValue with
        | some v => ({ value := (nodes.getD e default).node.value
            + v * ((j - i + 1 : Nat) : Int), lazyValue := none } : SumNode)
        | none => (nodes.getD e default).node) = _
      rw [hpend]]

theorem SegOkAt_bounds {N : Type} [Inhabited N] {nodes : List (PWrap N)}
    {segs : List (Nat × Nat)} {n k i j : Nat}
    (hok : SegsOkG nodes segs n) (hk : k < nodes.length) (hks : segOf segs k = (i, j)) :
    i ≤ j ∧ j < n := by
  obtain ⟨_, hall⟩ := hok
  obtain ⟨h1, h2, _, _⟩ := hall k hk
  rw [hks] at h1 h2
  exact ⟨h1, h2⟩

theorem SegOkAt_leaf {N : Type} [Inhabited N] {nodes : List (PWrap N)}
    {segs : List (Nat × Nat)} {n k i j : Nat}
    (hok : SegsOkG nodes segs n) (hk : k < nodes.length) (hks : segOf segs k = (i, j))
    (hij : i = j) :
    (nodes.getD k default).left = none ∧ (nodes.getD k default).right = none := by
  obtain ⟨_, hall⟩ := hok
  obtain ⟨_, _, h3, _⟩ := hall k hk
  rw [hks] at h3
  exact h3 hij

theorem SegOkAt_int {N : Type} [Inhabited N] {nodes : List (PWrap N)}
    {segs : List (Nat × Nat)} {n k i j : Nat}
    (hok : SegsOkG nodes segs n) (hk : k < nodes.length) (hks : segOf segs k = (i, j))
    (hij : i ≠ j) :
    ∃ p q, (nodes.getD k default).left = some p ∧ (nodes.getD k default).right = some q ∧
      p < nodes.length ∧ q < nodes.length ∧ segOf segs p = (i, (i + j) / 2) ∧
      segOf segs q = ((i + j) / 2 + 1, j) := by
  obtain ⟨_, hall⟩ := hok
  obtain ⟨_, _, _, h4⟩ := hall k hk
  rw [hks] at h4
  exact h4 hij

/-- A push keeps the arena canonically segmented: fresh child copies take
over the two halves of the pushed node's segment. -/
theorem push_segs {nodes : List (PWrap SumNode)} {segs : List (Nat × Nat)} {n : Nat}
    (hok : SegsOkG nodes segs n) (e i j : Nat) (P : Int)
    (he : e < nodes.length) (hseg : segOf segs e = (i, j))
    (hpend : (nodes.getD e default).node.lazyValue = some P) :
    ∃ ext, SegsOkG (LazyPersistent.push sumOps nodes e i j) (segs ++ ext) n ∧
      nodes.length ≤ (LazyPersistent.push sumOps nodes e i j).length ∧
      (i ≠ j → segOf (segs ++ ext) nodes.length = (i, (i + j) / 2) ∧
        segOf (segs ++ ext) (nodes.length + 1) = ((i + j) / 2 + 1, j)) ∧
      (∀ k, k < nodes.length → k ≠ e →
        (LazyPersistent.push sumOps nodes e i j).getD k default
          = nodes.getD k default) := by
  obtain ⟨hb1, hb2⟩ := SegOkAt_bounds hok he hseg
  obtain ⟨hlen, hall⟩ := hok
  by_cases hij : i = j
  · obtain ⟨hplen, hpun, hpe⟩ := push_spec_leaf nodes e i j P hpend hij he
    refine ⟨[], ?_, by omega, fun hx => absurd hij hx, hpun⟩
    rw [List.append_nil]
    refine ⟨by omega, ?_⟩
    intro k hk
    rw [hplen] at hk
    by_cases hke : k = e
    · subst hke
      obtain ⟨h1, h2, h3, h4⟩ := hall k hk
      refine ⟨h1, h2, ?_, ?_⟩
      · intro hc
        rw [hpe]
        exact h3 hc
      · intro hc
        obtain ⟨p, q, hp1, hq1, hp2, hq2, hp3, hq3⟩ := h4 hc
        exact ⟨p, q, by rw [hpe]; exact hp1, by rw [hpe]; exact hq1, by omega, by omega,
          hp3, hq3⟩
    · exact SegOkAt_mono hk (by omega) hlen (hpun k hk hke) (fun m hm => rfl)
        (hall k hk)
  · obtain ⟨a, b, ha, hb, hal, hbl, has, hbs⟩ := SegOkAt_int ⟨hlen, hall⟩ he hseg hij
    obtain ⟨hplen, hpun, hpe, hpf1, hpf2⟩ :=
      push_spec_internal nodes e i j a b P hpend hij ha hb he
    have hsf1 : segOf (segs ++ [(i, (i + j) / 2), ((i + j) / 2 + 1, j)]) nodes.length
        = (i, (i + j) / 2) := by
      rw [segOf, getD_append_ge _ _ _ _ (by omega), hlen, Nat.sub_self]
      rfl
    have hsf2 : segOf (segs ++ [(i, (i + j) / 2), ((i + j) / 2 + 1, j)])
        (nodes.length + 1) = ((i + j) / 2 + 1, j) := by
      rw [segOf, getD_append_ge _ _ _ _ (by omega), hlen,
        show nodes.length + 1 - nodes.length = 1 from by omega]
      rfl
    refine ⟨[(i, (i + j) / 2), ((i + j) / 2 + 1, j)], ⟨?_, ?_⟩, by omega,
      fun _ => ⟨hsf1, hsf2⟩, hpun⟩
    · rw [List.length_append, hplen, hlen]
      rfl
    · intro k hk
      rw [hplen] at hk
      by_cases hke : k = e
      · subst hke
        have hsk : segOf (segs ++ [(i, (i + j) / 2), ((i + j) / 2 + 1, j)]) k = (i, j) := by
          rw [segOf_append_lt _ _ _ (by omega)]
          exact hseg
        refine ⟨by rw [hsk]; exact hb1, by rw [hsk]; exact hb2, ?_, ?_⟩
        · intro hc
          rw [hsk] at hc
          exact absurd hc hij
        · intro _
          refine ⟨nodes.length, nodes.length + 1, by rw [hpe], by rw [hpe],
            by omega, by omega, ?_, ?_⟩
          · rw [hsf1, hsk]
          · rw [hsf2, hsk]
      · rcases Nat.lt_or_ge k nodes.length with hk2 | hk2
        · exact SegOkAt_mono hk2 (by omega) hlen (hpun k hk2 hke)
            (fun m hm => segOf_append_lt _ _ m hm) (hall k hk2)
        · -- a fresh copy: its entry mirrors the copied child's entry
          rcases Nat.lt_or_ge k (nodes.length + 1) with hk3 | hk3
          · have hkeq : k = nodes.length := by omega
            subst hkeq
            obtain ⟨g1, g2, g3, g4⟩ := hall a hal
            rw [has] at g1 g2 g3 g4
            refine ⟨by rw [hsf1]; exact g1, by rw [hsf1]; exact g2, ?_, ?_⟩
            · intro hc
              rw [hsf1] at hc
              rw [hpf1]
              exact g3 hc
            · intro hc
              rw [hsf1] at hc
              obtain ⟨p, q, hp1, hq1, hp2, hq2, hp3, hq3⟩ := g4 hc
              refine ⟨p, q, by rw [hpf1]; exact hp1, by rw [hpf1]; exact hq1,
                by omega, by omega, ?_, ?_⟩
              · rw [hsf1, segOf_append_lt _ _ _ (by omega)]
                exact hp3
              · rw [hsf1, segOf_append_lt _ _ _ (by omega)]
                exact hq3
          · have hkeq : k = nodes.length + 1 := by omega
            subst hkeq
            obtain ⟨g1, g2, g3, g4⟩ := hall b hbl
            rw [hbs] at g1 g2 g3 g4
            refine ⟨by rw [hsf2]; exact g1, by rw [hsf2]; exact g2, ?_, ?_⟩
            · intro hc
              rw [hsf2] at hc
              rw [hpf2]
              exact g3 hc
            · intro hc
              rw [hsf2] at hc
              obtain ⟨p, q, hp1, hq1, hp2, hq2, hp3, hq3⟩ := g4 hc
              refine ⟨p, q, by rw [hpf2]; exact hp1, by rw [hpf2]; exact hq1,
                by omega, by omega, ?_, ?_⟩
              · rw [hsf2, segOf_append_lt _ _ _ (by omega)]
                exact hp3
              · rw [hsf2, segOf_append_lt _ _ _ (by omega)]
                exact hq3

/-- A slot whose entry mirrors a canonical slot `c` except for `+P` of extra
pending value denotes the same query results as `c` does under an
accumulator increased by `P`. -/
theorem pQuery_shift {nodes nodes2 : List (PWrap SumNode)} {segs : List (Nat × Nat)}
    {n : Nat} (hok : SegsOkG nodes segs n) (c f i0 j0 : Nat) (P : Int)
    (hc : c < nodes.length) (hcs : segOf segs c = (i0, j0))
    (hval : valD nodes2 f = valD nodes c)
    (hpnd : pendD nodes2 f = pendD nodes c + P)
    (hcl : chL nodes2 f = chL nodes c) (hcr : chR nodes2 f = chR nodes c)
    (hag : ∀ k, k < nodes.length → segSub (segOf segs k) (i0, j0) →
      nodes2.getD k default = nodes.getD k default) :
    ∀ (fuel : Nat) (d : Int) (l r : Nat),
      pQuery nodes2 fuel f i0 j0 d l r = pQuery nodes fuel c i0 j0 (d + P) l r := by
  intro fuel d l r
  cases fuel with
  | zero => rfl
  | succ fuel =>
    rw [pQuery, pQuery]
    by_cases hdis : j0 < l ∨ r < i0
    · rw [if_pos hdis, if_pos hdis]
    · rw [if_neg hdis, if_neg hdis]
      by_cases hcov : l ≤ i0 ∧ j0 ≤ r
      · rw [if_pos hcov, if_pos hcov, hval, hpnd]
        rw [show valD nodes c + (pendD nodes c + P + d) * ((j0 - i0 + 1 : Nat) : Int)
            = valD nodes c + (pendD nodes c + (d + P)) * ((j0 - i0 + 1 : Nat) : Int) from by
          ring]
      · rw [if_neg hcov, if_neg hcov]
        have hij : i0 ≠ j0 := by
          intro hx
          subst hx
          omega
        obtain ⟨g1, g2, hg1, hg2, hgl1, hgl2, hgs1, hgs2⟩ := SegOkAt_int hok hc hcs hij
        obtain ⟨hb1, hb2⟩ := SegOkAt_bounds hok hc hcs
        have hchl : chL nodes c = g1 := by rw [chL, hg1]; rfl
        have hchr : chR nodes c = g2 := by rw [chR, hg2]; rfl
        have hagl : ∀ k, k < nodes.length →
            segSub (segOf segs k) (i0, (i0 + j0) / 2) →
            nodes2.getD k default = nodes.getD k default := by
          intro k hk hsub
          obtain ⟨hs1, hs2⟩ := hsub
          have hs1' : i0 ≤ (segOf segs k).1 := hs1
          have hs2' : (segOf segs k).2 ≤ (i0 + j0) / 2 := hs2
          exact hag k hk ⟨hs1', by show (segOf segs k).2 ≤ j0; omega⟩
        have hagr : ∀ k, k < nodes.length →
            segSub (segOf segs k) ((i0 + j0) / 2 + 1, j0) →
            nodes2.getD k default = nodes.getD k default := by
          intro k hk hsub
          obtain ⟨hs1, hs2⟩ := hsub
          have hs1' : (i0 + j0) / 2 + 1 ≤ (segOf segs k).1 := hs1
          have hs2' : (segOf segs k).2 ≤ j0 := hs2
          exact hag k hk ⟨by show i0 ≤ (segOf segs k).1; omega, hs2'⟩
        rw [hcl, hcr, hchl, hchr, hpnd,
          pQuery_congr hok fuel g1 i0 ((i0 + j0) / 2) (d + (pendD nodes c + P)) l r
            hgl1 hgs1 hagl,
          pQuery_congr hok fuel g2 ((i0 + j0) / 2 + 1) j0 (d + (pendD nodes c + P)) l r
            hgl2 hgs2 hagr,
          show d + (pendD nodes c + P) = d + P + pendD nodes c from by ring]

/-- Pushing a canonically placed node preserves the denotation of every
previously existing slot. -/
theorem push_pQuery {nodes : List (PWrap SumNode)} {segs : List (Nat × Nat)} {n : Nat}
    (hok : SegsOkG nodes segs n) (e i j : Nat) (P : Int)
    (he : e < nodes.length) (hseg : segOf segs e = (i, j))
    (hpend : (nodes.getD e default).node.lazyValue = some P) :
    ∀ (fuel c i0 j0 : Nat) (d : Int) (l r : Nat), c < nodes.length →
      segOf segs c = (i0, j0) →
      pQuery (LazyPersistent.push sumOps nodes e i j) fuel c i0 j0 d l r
        = pQuery nodes fuel c i0 j0 d l r := by
  have hpendD : pendD nodes e = P := by rw [pendD, hpend]; rfl
  intro fuel
  induction fuel with
  | zero => intros; rfl
  | succ fuel ih =>
    intro c i0 j0 d l r hc hcs
    by_cases hce : c = e
    · subst hce
      have hc2 : (i0, j0) = (i, j) := by rw [← hcs, ← hseg]
      have hi0 : i0 = i := congrArg Prod.fst hc2
      have hj0 : j0 = j := congrArg Prod.snd hc2
      rw [hi0, hj0]
      by_cases hij : i = j
      · obtain ⟨hplen, hpun, hpe⟩ := push_spec_leaf nodes c i j P hpend hij hc
        rw [pQuery, pQuery]
        by_cases hdis : j < l ∨ r < i
        · rw [if_pos hdis, if_pos hdis]
        · rw [if_neg hdis, if_neg hdis]
          by_cases hcov : l ≤ i ∧ j ≤ r
          · rw [if_pos hcov, if_pos hcov]
            rw [valD, hpe, pendD, hpe, valD, hpendD]
            show some ((nodes.getD c default).node.value + P * ((j - i + 1 : Nat) : Int)
              + ((none : Option Int).getD 0 + d) * ((j - i + 1 : Nat) : Int)) = _
            rw [show ((none : Option Int).getD 0) = 0 from rfl,
              show (nodes.getD c default).node.value + P * ((j - i + 1 : Nat) : Int)
                  + (0 + d) * ((j - i + 1 : Nat) : Int)
                = (nodes.getD c default).node.value
                  + (P + d) * ((j - i + 1 : Nat) : Int) from by ring]
          · exact absurd (by omega : i ≠ j) (by simp [hij])
      · obtain ⟨a, b, ha, hb, hal, hbl, has, hbs⟩ := SegOkAt_int hok hc hseg hij
        obtain ⟨hplen, hpun, hpe, hpf1, hpf2⟩ :=
          push_spec_internal nodes c i j a b P hpend hij ha hb hc
        rw [pQuery, pQuery]
        by_cases hdis : j < l ∨ r < i
        · rw [if_pos hdis, if_pos hdis]
        · rw [if_neg hdis, if_neg hdis]
          by_cases hcov : l ≤ i ∧ j ≤ r
          · rw [if_pos hcov, if_pos hcov]
            rw [valD, hpe, pendD, hpe, valD, hpendD]
            show some ((nodes.getD c default).node.value + P * ((j - i + 1 : Nat) : Int)
              + ((none : Option Int).getD 0 + d) * ((j - i + 1 : Nat) : Int)) = _
            rw [show ((none : Option Int).getD 0) = 0 from rfl,
              show (nodes.getD c default).node.value + P * ((j - i + 1 : Nat) : Int)
                  + (0 + d) * ((j - i + 1 : Nat) : Int)
                = (nodes.getD c default).node.value
                  + (P + d) * ((j - i + 1 : Nat) : Int) from by ring]
          · rw [if_neg hcov, if_neg hcov]
            have hchl2 : chL (LazyPersistent.push sumOps nodes c i j) c = nodes.length := by
              rw [chL, hpe]
              rfl
            have hchr2 : chR (LazyPersistent.push sumOps nodes c i j) c
                = nodes.length + 1 := by
              rw [chR, hpe]
              rfl
            have hpnd2 : pendD (LazyPersistent.push sumOps nodes c i j) c = 0 := by
              rw [pendD, hpe]
              rfl
            have hchl : chL nodes c = a := by rw [chL, ha]; rfl
            have hchr : chR nodes c = b := by rw [chR, hb]; rfl
            have hagp : ∀ k, k < nodes.length →
                segSub (segOf segs k) (i, (i + j) / 2) →
                (LazyPersistent.push sumOps nodes c i j).getD k default
                  = nodes.getD k default := by
              intro k hk hsub
              obtain ⟨hs1, hs2⟩ := hsub
              have hs2' : (segOf segs k).2 ≤ (i + j) / 2 := hs2
              refine hpun k hk ?_
              intro hkc
              subst hkc
              rw [hseg] at hs2'
              have : j ≤ (i + j) / 2 := hs2'
              omega
            have hagq : ∀ k, k < nodes.length →
                segSub (segOf segs k) ((i + j) / 2 + 1, j) →
                (LazyPersistent.push sumOps nodes c i j).getD k default
                  = nodes.getD k default := by
              intro k hk hsub
              obtain ⟨hs1, hs2⟩ := hsub
              have hs1' : (i + j) / 2 + 1 ≤ (segOf segs k).1 := hs1
              refine hpun k hk ?_
              intro hkc
              subst hkc
              rw [hseg] at hs1'
              have : (i + j) / 2 + 1 ≤ i := hs1'
              omega
            have hf1val : valD (LazyPersistent.push sumOps nodes c i j) nodes.length
                = valD nodes a := by
              rw [valD, hpf1, valD]
              exact updateLazyValue_value _ _
            have hf1pnd : pendD (LazyPersistent.push sumOps nodes c i j) nodes.length
                = pendD nodes a + P := by
              rw [pendD, hpf1, pendD]
              exact updateLazyValue_pend _ _
            have hf1cl : chL (LazyPersistent.push sumOps nodes c i j) nodes.length
                = chL nodes a := by rw [chL, hpf1, chL]
            have hf1cr : chR (LazyPersistent.push sumOps nodes c i j) nodes.length
                = chR nodes a := by rw [chR, hpf1, chR]
            have hf2val : valD (LazyPersistent.push sumOps nodes c i j) (nodes.length + 1)
                = valD nodes b := by
              rw [valD, hpf2, valD]
              exact updateLazyValue_value _ _
            have hf2pnd : pendD (LazyPersistent.push sumOps nodes c i j) (nodes.length + 1)
                = pendD nodes b + P := by
              rw [pendD, hpf2, pendD]
              exact updateLazyValue_pend _ _
            have hf2cl : chL (LazyPersistent.push sumOps nodes c i j) (nodes.length + 1)
                = chL nodes b := by rw [chL, hpf2, chL]
            have hf2cr : chR (LazyPersistent.push sumOps nodes c i j) (nodes.length + 1)
                = chR nodes b := by rw [chR, hpf2, chR]
            rw [hchl2, hchr2, hpnd2, hchl, hchr,
              pQuery_shift hok a nodes.length i ((i + j) / 2) P hal has hf1val hf1pnd
                hf1cl hf1cr hagp fuel (d + 0) l r,
              pQuery_shift hok b (nodes.length + 1) ((i + j) / 2 + 1) j P hbl hbs hf2val
                hf2pnd hf2cl hf2cr hagq fuel (d + 0) l r,
              show d + 0 + P = d + P from by ring, hpendD]
    · -- an untouched slot: its entry is unchanged, recurse into children
      rw [pQuery, pQuery]
      by_cases hdis : j0 < l ∨ r < i0
      · rw [if_pos hdis, if_pos hdis]
      · rw [if_neg hdis, if_neg hdis]
        have hunch : (LazyPersistent.push sumOps nodes e i j).getD c default
            = nodes.getD c default := by
          by_cases hij : i = j
          · exact (push_spec_leaf nodes e i j P hpend hij he).2.1 c hc hce
          · obtain ⟨a, b, ha, hb, _, _, _, _⟩ := SegOkAt_int hok he hseg hij
            exact (push_spec_internal nodes e i j a b P hpend hij ha hb he).2.1 c hc hce
        by_cases hcov : l ≤ i0 ∧ j0 ≤ r
        · rw [if_pos hcov, if_pos hcov, valD, valD, pendD, pendD, hunch]
        · rw [if_neg hcov, if_neg hcov]
          have hij0 : i0 ≠ j0 := by
            intro hx
            subst hx
            omega
          obtain ⟨g1, g2, hg1, hg2, hgl1, hgl2, hgs1, hgs2⟩ := SegOkAt_int hok hc hcs hij0
          have hchl2 : chL (LazyPersistent.push sumOps nodes e i j) c = chL nodes c := by
            rw [chL, chL, hunch]
          have hchr2 : chR (LazyPersistent.push sumOps nodes e i j) c = chR nodes c := by
            rw [chR, chR, hunch]
          have hpnd2 : pendD (LazyPersistent.push sumOps nodes e i j) c
              = pendD nodes c := by rw [pendD, pendD, hunch]
          have hchl : chL nodes c = g1 := by rw [chL, hg1]; rfl
          have hchr : chR nodes c = g2 := by rw [chR, hg2]; rfl
          rw [hchl2, hchr2, hpnd2, hchl, hchr,
            ih g1 i0 ((i0 + j0) / 2) (d + pendD nodes c) l r hgl1 hgs1,
            ih g2 ((i0 + j0) / 2 + 1) j0 (d + pendD nodes c) l r hgl2 hgs2]

theorem merge_match_map (w1o w2o : Option (PWrap SumNode)) (z1 z2 : Option Int)
    (h1 : w1o.map PWrap.node = z1.map (fun z => SumNode.mk z none))
    (h2 : w2o.map PWrap.node = z2.map (fun z => SumNode.mk z none)) :
    (mergeW sumOps.toNodeOps w1o w2o).map PWrap.node
      = (mergeI z1 z2).map (fun z => SumNode.mk z none) := by
  rcases w1o with _ | w1 <;> rcases z1 with _ | zv1 <;>
    rcases w2o with _ | w2 <;> rcases z2 with _ | zv2 <;>
    simp only [Option.map_some', Option.map_none', Option.some.injEq, mergeI, mergeW]
      at h1 h2 ⊢ <;>
    first
    | rfl
    | exact h1
    | exact h2
    | simp at h1
    | simp at h2
    | (rw [show (PWrap.combine sumOps.toNodeOps w1 w2).node
            = SumNode.mk (w1.node.value + w2.node.value) none from rfl, h1, h2])

/-- `LazyPersistent::query_helper` computes exactly the pure denotation
`pQuery` with accumulator `0`, while only pushing canonically placed nodes:
the arena it returns still satisfies the segment invariant and denotes the
same results at every pre-existing slot. -/
theorem LazyPersistent.queryHelper_spec (n : Nat) :
    ∀ (fuel : Nat) (nodes : List (PWrap SumNode)) (segs : List (Nat × Nat))
      (curr i j l r : Nat),
      SegsOkG nodes segs n → curr < nodes.length → segOf segs curr = (i, j) →
      j - i < fuel →
      ((LazyPersistent.queryHelper sumOps l r fuel curr i j nodes).2).map PWrap.node
        = (pQuery nodes fuel curr i j 0 l r).map (fun z => SumNode.mk z none) ∧
      (∃ ext, SegsOkG ((LazyPersistent.queryHelper sumOps l r fuel curr i j nodes).1)
        (segs ++ ext) n) ∧
      nodes.length ≤ ((LazyPersistent.queryHelper sumOps l r fuel curr i j nodes).1).length ∧
      (∀ (fuel2 c2 i2 j2 : Nat) (d : Int) (l2 r2 : Nat), c2 < nodes.length →
        segOf segs c2 = (i2, j2) →
        pQuery ((LazyPersistent.queryHelper sumOps l r fuel curr i j nodes).1) fuel2 c2
          i2 j2 d l2 r2 = pQuery nodes fuel2 c2 i2 j2 d l2 r2) := by
  intro fuel
  induction fuel with
  | zero => intro nodes segs curr i j l r hok hc hcs hf; omega
  | succ fuel ih =>
    intro nodes segs curr i j l r hok hc hcs hf
    obtain ⟨hb1, hb2⟩ := SegOkAt_bounds hok hc hcs
    have hlen := hok.1
    by_cases hdis : j < l ∨ r < i
    · have hres : LazyPersistent.queryHelper sumOps l r (fuel + 1) curr i j nodes
          = (nodes, none) := by
        rw [LazyPersistent.queryHelper, if_pos hdis]
      rw [hres]
      refine ⟨?_, ⟨[], by rw [List.append_nil]; exact hok⟩, Nat.le_refl _,
        fun fuel2 c2 i2 j2 d l2 r2 _ _ => rfl⟩
      rw [pQuery, if_pos hdis]
      rfl
    · rcases hlv : (nodes.getD curr default).node.lazyValue with _ | P
      · -- no pending value: the node is not pushed
        have hn1 : (if (PWrap.lazyValue sumOps (nodes.getD curr default)).isSome
            then LazyPersistent.push sumOps nodes curr i j else nodes) = nodes := by
          rw [show PWrap.lazyValue sumOps (nodes.getD curr default) = none from hlv]
          rfl
        have hpd : pendD nodes curr = 0 := by rw [pendD, hlv]; rfl
        by_cases hcov : l ≤ i ∧ j ≤ r
        · have hres : LazyPersistent.queryHelper sumOps l r (fuel + 1) curr i j nodes
              = (nodes, some (nodes.getD curr default)) := by
            rw [LazyPersistent.queryHelper, if_neg hdis]
            simp only []
            rw [hn1, if_pos hcov]
          rw [hres]
          refine ⟨?_, ⟨[], by rw [List.append_nil]; exact hok⟩, Nat.le_refl _,
            fun fuel2 c2 i2 j2 d l2 r2 _ _ => rfl⟩
          rw [pQuery, if_neg hdis, if_pos hcov, hpd]
          simp only [Option.map_some']
          refine congrArg some ?_
          have hval : valD nodes curr = (nodes.getD curr default).node.value := rfl
          rw [hval]
          have hsplit : ∀ nd : SumNode, nd.lazyValue = none →
              nd = SumNode.mk (nd.value + (0 + 0) * ((j - i + 1 : Nat) : Int)) none := by
            intro nd h
            rcases nd with ⟨val, lz⟩
            have hlz : lz = none := h
            subst hlz
            rw [show val + ((0 : Int) + 0) * ((j - i + 1 : Nat) : Int) = val from by ring]
          exact hsplit _ hlv
        · -- partial overlap, no pending: recurse into the stored children
          have hij : i ≠ j := by
            intro hx
            subst hx
            omega
          obtain ⟨a, b, ha, hb, hal, hbl, has, hbs⟩ := SegOkAt_int hok hc hcs hij
          have hchl : ((nodes.getD curr default).left).getD 0 = a := by rw [ha]; rfl
          have hchr : ((nodes.getD curr default).right).getD 0 = b := by rw [hb]; rfl
          have hres : LazyPersistent.queryHelper sumOps l r (fuel + 1) curr i j nodes
              = ((LazyPersistent.queryHelper sumOps l r fuel b ((i + j) / 2 + 1) j
                    (LazyPersistent.queryHelper sumOps l r fuel a i ((i + j) / 2) nodes).1).1,
                 mergeW sumOps.toNodeOps
                   (LazyPersistent.queryHelper sumOps l r fuel a i ((i + j) / 2) nodes).2
                   (LazyPersistent.queryHelper sumOps l r fuel b ((i + j) / 2 + 1) j
                     (LazyPersistent.queryHelper sumOps l r fuel a i ((i + j) / 2)
                       nodes).1).2) := by
            rw [LazyPersistent.queryHelper, if_neg hdis]
            simp only []
            rw [hn1, if_neg hcov, hchl, hchr]
          have hres1 : (LazyPersistent.queryHelper sumOps l r (fuel + 1) curr i j nodes).1
              = (LazyPersistent.queryHelper sumOps l r fuel b ((i + j) / 2 + 1) j
                  (LazyPersistent.queryHelper sumOps l r fuel a i ((i + j) / 2)
                    nodes).1).1 := by
            rw [hres]
          have hres2 : (LazyPersistent.queryHelper sumOps l r (fuel + 1) curr i j nodes).2
              = mergeW sumOps.toNodeOps
                  (LazyPersistent.queryHelper sumOps l r fuel a i ((i + j) / 2) nodes).2
                  (LazyPersistent.queryHelper sumOps l r fuel b ((i + j) / 2 + 1) j
                    (LazyPersistent.queryHelper sumOps l r fuel a i ((i + j) / 2)
                      nodes).1).2 := by
            rw [hres]
          obtain ⟨ha1, ⟨ext1, hok1⟩, hm1, hd1⟩ :=
            ih nodes segs a i ((i + j) / 2) l r hok hal has (by omega)
          obtain ⟨ha2, ⟨ext2, hok2⟩, hm2, hd2⟩ :=
            ih (LazyPersistent.queryHelper sumOps l r fuel a i ((i + j) / 2) nodes).1
              (segs ++ ext1) b ((i + j) / 2 + 1) j l r hok1 (by omega)
              (by rw [segOf_append_lt _ _ _ (by omega)]; exact hbs) (by omega)
          refine ⟨?_, ?_, ?_, ?_⟩
          · rw [hres2, pQuery, if_neg hdis, if_neg hcov, hpd,
              show chL nodes curr = a from by rw [chL, ha]; rfl,
              show chR nodes curr = b from by rw [chR, hb]; rfl,
              show (0 : Int) + 0 = 0 from by ring]
            refine merge_match_map _ _ _ _ ha1 ?_
            rw [ha2, hd1 fuel b ((i + j) / 2 + 1) j 0 l r hbl hbs]
          · exact ⟨ext1 ++ ext2, by
              rw [hres1, ← List.append_assoc]
              exact hok2⟩
          · rw [hres1]
            omega
          · intro fuel2 c2 i2 j2 d l2 r2 hc2 hcs2
            rw [hres1,
              hd2 fuel2 c2 i2 j2 d l2 r2 (by omega)
                (by rw [segOf_append_lt _ _ _ (by omega)]; exact hcs2),
              hd1 fuel2 c2 i2 j2 d l2 r2 hc2 hcs2]
      · -- pending value: the node is pushed first
        have hn1 : (if (PWrap.lazyValue sumOps (nodes.getD curr default)).isSome
            then LazyPersistent.push sumOps nodes curr i j
            else nodes) = LazyPersistent.push sumOps nodes curr i j := by
          rw [show PWrap.lazyValue sumOps (nodes.getD curr default) = some P from hlv]
          rfl
        have hpd : pendD nodes curr = P := by rw [pendD, hlv]; rfl
        obtain ⟨pext, hokP, hmP, hPfresh, _⟩ := push_segs hok curr i j P hc hcs hlv
        have hdP := push_pQuery hok curr i j P hc hcs hlv
        by_cases hcov : l ≤ i ∧ j ≤ r
        · have hres : LazyPersistent.queryHelper sumOps l r (fuel + 1) curr i j nodes
              = (LazyPersistent.push sumOps nodes curr i j,
                 some ((LazyPersistent.push sumOps nodes curr i j).getD curr default)) := by
            rw [LazyPersistent.queryHelper, if_neg hdis]
            simp only []
            rw [hn1, if_pos hcov]
          rw [hres]
          refine ⟨?_, ⟨pext, hokP⟩, hmP, fun fuel2 c2 i2 j2 d l2 r2 hc2 hcs2 =>
            hdP fuel2 c2 i2 j2 d l2 r2 hc2 hcs2⟩
          have hnode : ((LazyPersistent.push sumOps nodes curr i j).getD curr default).node
              = SumNode.mk ((nodes.getD curr default).node.value
                  + P * ((j - i + 1 : Nat) : Int)) none := by
            by_cases hij : i = j
            · rw [(push_spec_leaf nodes curr i j P hlv hij hc).2.2]
            · obtain ⟨a, b, ha, hb, _, _, _, _⟩ := SegOkAt_int hok hc hcs hij
              rw [(push_spec_internal nodes curr i j a b P hlv hij ha hb hc).2.2.1]
          rw [pQuery, if_neg hdis, if_pos hcov, hpd]
          simp only [Option.map_some']
          refine congrArg some ?_
          rw [hnode,
            show valD nodes curr = (nodes.getD curr default).node.value from rfl,
            show (nodes.getD curr default).node.value + P * ((j - i + 1 : Nat) : Int)
              = (nodes.getD curr default).node.value
                + (P + 0) * ((j - i + 1 : Nat) : Int) from by ring]
        · -- partial overlap with pending: push, then recurse into the copies
          have hij : i ≠ j := by
            intro hx
            subst hx
            omega
          obtain ⟨a, b, ha, hb, hal, hbl, has, hbs⟩ := SegOkAt_int hok hc hcs hij
          obtain ⟨hplen, hpun, hpe, hpf1, hpf2⟩ :=
            push_spec_internal nodes curr i j a b P hlv hij ha hb hc
          obtain ⟨hsf1, hsf2⟩ := hPfresh hij
          have hlenP := hokP.1
          have hchl : (((LazyPersistent.push sumOps nodes curr i j).getD curr
              default).left).getD 0 = nodes.length := by
            rw [hpe]
            rfl
          have hchr : (((LazyPersistent.push sumOps nodes curr i j).getD curr
              default).right).getD 0 = nodes.length + 1 := by
            rw [hpe]
            rfl
          have hres : LazyPersistent.queryHelper sumOps l r (fuel + 1) curr i j nodes
              = ((LazyPersistent.queryHelper sumOps l r fuel (nodes.length + 1)
                    ((i + j) / 2 + 1) j
                    (LazyPersistent.queryHelper sumOps l r fuel nodes.length i
                      ((i + j) / 2)
                      (LazyPersistent.push sumOps nodes curr i j)).1).1,
                 mergeW sumOps.toNodeOps
                   (LazyPersistent.queryHelper sumOps l r fuel nodes.length i
                     ((i + j) / 2) (LazyPersistent.push sumOps nodes curr i j)).2
                   (LazyPersistent.queryHelper sumOps l r fuel (nodes.length + 1)
                     ((i + j) / 2 + 1) j
                     (LazyPersistent.queryHelper sumOps l r fuel nodes.length i
                       ((i + j) / 2)
                       (LazyPersistent.push sumOps nodes curr i j)).1).2) := by
            rw [LazyPersistent.queryHelper, if_neg hdis]
            simp only []
            rw [hn1, if_neg hcov, hchl, hchr]
          have hres1 : (LazyPersistent.queryHelper sumOps l r (fuel + 1) curr i j nodes).1
              = (LazyPersistent.queryHelper sumOps l r fuel (nodes.length + 1)
                  ((i + j) / 2 + 1) j
                  (LazyPersistent.queryHelper sumOps l r fuel nodes.length i ((i + j) / 2)
                    (LazyPersistent.push sumOps nodes curr i j)).1).1 := by
            rw [hres]
          have hres2 : (LazyPersistent.queryHelper sumOps l r (fuel + 1) curr i j nodes).2
              = mergeW sumOps.toNodeOps
                  (LazyPersistent.queryHelper sumOps l r fuel nodes.length i
                    ((i + j) / 2) (LazyPersistent.push sumOps nodes curr i j)).2
                  (LazyPersistent.queryHelper sumOps l r fuel (nodes.length + 1)
                    ((i + j) / 2 + 1) j
                    (LazyPersistent.queryHelper sumOps l r fuel nodes.length i
                      ((i + j) / 2) (LazyPersistent.push sumOps nodes curr i j)).1).2 := by
            rw [hres]
          obtain ⟨ha1, ⟨ext1, hok1⟩, hm1, hd1⟩ :=
            ih (LazyPersistent.push sumOps nodes curr i j) (segs ++ pext) nodes.length i
              ((i + j) / 2) l r hokP (by omega) hsf1 (by omega)
          obtain ⟨ha2, ⟨ext2, hok2⟩, hm2, hd2⟩ :=
            ih (LazyPersistent.queryHelper sumOps l r fuel nodes.length i ((i + j) / 2)
                (LazyPersistent.push sumOps nodes curr i j)).1
              ((segs ++ pext) ++ ext1) (nodes.length + 1) ((i + j) / 2 + 1) j l r hok1
              (by omega)
              (by rw [segOf_append_lt _ _ _ (by omega)]; exact hsf2) (by omega)
          -- the bridge facts for the two fresh copies
          have hf1val : valD (LazyPersistent.push sumOps nodes curr i j) nodes.length
              = valD nodes a := by
            rw [valD, hpf1, valD]
            exact updateLazyValue_value _ _
          have hf1pnd : pendD (LazyPersistent.push sumOps nodes curr i j) nodes.length
              = pendD nodes a + P := by
            rw [pendD, hpf1, pendD]
            exact updateLazyValue_pend _ _
          have hf1cl : chL (LazyPersistent.push sumOps nodes curr i j) nodes.length
              = chL nodes a := by rw [chL, hpf1, chL]
          have hf1cr : chR (LazyPersistent.push sumOps nodes curr i j) nodes.length
              = chR nodes a := by rw [chR, hpf1, chR]
          have hf2val : valD (LazyPersistent.push sumOps nodes curr i j)
              (nodes.length + 1) = valD nodes b := by
            rw [valD, hpf2, valD]
            exact updateLazyValue_value _ _
          have hf2pnd : pendD (LazyPersistent.push sumOps nodes curr i j)
              (nodes.length + 1) = pendD nodes b + P := by
            rw [pendD, hpf2, pendD]
            exact updateLazyValue_pend _ _
          have hf2cl : chL (LazyPersistent.push sumOps nodes curr i j) (nodes.length + 1)
              = chL nodes b := by rw [chL, hpf2, chL]
          have hf2cr : chR (LazyPersistent.push sumOps nodes curr i j) (nodes.length + 1)
              = chR nodes b := by rw [chR, hpf2, chR]
          have hagp : ∀ k, k < nodes.length →
              segSub (segOf segs k) (i, (i + j) / 2) →
              (LazyPersistent.push sumOps nodes curr i j).getD k default
                = nodes.getD k default := by
            intro k hk hsub
            obtain ⟨hs1, hs2⟩ := hsub
            have hs2' : (segOf segs k).2 ≤ (i + j) / 2 := hs2
            refine hpun k hk ?_
            intro hkc
            subst hkc
            rw [hcs] at hs2'
            have : j ≤ (i + j) / 2 := hs2'
            omega
          have hagq : ∀ k, k < nodes.length →
              segSub (segOf segs k) ((i + j) / 2 + 1, j) →
              (LazyPersistent.push sumOps nodes curr i j).getD k default
                = nodes.getD k default := by
            intro k hk hsub
            obtain ⟨hs1, hs2⟩ := hsub
            have hs1' : (i + j) / 2 + 1 ≤ (segOf segs k).1 := hs1
            refine hpun k hk ?_
            intro hkc
            subst hkc
            rw [hcs] at hs1'
            have : (i + j) / 2 + 1 ≤ i := hs1'
            omega
          refine ⟨?_, ?_, ?_, ?_⟩
          · rw [hres2, pQuery, if_neg hdis, if_neg hcov, hpd,
              show chL nodes curr = a from by rw [chL, ha]; rfl,
              show chR nodes curr = b from by rw [chR, hb]; rfl]
            refine merge_match_map _ _ _ _ ?_ ?_
            · rw [ha1, pQuery_shift hok a nodes.length i ((i + j) / 2) P hal has hf1val
                hf1pnd hf1cl hf1cr hagp fuel 0 l r]
            · rw [ha2,
                hd1 fuel (nodes.length + 1) ((i + j) / 2 + 1) j 0 l r (by omega) hsf2,
                pQuery_shift hok b (nodes.length + 1) ((i + j) / 2 + 1) j P hbl hbs
                  hf2val hf2pnd hf2cl hf2cr hagq fuel 0 l r]
          · refine ⟨pext ++ ext1 ++ ext2, ?_⟩
            rw [hres1, show segs ++ (pext ++ ext1 ++ ext2)
                = segs ++ pext ++ ext1 ++ ext2 from by simp [List.append_assoc]]
            exact hok2
          · rw [hres1]
            omega
          · intro fuel2 c2 i2 j2 d l2 r2 hc2 hcs2
            rw [hres1,
              hd2 fuel2 c2 i2 j2 d l2 r2 (by omega)
                (by rw [segOf_append_lt _ _ _ (by omega), segOf_append_lt _ _ _ (by omega)]
                    exact hcs2),
              hd1 fuel2 c2 i2 j2 d l2 r2 (by omega)
                (by rw [segOf_append_lt _ _ _ (by omega)]; exact hcs2),
              hdP fuel2 c2 i2 j2 d l2 r2 hc2 hcs2]

theorem updateLazyValue_isSome (nd : SumNode) (v : Int) :
    ∃ Pv, (sumOps.updateLazyValue nd v).lazyValue = some Pv := by
  cases h : nd.lazyValue with
  | none => exact ⟨v, by simp [sumOps, h]⟩
  | some old => exact ⟨old + v, by simp [sumOps, h]⟩

/-- `LazyPersistent::update_helper` appends copies and pushes only fresh
slots, leaving the original arena prefix intact and returning a canonically
placed root for the same segment. -/
theorem LazyPersistent.updateHelper_segs_lazy (lq rq : Nat) (v : Int) (n : Nat) :
    ∀ (fuel curr i j : Nat) (nodes : List (PWrap SumNode)) (segs : List (Nat × Nat)),
      SegsOkG nodes segs n → curr < nodes.length → segOf segs curr = (i, j) →
      j - i < fuel →
      ∃ ext : List (Nat × Nat),
        SegsOkG (LazyPersistent.updateHelper sumOps lq rq v fuel curr i j nodes).1
          (segs ++ ext) n ∧
        nodes.length
          ≤ (LazyPersistent.updateHelper sumOps lq rq v fuel curr i j nodes).1.length ∧
        (∀ k, k < nodes.length →
          (LazyPersistent.updateHelper sumOps lq rq v fuel curr i j nodes).1.getD k default
            = nodes.getD k default) ∧
        (LazyPersistent.updateHelper sumOps lq rq v fuel curr i j nodes).2
          < (LazyPersistent.updateHelper sumOps lq rq v fuel curr i j nodes).1.length ∧
        segOf (segs ++ ext)
          (LazyPersistent.updateHelper sumOps lq rq v fuel curr i j nodes).2 = (i, j) := by
  intro fuel
  induction fuel with
  | zero => intro curr i j nodes segs _ _ _ hf; omega
  | succ fuel ih =>
    intro curr i j nodes segs hok hc hcur hf
    obtain ⟨hb1, hb2⟩ := SegOkAt_bounds hok hc hcur
    obtain ⟨hlen, hall⟩ := hok
    rw [LazyPersistent.updateHelper]
    by_cases hd : j < lq ∨ rq < i
    · rw [if_pos hd]
      exact ⟨[], by rw [List.append_nil]; exact ⟨hlen, hall⟩, Nat.le_refl _,
        fun k _ => rfl, hc, by rw [List.append_nil]; exact hcur⟩
    · rw [if_neg hd]
      simp only []
      have hok1 : SegsOkG (nodes ++ [nodes.getD curr default]) (segs ++ [(i, j)]) n := by
        rw [← hcur]
        exact SegsOkG_append_copy ⟨hlen, hall⟩ curr hc
      have hg1 : (nodes ++ [nodes.getD curr default]).getD nodes.length default
          = nodes.getD curr default := by
        rw [getD_append_ge _ _ _ _ (Nat.le_refl _), Nat.sub_self, List.getD_cons_zero]
      by_cases hcov : lq ≤ i ∧ j ≤ rq
      · rw [if_pos hcov, hg1]
        have hBx : ((nodes ++ [nodes.getD curr default]).set nodes.length
            (PWrap.updateLazyValue sumOps (nodes.getD curr default) v)).getD
              nodes.length default
            = PWrap.updateLazyValue sumOps (nodes.getD curr default) v := by
          rw [getD_set_self2 _ _ _ _ (by simp)]
        have hokB : SegsOkG ((nodes ++ [nodes.getD curr default]).set nodes.length
            (PWrap.updateLazyValue sumOps (nodes.getD curr default) v))
            (segs ++ [(i, j)]) n := by
          obtain ⟨hlen1, hall1⟩ := hok1
          refine ⟨by rw [List.length_set]; exact hlen1, ?_⟩
          intro k hk
          rw [List.length_set] at hk
          by_cases hkx : k = nodes.length
          · obtain ⟨g1, g2, g3, g4⟩ := hall1 k hk
            have hBxk : ((nodes ++ [nodes.getD curr default]).set nodes.length
                (PWrap.updateLazyValue sumOps (nodes.getD curr default) v)).getD k default
                = PWrap.updateLazyValue sumOps (nodes.getD curr default) v := by
              rw [hkx]
              exact hBx
            have hgk : (nodes ++ [nodes.getD curr default]).getD k default
                = nodes.getD curr default := by
              rw [hkx]
              exact hg1
            refine ⟨g1, g2, ?_, ?_⟩
            · intro hcnd
              rw [hBxk]
              obtain ⟨e1, e2⟩ := g3 hcnd
              rw [hgk] at e1 e2
              exact ⟨e1, e2⟩
            · intro hcnd
              obtain ⟨p, q, hp1, hq1, hp2, hq2, hp3, hq3⟩ := g4 hcnd
              rw [hgk] at hp1 hq1
              refine ⟨p, q, by rw [hBxk]; exact hp1, by rw [hBxk]; exact hq1,
                by rw [List.length_set]; omega, by rw [List.length_set]; omega, hp3, hq3⟩
          · obtain ⟨g1, g2, g3, g4⟩ := hall1 k hk
            refine ⟨g1, g2, ?_, ?_⟩
            · intro hcnd
              rw [getD_set_ne2 _ _ _ _ _ (fun hx => hkx hx.symm)]
              exact g3 hcnd
            · intro hcnd
              obtain ⟨p, q, hp1, hq1, hp2, hq2, hp3, hq3⟩ := g4 hcnd
              refine ⟨p, q,
                by rw [getD_set_ne2 _ _ _ _ _ (fun hx => hkx hx.symm)]; exact hp1,
                by rw [getD_set_ne2 _ _ _ _ _ (fun hx => hkx hx.symm)]; exact hq1,
                by rw [List.length_set]; omega, by rw [List.length_set]; omega, hp3, hq3⟩
        have hsx : segOf (segs ++ [(i, j)]) nodes.length = (i, j) := by
          rw [segOf, getD_append_ge _ _ _ _ (by omega), hlen, Nat.sub_self]
          rfl
        obtain ⟨Pv, hPv⟩ := updateLazyValue_isSome (nodes.getD curr default).node v
        have hPv2 : (((nodes ++ [nodes.getD curr default]).set nodes.length
            (PWrap.updateLazyValue sumOps (nodes.getD curr default) v)).getD
              nodes.length default).node.lazyValue = some Pv := by
          rw [hBx]
          exact hPv
        obtain ⟨ext2, hokP, hmP, _, hPun⟩ :=
          push_segs hokB nodes.length i j Pv (by simp) hsx hPv2
        refine ⟨[(i, j)] ++ ext2, ?_, ?_, ?_, ?_, ?_⟩
        · rw [show segs ++ ([(i, j)] ++ ext2) = (segs ++ [(i, j)]) ++ ext2 from by
            simp [List.append_assoc]]
          exact hokP
        · show nodes.length ≤ (LazyPersistent.push sumOps
            ((nodes ++ [nodes.getD curr default]).set nodes.length
              (PWrap.updateLazyValue sumOps (nodes.getD curr default) v))
            nodes.length i j).length
          have h2 : nodes.length ≤ ((nodes ++ [nodes.getD curr default]).set nodes.length
              (PWrap.updateLazyValue sumOps (nodes.getD curr default) v)).length := by
            simp
          omega
        · intro k hk
          show (LazyPersistent.push sumOps
            ((nodes ++ [nodes.getD curr default]).set nodes.length
              (PWrap.updateLazyValue sumOps (nodes.getD curr default) v))
            nodes.length i j).getD k default = nodes.getD k default
          rw [hPun k (by
              simp only [List.length_set, List.length_append, List.length_singleton]
              omega) (by omega),
            getD_set_ne2 _ _ _ _ _ (by omega), getD_append_lt _ _ _ _ hk]
        · show nodes.length < (LazyPersistent.push sumOps
            ((nodes ++ [nodes.getD curr default]).set nodes.length
              (PWrap.updateLazyValue sumOps (nodes.getD curr default) v))
            nodes.length i j).length
          have h2 : nodes.length < ((nodes ++ [nodes.getD curr default]).set nodes.length
              (PWrap.updateLazyValue sumOps (nodes.getD curr default) v)).length := by
            simp
          omega
        · show segOf (segs ++ ([(i, j)] ++ ext2)) nodes.length = (i, j)
          rw [show segs ++ ([(i, j)] ++ ext2) = (segs ++ [(i, j)]) ++ ext2 from by
              simp [List.append_assoc],
            segOf_append_lt _ _ _ (by rw [List.length_append, List.length_singleton]; omega)]
          exact hsx
      · rw [if_neg hcov]
        have hij : i ≠ j := by
          intro hx
          subst hx
          omega
        obtain ⟨pp, qq, hp1, hq1, hp2, hq2, hp3, hq3⟩ := SegOkAt_int ⟨hlen, hall⟩ hc hcur hij
        have hchl : ((nodes ++ [nodes.getD curr default]).getD nodes.length
            default).left.getD 0 = pp := by
          rw [hg1, hp1]
          rfl
        rw [hchl]
        obtain ⟨ext1, hok1r, hmono1, hpres1, hidx1, hseg1⟩ :=
          ih pp i ((i + j) / 2) (nodes ++ [nodes.getD curr default]) (segs ++ [(i, j)])
            hok1 (by simp only [List.length_append, List.length_singleton]; omega)
            (by rw [segOf_append_lt _ _ _ (by omega)]; exact hp3) (by omega)
        have hchr : (((LazyPersistent.updateHelper sumOps lq rq v fuel pp i ((i + j) / 2)
              (nodes ++ [nodes.getD curr default])).1.getD nodes.length default)).right.getD 0
            = qq := by
          rw [hpres1 nodes.length (by simp), hg1, hq1]
          rfl
        rw [hchr]
        obtain ⟨ext2, hok2r, hmono2, hpres2, hidx2, hseg2⟩ :=
          ih qq ((i + j) / 2 + 1) j
            (LazyPersistent.updateHelper sumOps lq rq v fuel pp i ((i + j) / 2)
              (nodes ++ [nodes.getD curr default])).1 (segs ++ [(i, j)] ++ ext1)
            hok1r
            (by
              have : qq < (nodes ++ [nodes.getD curr default]).length := by
                simp only [List.length_append, List.length_singleton]
                omega
              omega)
            (by
              rw [segOf_append_lt _ _ _ (by
                rw [List.length_append, List.length_singleton]
                omega), segOf_append_lt _ _ _ (by omega)]
              exact hq3)
            (by omega)
        obtain ⟨hlen1, _⟩ := hok1r
        obtain ⟨hlen2, hall2⟩ := hok2r
        generalize e1 : LazyPersistent.updateHelper sumOps lq rq v fuel pp i ((i + j) / 2)
            (nodes ++ [nodes.getD curr default]) = res1
          at hlen1 hmono1 hpres1 hidx1 hseg1 hmono2 hpres2 hidx2 hseg2 hlen2 hall2 ⊢
        generalize e2 : LazyPersistent.updateHelper sumOps lq rq v fuel qq
            ((i + j) / 2 + 1) j res1.1 = res2
          at hmono2 hpres2 hidx2 hseg2 hlen2 hall2 ⊢
        have hxlen : nodes.length < res2.1.length := by
          have : nodes.length < (nodes ++ [nodes.getD curr default]).length := by simp
          omega
        refine ⟨[(i, j)] ++ ext1 ++ ext2, ⟨?_, ?_⟩, ?_, ?_, ?_, ?_⟩ <;>
          (try rw [show segs ++ ([(i, j)] ++ ext1 ++ ext2)
              = segs ++ [(i, j)] ++ ext1 ++ ext2 from by simp [List.append_assoc]])
        · simp only [List.length_set]
          exact hlen2
        · intro k hk
          simp only [List.length_set] at hk
          by_cases hkx : k = nodes.length
          · have hsg : segOf (segs ++ [(i, j)] ++ ext1 ++ ext2) k = (i, j) := by
              rw [segOf, getD_append_lt _ _ _ _ (by
                  rw [List.length_append, List.length_append, List.length_singleton]
                  omega),
                getD_append_lt _ _ _ _ (by
                  rw [List.length_append, List.length_singleton]
                  omega),
                getD_append_ge _ _ _ _ (by omega), hkx, hlen]
              simp
            have hng : ((res2.1.set nodes.length
                  (PWrap.combine sumOps.toNodeOps (res2.1.getD res1.2 default)
                    (res2.1.getD res2.2 default))).set nodes.length
                  (((res2.1.set nodes.length
                      (PWrap.combine sumOps.toNodeOps (res2.1.getD res1.2 default)
                        (res2.1.getD res2.2 default))).getD nodes.length
                    default).setChildren res1.2 res2.2)).getD k default
                = (PWrap.combine sumOps.toNodeOps (res2.1.getD res1.2 default)
                    (res2.1.getD res2.2 default)).setChildren res1.2 res2.2 := by
              rw [hkx, getD_set_self2 _ _ _ _ (by simp only [List.length_set]; omega),
                getD_set_self2 _ _ _ _ (by omega)]
            refine ⟨by rw [hsg]; exact hb1, by rw [hsg]; exact hb2, ?_, ?_⟩
            · intro hc2
              rw [hsg] at hc2
              exact absurd hc2 hij
            · intro _
              refine ⟨res1.2, res2.2, ?_, ?_, ?_, ?_, ?_, ?_⟩
              · rw [hng]
                rfl
              · rw [hng]
                rfl
              · simp only [List.length_set]
                omega
              · simp only [List.length_set]
                omega
              · rw [hsg, segOf_append_lt _ _ _ (by omega)]
                exact hseg1
              · rw [hsg]
                exact hseg2
          · have hk2 : k < res2.1.length := hk
            refine SegOkAt_mono hk2 (by simp only [List.length_set]; exact Nat.le_refl _)
              hlen2 ?_ (fun m hm => rfl) (hall2 k hk2)
            rw [getD_set_ne2 _ _ _ _ _ (fun hx => hkx hx.symm),
              getD_set_ne2 _ _ _ _ _ (fun hx => hkx hx.symm)]
        · simp only [List.length_set]
          have : nodes.length ≤ (nodes ++ [nodes.getD curr default]).length := by simp
          omega
        · intro k hk
          rw [getD_set_ne2 _ _ _ _ _ (by omega), getD_set_ne2 _ _ _ _ _ (by omega),
            hpres2 k (by
              have : k < (nodes ++ [nodes.getD curr default]).length := by
                simp only [List.length_append, List.length_singleton]
                omega
              omega),
            hpres1 k (by simp only [List.length_append, List.length_singleton]; omega),
            getD_append_lt _ _ _ _ hk]
        · simp only [List.length_set]
          omega
        · rw [segOf, getD_append_lt _ _ _ _ (by
              rw [List.length_append, List.length_append, List.length_singleton]
              omega),
            getD_append_lt _ _ _ _ (by
              rw [List.length_append, List.length_singleton]
              omega),
            getD_append_ge _ _ _ _ (by omega), hlen]
          simp

/-- Under the segment invariant every internal node has its left child set,
so `LazyPersistent::lower_bound_helper` never pushes: the arena is returned
unchanged. -/
theorem LazyPersistent.lowerBoundHelper_pure (pred : Int → Int → Bool)
    (g : Int → Int → Int) {segs : List (Nat × Nat)} {n : Nat} :
    ∀ (fuel curr i j : Nat) (v0 : Int) (nodes : List (PWrap SumNode)),
      SegsOkG nodes segs n → curr < nodes.length → segOf segs curr = (i, j) →
      (LazyPersistent.lowerBoundHelper sumOps pred g fuel curr i j v0 nodes).1
        = nodes := by
  intro fuel
  induction fuel with
  | zero => intros; rfl
  | succ fuel ih =>
    intro curr i j v0 nodes hok hc hcs
    rw [LazyPersistent.lowerBoundHelper]
    by_cases hij : i = j
    · rw [if_pos hij]
    · rw [if_neg hij]
      obtain ⟨pp, qq, hp1, hq1, hp2, hq2, hp3, hq3⟩ := SegOkAt_int hok hc hcs hij
      simp only []
      rw [hp1]
      simp only []
      split
      · exact ih pp i ((i + j) / 2) v0 nodes hok hp2 hp3
      · rw [show ((nodes.getD curr default).right).getD 0 = qq from by rw [hq1]; rfl]
        exact ih qq ((i + j) / 2 + 1) j _ nodes hok hq2 hq3

/-- One `LazyPersistent` operation keeps `n`, extends the arena and roots,
and preserves the denotation of every pre-existing slot. -/
theorem LazyPersistent.runOp_extends_lazy (st : PerState SumNode) (segs : List (Nat × Nat))
    (op : LOp) (hok : SegsOkG st.nodes segs st.n) (hroots : RootsOkP st segs)
    (hn : 1 ≤ st.n) :
    ∃ ext rext,
      SegsOkG (LazyPersistent.runOp st op).nodes (segs ++ ext)
        (LazyPersistent.runOp st op).n ∧
      RootsOkP (LazyPersistent.runOp st op) (segs ++ ext) ∧
      (LazyPersistent.runOp st op).n = st.n ∧
      st.nodes.length ≤ (LazyPersistent.runOp st op).nodes.length ∧
      (LazyPersistent.runOp st op).roots = st.roots ++ rext ∧
      (∀ (fuel2 c2 i2 j2 : Nat) (d : Int) (l2 r2 : Nat), c2 < st.nodes.length →
        segOf segs c2 = (i2, j2) →
        pQuery (LazyPersistent.runOp st op).nodes fuel2 c2 i2 j2 d l2 r2
          = pQuery st.nodes fuel2 c2 i2 j2 d l2 r2) := by
  have hsl := hok.1
  cases op with
  | upd version lu ru val =>
    by_cases hv : version < st.roots.length
    · have hn0 : ¬ st.n = 0 := by omega
      have hst : LazyPersistent.runOp st (LOp.upd version lu ru val)
          = { nodes := (LazyPersistent.updateHelper sumOps lu ru val st.n
                (st.roots.getD version 0) 0 (st.n - 1) st.nodes).1,
              roots := st.roots ++ [(LazyPersistent.updateHelper sumOps lu ru val st.n
                (st.roots.getD version 0) 0 (st.n - 1) st.nodes).2],
              n := st.n } := by
        show (LazyPersistent.update sumOps st version lu ru val).getD st = _
        rw [LazyPersistent.update, if_pos hv, if_neg hn0]
        rfl
      obtain ⟨hrb, hrs⟩ := hroots _ (getD_mem_of_lt st.roots version 0 hv)
      obtain ⟨ext, hok2, hmono, hpres, hidx, hseg⟩ :=
        LazyPersistent.updateHelper_segs_lazy lu ru val st.n st.n (st.roots.getD version 0) 0
          (st.n - 1) st.nodes segs hok hrb hrs (by omega)
      rw [hst]
      refine ⟨ext, [(LazyPersistent.updateHelper sumOps lu ru val st.n
        (st.roots.getD version 0) 0 (st.n - 1) st.nodes).2], hok2, ?_, rfl, hmono, rfl, ?_⟩
      · intro ro hro
        rcases List.mem_append.1 hro with hro | hro
        · obtain ⟨hrb2, hrs2⟩ := hroots ro hro
          exact ⟨Nat.lt_of_lt_of_le hrb2 hmono,
            by rw [segOf_append_lt _ _ _ (by omega)]; exact hrs2⟩
        · simp only [List.mem_singleton] at hro
          subst hro
          exact ⟨hidx, hseg⟩
      · intro fuel2 c2 i2 j2 d l2 r2 hc2 hcs2
        exact pQuery_congr hok fuel2 c2 i2 j2 d l2 r2 hc2 hcs2
          (fun k hk _ => hpres k hk)
    · have hst : LazyPersistent.runOp st (LOp.upd version lu ru val) = st := by
        show (LazyPersistent.update sumOps st version lu ru val).getD st = st
        rw [LazyPersistent.update, if_neg hv]
        rfl
      rw [hst]
      exact ⟨[], [], by rw [List.append_nil]; exact hok,
        by rw [List.append_nil]; exact hroots, rfl, Nat.le_refl _,
        by rw [List.append_nil], fun _ _ _ _ _ _ _ _ _ => rfl⟩
  | qry version lu ru =>
    by_cases hv : version < st.roots.length
    · have hn0 : ¬ st.n = 0 := by omega
      have hq : LazyPersistent.query sumOps st version lu ru
          = some ({ nodes := (LazyPersistent.queryHelper sumOps lu ru st.n
                        (st.roots.getD version 0) 0 (st.n - 1) st.nodes).1,
                    roots := st.roots, n := st.n },
              ((LazyPersistent.queryHelper sumOps lu ru st.n (st.roots.getD version 0) 0
                (st.n - 1) st.nodes).2).map PWrap.node) := by
        rw [LazyPersistent.query, if_pos hv, if_neg hn0]
      have hst : LazyPersistent.runOp st (LOp.qry version lu ru)
          = { nodes := (LazyPersistent.queryHelper sumOps lu ru st.n
                (st.roots.getD version 0) 0 (st.n - 1) st.nodes).1,
              roots := st.roots, n := st.n } := by
        show (match LazyPersistent.query sumOps st version lu ru with
          | some pr => pr.1
          | none => st) = _
        rw [hq]
      obtain ⟨hrb, hrs⟩ := hroots _ (getD_mem_of_lt st.roots version 0 hv)
      obtain ⟨_, ⟨ext, hokQ⟩, hmQ, hdQ⟩ :=
        LazyPersistent.queryHelper_spec st.n st.n st.nodes segs (st.roots.getD version 0)
          0 (st.n - 1) lu ru hok hrb hrs (by omega)
      rw [hst]
      refine ⟨ext, [], hokQ, ?_, rfl, hmQ, by rw [List.append_nil], ?_⟩
      · intro ro hro
        obtain ⟨hrb2, hrs2⟩ := hroots ro hro
        exact ⟨Nat.lt_of_lt_of_le hrb2 hmQ,
          by rw [segOf_append_lt _ _ _ (by omega)]; exact hrs2⟩
      · intro fuel2 c2 i2 j2 d l2 r2 hc2 hcs2
        exact hdQ fuel2 c2 i2 j2 d l2 r2 hc2 hcs2
    · have hq : LazyPersistent.query sumOps st version lu ru = none := by
        rw [LazyPersistent.query, if_neg hv]
      have hst : LazyPersistent.runOp st (LOp.qry version lu ru) = st := by
        show (match LazyPersistent.query sumOps st version lu ru with
          | some pr => pr.1
          | none => st) = st
        rw [hq]
      rw [hst]
      exact ⟨[], [], by rw [List.append_nil]; exact hok,
        by rw [List.append_nil]; exact hroots, rfl, Nat.le_refl _,
        by rw [List.append_nil], fun _ _ _ _ _ _ _ _ _ => rfl⟩
  | lb version pred g val =>
    by_cases hv : version < st.roots.length
    · have hn0 : ¬ st.n = 0 := by omega
      obtain ⟨hrb, hrs⟩ := hroots _ (getD_mem_of_lt st.roots version 0 hv)
      have hpure : (LazyPersistent.lowerBoundHelper sumOps pred g st.n
          (st.roots.getD version 0) 0 (st.n - 1) val st.nodes).1 = st.nodes :=
        LazyPersistent.lowerBoundHelper_pure pred g st.n (st.roots.getD version 0) 0
          (st.n - 1) val st.nodes hok hrb hrs
      have hq : LazyPersistent.lowerBound sumOps st version pred g val
          = some ({ nodes := (LazyPersistent.lowerBoundHelper sumOps pred g st.n
                        (st.roots.getD version 0) 0 (st.n - 1) val st.nodes).1,
                    roots := st.roots, n := st.n },
              (LazyPersistent.lowerBoundHelper sumOps pred g st.n
                (st.roots.getD version 0) 0 (st.n - 1) val st.nodes).2) := by
        rw [LazyPersistent.lowerBound, if_pos hv, if_neg hn0]
      have hst : LazyPersistent.runOp st (LOp.lb version pred g val)
          = { nodes := st.nodes, roots := st.roots, n := st.n } := by
        show (match LazyPersistent.lowerBound sumOps st version pred g val with
          | some pr => pr.1
          | none => st) = _
        rw [hq]
        simp only []
        rw [hpure]
      rw [hst]
      exact ⟨[], [], by rw [List.append_nil]; exact hok,
        by rw [List.append_nil]; exact hroots, rfl, Nat.le_refl _,
        by rw [List.append_nil], fun _ _ _ _ _ _ _ _ _ => rfl⟩
    · have hq : LazyPersistent.lowerBound sumOps st version pred g val = none := by
        rw [LazyPersistent.lowerBound, if_neg hv]
      have hst : LazyPersistent.runOp st (LOp.lb version pred g val) = st := by
        show (match LazyPersistent.lowerBound sumOps st version pred g val with
          | some pr => pr.1
          | none => st) = st
        rw [hq]
      rw [hst]
      exact ⟨[], [], by rw [List.append_nil]; exact hok,
        by rw [List.append_nil]; exact hroots, rfl, Nat.le_refl _,
        by rw [List.append_nil], fun _ _ _ _ _ _ _ _ _ => rfl⟩

/-- A whole sequence of `LazyPersistent` operations only extends the state,
preserving every pre-existing slot's denotation. -/
theorem LazyPersistent.runOps_extends_lazy :
    ∀ (l : List LOp) (st : PerState SumNode) (segs : List (Nat × Nat)),
      SegsOkG st.nodes segs st.n → RootsOkP st segs → 1 ≤ st.n →
      ∃ ext rext,
        SegsOkG (LazyPersistent.runOps st l).nodes (segs ++ ext)
          (LazyPersistent.runOps st l).n ∧
        RootsOkP (LazyPersistent.runOps st l) (segs ++ ext) ∧
        (LazyPersistent.runOps st l).n = st.n ∧
        st.nodes.length ≤ (LazyPersistent.runOps st l).nodes.length ∧
        (LazyPersistent.runOps st l).roots = st.roots ++ rext ∧
        (∀ (fuel2 c2 i2 j2 : Nat) (d : Int) (l2 r2 : Nat), c2 < st.nodes.length →
          segOf segs c2 = (i2, j2) →
          pQuery (LazyPersistent.runOps st l).nodes fuel2 c2 i2 j2 d l2 r2
            = pQuery st.nodes fuel2 c2 i2 j2 d l2 r2) := by
  intro l
  induction l with
  | nil =>
    intro st segs hok hroots hn
    exact ⟨[], [], by rw [List.append_nil]; exact hok,
      by rw [List.append_nil]; exact hroots, rfl, Nat.le_refl _,
      by rw [List.append_nil]; rfl, fun _ _ _ _ _ _ _ _ _ => rfl⟩
  | cons op l ih =>
    intro st segs hok hroots hn
    obtain ⟨ext0, rext0, hok0, hroots0, hneq0, hmono0, hre0, hd0⟩ :=
      LazyPersistent.runOp_extends_lazy st segs op hok hroots hn
    obtain ⟨ext1, rext1, hok1, hroots1, hneq1, hmono1, hre1, hd1⟩ :=
      ih (LazyPersistent.runOp st op) (segs ++ ext0) hok0 hroots0 (by omega)
    have hsl := hok.1
    have hrun : LazyPersistent.runOps st (op :: l)
        = LazyPersistent.runOps (LazyPersistent.runOp st op) l := rfl
    rw [hrun]
    refine ⟨ext0 ++ ext1, rext0 ++ rext1, ?_, ?_, by omega, by omega, ?_, ?_⟩
    · rw [← List.append_assoc]
      exact hok1
    · rw [← List.append_assoc]
      exact hroots1
    · rw [hre1, hre0, List.append_assoc]
    · intro fuel2 c2 i2 j2 d l2 r2 hc2 hcs2
      rw [hd1 fuel2 c2 i2 j2 d l2 r2 (by omega)
          (by rw [segOf_append_lt _ _ _ (by omega)]; exact hcs2),
        hd0 fuel2 c2 i2 j2 d l2 r2 hc2 hcs2]

/-- The caller-visible result of a valid `LazyPersistent` query is exactly
the pure denotation of the queried version's root. -/
theorem LazyPersistent.query_result (st : PerState SumNode) (segs : List (Nat × Nat))
    (v l r : Nat) (hok : SegsOkG st.nodes segs st.n) (hroots : RootsOkP st segs)
    (hn : 1 ≤ st.n) (hv : v < st.roots.length) :
    (LazyPersistent.query sumOps st v l r).map Prod.snd
      = some ((pQuery st.nodes st.n (st.roots.getD v 0) 0 (st.n - 1) 0 l r).map
          (fun z => SumNode.mk z none)) := by
  have hn0 : ¬ st.n = 0 := by omega
  obtain ⟨hrb, hrs⟩ := hroots _ (getD_mem_of_lt st.roots v 0 hv)
  obtain ⟨hres, _, _, _⟩ :=
    LazyPersistent.queryHelper_spec st.n st.n st.nodes segs (st.roots.getD v 0) 0
      (st.n - 1) l r hok hrb hrs (by omega)
  rw [LazyPersistent.query, if_pos hv, if_neg hn0]
  simp only [Option.map_some']
  exact congrArg some hres

/-- **C1**: for both persistent engines every recorded version is
observationally immutable.  Starting from `build` of a non-empty list and any
first operation history `ops1`, every version `v` recorded at that point
answers every query `(v, l, r)` identically after any further operation
sequence `ops2` — updates on any version, queries and lower bounds, including
`LazyPersistent` queries whose internal pushes mutate and grow the arena. -/
theorem c1_persistent_versions_immutable :
    (∀ (N V : Type) [Inhabited N] (ops : NodeOps N V) (values : List N),
      values ≠ [] →
      ∀ (ops1 ops2 : List (POp V)) (v l r : Nat),
        v < (Persistent.runOps ops (Persistent.build ops values) ops1).roots.length →
        Persistent.query ops
            (Persistent.runOps ops
              (Persistent.runOps ops (Persistent.build ops values) ops1) ops2) v l r
          = Persistent.query ops
              (Persistent.runOps ops (Persistent.build ops values) ops1) v l r) ∧
    (∀ (values : List SumNode), values ≠ [] →
      ∀ (ops1 ops2 : List LOp) (v l r : Nat),
        v < (LazyPersistent.runOps (LazyPersistent.build sumOps values) ops1).roots.length →
        (LazyPersistent.query sumOps
            (LazyPersistent.runOps
              (LazyPersistent.runOps (LazyPersistent.build sumOps values) ops1) ops2)
            v l r).map Prod.snd
          = (LazyPersistent.query sumOps
              (LazyPersistent.runOps (LazyPersistent.build sumOps values) ops1)
              v l r).map Prod.snd) := by
  constructor
  · intro N V _ ops values hne ops1 ops2 v l r hv
    have hn : 0 < values.length := List.length_pos.2 hne
    obtain ⟨segs, hok, hroots, hneq, _⟩ := Persistent.build_segs ops values hne
    rw [← hneq] at hok
    obtain ⟨ext1, rext1, hok1, hroots1, hneq1, hpres1, hmono1, hre1⟩ :=
      Persistent.runOps_extends ops ops1 (Persistent.build ops values) segs hok hroots
        (by omega)
    obtain ⟨ext2, rext2, hok2, hroots2, hneq2, hpres2, hmono2, hre2⟩ :=
      Persistent.runOps_extends ops ops2
        (Persistent.runOps ops (Persistent.build ops values) ops1) (segs ++ ext1) hok1
        hroots1 (by omega)
    exact Persistent.query_stable ops _ _ (segs ++ ext1) v l r hok1 hroots1 (by omega)
      hneq2 hpres2 ⟨rext2, hre2⟩ hv
  · intro values hne ops1 ops2 v l r hv
    have hn : 0 < values.length := List.length_pos.2 hne
    obtain ⟨segs, hok, hroots, hneq, _⟩ := Persistent.build_segs sumOps.toNodeOps values hne
    have hb : LazyPersistent.build sumOps values = Persistent.build sumOps.toNodeOps values :=
      rfl
    rw [← hb] at hok hroots hneq
    rw [← hneq] at hok
    obtain ⟨ext1, rext1, hok1, hroots1, hneq1, hmono1, hre1, hd1⟩ :=
      LazyPersistent.runOps_extends_lazy ops1 (LazyPersistent.build sumOps values) segs hok
        hroots (by omega)
    obtain ⟨ext2, rext2, hok2, hroots2, hneq2, hmono2, hre2, hd2⟩ :=
      LazyPersistent.runOps_extends_lazy ops2
        (LazyPersistent.runOps (LazyPersistent.build sumOps values) ops1) (segs ++ ext1)
        hok1 hroots1 (by omega)
    have hv2 : v < (LazyPersistent.runOps
        (LazyPersistent.runOps (LazyPersistent.build sumOps values) ops1) ops2).roots.length := by
      rw [hre2, List.length_append]
      omega
    have hroot : (LazyPersistent.runOps
          (LazyPersistent.runOps (LazyPersistent.build sumOps values) ops1) ops2).roots.getD v 0
        = (LazyPersistent.runOps (LazyPersistent.build sumOps values) ops1).roots.getD v 0 := by
      rw [hre2, getD_append_lt _ _ _ _ hv]
    obtain ⟨hrb, hrs⟩ := hroots1 _
      (getD_mem_of_lt (LazyPersistent.runOps (LazyPersistent.build sumOps values) ops1).roots
        v 0 hv)
    rw [LazyPersistent.query_result
        (LazyPersistent.runOps (LazyPersistent.build sumOps values) ops1) (segs ++ ext1)
        v l r hok1 hroots1 (by omega) hv,
      LazyPersistent.query_result
        (LazyPersistent.runOps
          (LazyPersistent.runOps (LazyPersistent.build sumOps values) ops1) ops2)
        (segs ++ ext1 ++ ext2) v l r hok2 hroots2 (by omega) hv2,
      hroot, hneq2,
      hd2 (LazyPersistent.runOps (LazyPersistent.build sumOps values) ops1).n
        ((LazyPersistent.runOps (LazyPersistent.build sumOps values) ops1).roots.getD v 0)
        0 ((LazyPersistent.runOps (LazyPersistent.build sumOps values) ops1).n - 1)
        0 l r hrb hrs]

/-- Witness: both conjuncts of the immutability theorem instantiated on the
two-leaf sum tree, with a later update as the interfering history. -/
theorem c1_persistent_versions_immutable_witness :
    (sumLeavesUpTo 2 ≠ [] ∧
      0 < (Persistent.runOps sumOps.toNodeOps
            (Persistent.build sumOps.toNodeOps (sumLeavesUpTo 2)) []).roots.length ∧
      Persistent.query sumOps.toNodeOps
          (Persistent.runOps sumOps.toNodeOps
            (Persistent.runOps sumOps.toNodeOps
              (Persistent.build sumOps.toNodeOps (sumLeavesUpTo 2)) [])
            [POp.upd 0 0 (5 : Int)])
          0 0 1
        = Persistent.query sumOps.toNodeOps
            (Persistent.runOps sumOps.toNodeOps
              (Persistent.build sumOps.toNodeOps (sumLeavesUpTo 2)) [])
            0 0 1) ∧
    (0 < (LazyPersistent.runOps
            (LazyPersistent.build sumOps (sumLeavesUpTo 2)) []).roots.length ∧
      (LazyPersistent.query sumOps
          (LazyPersistent.runOps
            (LazyPersistent.runOps (LazyPersistent.build sumOps (sumLeavesUpTo 2)) [])
            [LOp.upd 0 0 1 7])
          0 0 1).map Prod.snd
        = (LazyPersistent.query sumOps
            (LazyPersistent.runOps (LazyPersistent.build sumOps (sumLeavesUpTo 2)) [])
            0 0 1).map Prod.snd) :=
  ⟨⟨by decide, by decide,
    c1_persistent_versions_immutable.1 SumNode Int sumOps.toNodeOps (sumLeavesUpTo 2)
      (by decide) [] [POp.upd 0 0 (5 : Int)] 0 0 1 (by decide)⟩,
   ⟨by decide,
    c1_persistent_versions_immutable.2 (sumLeavesUpTo 2) (by decide) []
      [LOp.upd 0 0 1 7] 0 0 1 (by decide)⟩⟩

end SegTree
